import Mathlib

/-!
# The rotating cube renderer of `src/main.cpp`

A shallow embedding of the rendering pipeline (depth sorter, projector,
interpolating scanline rasterizer, per-face rotation, frame orchestrator)
together with theorems about it.

Modelling conventions.

* The arithmetic of the source is read in two ways.  In the exact reading
  `float` and `double` values are exact numbers and `int` is `Int`; the
  definitions are polymorphic in a linearly ordered field with a floor
  function, so they run on `ℚ` and can be reasoned about on `ℝ`.  This reading
  carries the properties of the rotation, the depth sorter and the frame,
  which are stated over the reals.
* In the machine reading (`InterpolateM`, `DrawFilledTriangleM`,
  `ProjectTo2DM`) every floating operation is followed by a rounding `fl`,
  and an `int` operation that leaves the 32-bit range has no defined result
  (`none`).  `roundDouble` and `roundFloat` are the IEEE 754 roundings to
  nearest, ties to even, with 53 and 24 significant bits; they agree with
  the formats as long as a result neither overflows nor falls below the
  least normal number, which is the case for every operation of the
  rasterizer on `int` coordinates.  With `fl t = t` the machine reading is the
  exact one on inputs that stay in range.
* `cos` and `sin` come from the C library; `rotateAndFillCube` takes them as
  parameters.
* An access outside an array or vector, `pop_back` on an empty vector and a
  division by zero in the projection have no defined result in the source;
  the embedding returns `none` there.
* `GFX::setPixel` is an external service.  The embedding records the calls
  made to it, in order.
-/

namespace CubeDemo

/-! ## Data model -/

/-- Source: `struct Point3D { float x, y, z; }`. -/
structure Point3D (α : Type) where
  x : α
  y : α
  z : α
deriving DecidableEq

/-- Source: `struct Point2D { int x, y; }`. -/
structure Point2D where
  x : Int
  y : Int
deriving DecidableEq

/-- Source: `struct Face { int v0, v1, v2; int color; int depth; }`. -/
structure Face where
  v0 : Int
  v1 : Int
  v2 : Int
  color : Int
  depth : Int
deriving DecidableEq

/-- One call `GFX::setPixel(x, y, color)`. -/
structure Pixel where
  x : Int
  y : Int
  color : Int
deriving DecidableEq

/-- One call of `DrawFilledTriangle`: its arguments and the `setPixel` calls it made. -/
structure DrawCall where
  p0 : Point2D
  p1 : Point2D
  p2 : Point2D
  color : Int
  pixels : List Pixel
deriving DecidableEq

/-- The working vertex buffer `vertices[]` in its initial state. -/
def vertices (α : Type) [LinearOrderedField α] : List (Point3D α) :=
  [ ⟨-1, -1, -1⟩, ⟨1, -1, -1⟩, ⟨1, 1, -1⟩, ⟨-1, 1, -1⟩,
    ⟨-1, -1, 1⟩, ⟨1, -1, 1⟩, ⟨1, 1, 1⟩, ⟨-1, 1, 1⟩ ]

/-- The canonical vertex set `oldVertices[]`. -/
def oldVertices (α : Type) [LinearOrderedField α] : List (Point3D α) :=
  [ ⟨-1, -1, -1⟩, ⟨1, -1, -1⟩, ⟨1, 1, -1⟩, ⟨-1, 1, -1⟩,
    ⟨-1, -1, 1⟩, ⟨1, -1, 1⟩, ⟨1, 1, 1⟩, ⟨-1, 1, 1⟩ ]

/-- The face table `faces[]`.  The initializers give four of the five fields, so
`depth` starts at zero. -/
def faces : List Face :=
  [ ⟨0, 1, 2, 6, 0⟩, ⟨0, 2, 3, 6, 0⟩,
    ⟨4, 5, 6, 1, 0⟩, ⟨4, 6, 7, 1, 0⟩,
    ⟨0, 3, 7, 2, 0⟩, ⟨0, 7, 4, 2, 0⟩,
    ⟨1, 5, 6, 3, 0⟩, ⟨1, 6, 2, 3, 0⟩,
    ⟨2, 3, 7, 4, 0⟩, ⟨2, 7, 6, 4, 0⟩,
    ⟨0, 1, 5, 5, 0⟩, ⟨0, 5, 4, 5, 0⟩ ]

def SCREEN_WIDTH : Int := 320

def SCREEN_HEIGHT : Int := 240

/-- Source: `const float FOV = 256`. -/
def FOV {α : Type} [LinearOrderedField α] : α := 256

/-! ## Primitive operations of the language -/

/-- Conversion of a floating value to `int`: the fractional part is discarded
(rounding toward zero). -/
def truncToInt {α : Type} [LinearOrderedField α] [FloorRing α] (x : α) : Int :=
  if 0 ≤ x then ⌊x⌋ else ⌈x⌉

/-- Indexing `v[i]` with an `int` index; `none` outside the bounds. -/
def indexAt {β : Type} (v : List β) (i : Int) : Option β :=
  if i < 0 then none else v[i.toNat]?

/-! ## Depth sorter -/

/-- Source: `computeFaceDepth`, reading the working buffer `vs`. -/
def computeFaceDepth {α : Type} [LinearOrderedField α] (vs : List (Point3D α)) (face : Face) :
    Option α := do
  let z0 ← (indexAt vs face.v0).map Point3D.z
  let z1 ← (indexAt vs face.v1).map Point3D.z
  let z2 ← (indexAt vs face.v2).map Point3D.z
  pure ((z0 + z1 + z2) / 3)

/-- Inner loop of the library insertion sort (`__unguarded_linear_insert`): the
hole moves left past every element `next` with `comp val next`.  The argument is
the part of the range left of the hole, nearest element first. -/
def unguardedLinearInsert {β : Type} (comp : β → β → Bool) (val : β) : List β → List β
  | [] => [val]
  | next :: rest =>
    if comp val next then next :: unguardedLinearInsert comp val rest
    else val :: next :: rest

/-- One round of the library insertion sort (`__insertion_sort`): `done` is the
already sorted front of the range and `val` the element that follows it. -/
def insertionStep {β : Type} (comp : β → β → Bool) (done : List β) (val : β) : List β :=
  match done with
  | [] => [val]
  | first :: _ =>
    if comp val first then val :: done
    else (unguardedLinearInsert comp val done.reverse).reverse

/-- The call `std::sort(first, last, comp)`.  The C++ standard leaves the algorithm
open; this is the insertion sort that libstdc++ runs on a range of at most 16
elements, which covers the 12 entries of `faces[]`. -/
def stdSort {β : Type} (comp : β → β → Bool) (l : List β) : List β :=
  l.foldl (insertionStep comp) []

/-- The first loop of `sortFacesByDepth`: `face.depth = computeFaceDepth(face)`
for every face; the `float` result is converted to the `int` field. -/
def assignDepths {α : Type} [LinearOrderedField α] [FloorRing α] (vs : List (Point3D α)) :
    List Face → Option (List Face)
  | [] => some []
  | face :: rest => do
    let d ← computeFaceDepth vs face
    let rest ← assignDepths vs rest
    pure ({ face with depth := truncToInt d } :: rest)

/-- The comparator that `sortFacesByDepth` hands to `std::sort`:
`return a.depth > b.depth`. -/
def depthGreater (a b : Face) : Bool := decide (a.depth > b.depth)

/-- Source: `sortFacesByDepth`. -/
def sortFacesByDepth {α : Type} [LinearOrderedField α] [FloorRing α] (vs : List (Point3D α))
    (fs : List Face) : Option (List Face) := do
  let fs ← assignDepths vs fs
  pure (stdSort depthGreater fs)

/-- The three vertex indices of `face` are valid indices of a buffer of `n` entries. -/
def validFace (n : Nat) (face : Face) : Prop :=
  (0 ≤ face.v0 ∧ face.v0 < n) ∧ (0 ≤ face.v1 ∧ face.v1 < n) ∧ (0 ≤ face.v2 ∧ face.v2 < n)

instance (n : Nat) (face : Face) : Decidable (validFace n face) := by
  unfold validFace
  infer_instance

/-- What identifies a face: its vertex indices and its color.  The `depth` field is
scratch space of the sorter. -/
def faceIdentity (face : Face) : Int × Int × Int × Int :=
  (face.v0, face.v1, face.v2, face.color)

/-! ## Projector -/

/-- Source: `ProjectTo2D`.  `SCREEN_WIDTH / 2` is an integer division; the sum is
formed in floating point and converted to `int` on assignment. -/
def ProjectTo2D {α : Type} [LinearOrderedField α] [FloorRing α] (p : Point3D α) :
    Option Point2D :=
  if p.z + 4 = 0 then none
  else
    let x : Int := truncToInt (((SCREEN_WIDTH / 2 : Int) : α) + (p.x * FOV) / (p.z + 4))
    let y : Int := truncToInt (((SCREEN_HEIGHT / 2 : Int) : α) - (p.y * FOV) / (p.z + 4))
    some ⟨x, y⟩

/-! ## Rasterizer -/

/-- The loop `for (int i = i0; i <= i1; i++) { values.push_back(d); d += a; }`
of `Interpolate`, by the number of rounds left. -/
def interpolateLoop {α : Type} [LinearOrderedField α] (a : α) : Nat → α → List α
  | 0, _ => []
  | n + 1, d => d :: interpolateLoop a n (d + a)

/-- Source: `Interpolate`.  The loop runs `i1 + 1 - i0` times (not at all when
`i1 < i0`). -/
def Interpolate {α : Type} [LinearOrderedField α] (i0 : Int) (d0 : α) (i1 : Int) (d1 : α) :
    List α :=
  if i0 = i1 then [d0]
  else
    let di : Int := i1 - i0
    let di : Int := if di = 0 then 1 else di
    let a : α := (d1 - d0) / (di : α)
    interpolateLoop a (i1 + 1 - i0).toNat d0

/-- The three compare-and-swap lines that open `DrawFilledTriangle`; the result is
`(p0, p1, p2)` after them. -/
def sortPoints (p0 p1 p2 : Point2D) : Point2D × Point2D × Point2D :=
  let s1 : Point2D × Point2D := if p1.y < p0.y then (p1, p0) else (p0, p1)
  let p0 := s1.1
  let p1 := s1.2
  let s2 : Point2D × Point2D := if p2.y < p0.y then (p2, p0) else (p0, p2)
  let p0 := s2.1
  let p2 := s2.2
  let s3 : Point2D × Point2D := if p2.y < p1.y then (p2, p1) else (p1, p2)
  let p1 := s3.1
  let p2 := s3.2
  (p0, p1, p2)

/-- The inner loop `for (int x = xl; x <= xr; x++) setPixel(x, y, color)`: `x` starts
at `xl` converted to `int` and runs while `x <= xr`, that is up to the floor of `xr`. -/
def fillRow (xl xr : ℚ) (y color : Int) : List Pixel :=
  (List.range (⌊xr⌋ + 1 - truncToInt xl).toNat).map
    fun (i : Nat) => ⟨truncToInt xl + (i : Int), y, color⟩

/-- The outer loop `for (int y = p0.y; y <= p2.y; y++)` of `DrawFilledTriangle`, by
the number of rounds left; `y0` is `p0.y`. -/
def drawRows (x_left x_right : List ℚ) (y0 color : Int) : Nat → Int → Option (List Pixel)
  | 0, _ => some []
  | n + 1, y => do
    let xl ← indexAt x_left (y - y0)
    let xr ← indexAt x_right (y - y0)
    let rest ← drawRows x_left x_right y0 color n (y + 1)
    pure (fillRow xl xr y color ++ rest)

/-- The vector `x02` of `DrawFilledTriangle`: the edge from `p0` straight to `p2`. -/
def directEdge (p0 p2 : Point2D) : List ℚ :=
  Interpolate p0.y (p0.x : ℚ) p2.y (p2.x : ℚ)

/-- The vector `x012` of `DrawFilledTriangle`: the edge from `p0` to `p1` without its
last value (`x01.pop_back()`), followed by the edge from `p1` to `p2`. -/
def compositeEdge (p0 p1 p2 : Point2D) : Option (List ℚ) :=
  let x01 : List ℚ := Interpolate p0.y (p0.x : ℚ) p1.y (p1.x : ℚ)
  let x12 : List ℚ := Interpolate p1.y (p1.x : ℚ) p2.y (p2.x : ℚ)
  if x01.isEmpty then none
  else
    let x01 := x01.dropLast
    some (x01 ++ x12)

/-- The part of `DrawFilledTriangle` between the sort and the drawing loop: the
result is `(x_left, x_right)`, picked by the comparison `x02[m] < x012[m]` at
`m = x02.size() / 2`. -/
def leftRightEdges (p0 p1 p2 : Point2D) : Option (List ℚ × List ℚ) := do
  let x02 := directEdge p0 p2
  let x012 ← compositeEdge p0 p1 p2
  let m : Int := ((x02.length / 2 : Nat) : Int)
  let a ← indexAt x02 m
  let b ← indexAt x012 m
  pure (if a < b then (x02, x012) else (x012, x02))

/-- Source: `DrawFilledTriangle`; the result is the sequence of `setPixel` calls. -/
def DrawFilledTriangle (p0 p1 p2 : Point2D) (color : Int) : Option (List Pixel) := do
  let s := sortPoints p0 p1 p2
  let p0 := s.1
  let p1 := s.2.1
  let p2 := s.2.2
  let edges ← leftRightEdges p0 p1 p2
  let x_left := edges.1
  let x_right := edges.2
  drawRows x_left x_right p0.y color (p2.y + 1 - p0.y).toNat p0.y

/-- Bounding box of three points: the least `x`. -/
def minX (p0 p1 p2 : Point2D) : Int := min p0.x (min p1.x p2.x)

/-- Bounding box of three points: the greatest `x`. -/
def maxX (p0 p1 p2 : Point2D) : Int := max p0.x (max p1.x p2.x)

/-- Bounding box of three points: the least `y` (the top row). -/
def minY (p0 p1 p2 : Point2D) : Int := min p0.y (min p1.y p2.y)

/-- Bounding box of three points: the greatest `y` (the bottom row). -/
def maxY (p0 p1 p2 : Point2D) : Int := max p0.y (max p1.y p2.y)

/-- At least two of the three points lie on the top row `minY`. -/
def flatTop (p0 p1 p2 : Point2D) : Prop :=
  (p0.y = minY p0 p1 p2 ∧ p1.y = minY p0 p1 p2) ∨
  (p0.y = minY p0 p1 p2 ∧ p2.y = minY p0 p1 p2) ∨
  (p1.y = minY p0 p1 p2 ∧ p2.y = minY p0 p1 p2)

instance (p0 p1 p2 : Point2D) : Decidable (flatTop p0 p1 p2) := by
  unfold flatTop
  infer_instance

/-! ## Transform stage and frame orchestrator -/

/-- Source: `fillFace`, reading the working buffer `vs`. -/
def fillFace {α : Type} [LinearOrderedField α] [FloorRing α] (vs : List (Point3D α))
    (face : Face) : Option DrawCall := do
  let v0 ← indexAt vs face.v0
  let v1 ← indexAt vs face.v1
  let v2 ← indexAt vs face.v2
  let p0 ← ProjectTo2D v0
  let p1 ← ProjectTo2D v1
  let p2 ← ProjectTo2D v2
  let pixels ← DrawFilledTriangle p0 p1 p2 face.color
  pure ⟨p0, p1, p2, face.color, pixels⟩

/-- The body of the vertex loop of `rotateAndFillCube`, as a function of the
vertex `v`. -/
def rotateVertex {α : Type} [LinearOrderedField α] (cosX sinX cosY sinY cosZ sinZ : α)
    (v : Point3D α) : Point3D α :=
  let yRot := cosX * v.y - sinX * v.z
  let zRot := sinX * v.y + cosX * v.z
  let v : Point3D α := { v with y := yRot, z := zRot }
  let xRot := cosY * v.x + sinY * v.z
  let zRot := -sinY * v.x + cosY * v.z
  let v : Point3D α := { v with x := xRot, z := zRot }
  let finalX := cosZ * v.x - sinZ * v.y
  let finalY := sinZ * v.x + cosZ * v.y
  { v with x := finalX, y := finalY }

/-- One round of the vertex loop: `Point3D &v = vertices[idx]` is rotated in place. -/
def rotateInPlace {α : Type} [LinearOrderedField α] (cosX sinX cosY sinY cosZ sinZ : α)
    (vs : List (Point3D α)) (idx : Int) : Option (List (Point3D α)) := do
  let v ← indexAt vs idx
  pure (vs.set idx.toNat (rotateVertex cosX sinX cosY sinY cosZ sinZ v))

/-- The call `memcpy(vertices, oldVertices, sizeof(oldVertices))`: the first
`src.length` entries of `dst` are overwritten. -/
def memcpyVertices {α : Type} (dst src : List (Point3D α)) : Option (List (Point3D α)) :=
  if src.length ≤ dst.length then some (src ++ dst.drop src.length) else none

/-- The body of the face loop of `rotateAndFillCube`; `vs` is the working buffer on
entry, the result is the working buffer on exit and the draw call made. -/
def rotateAndFillFace {α : Type} [LinearOrderedField α] [FloorRing α]
    (cosX sinX cosY sinY cosZ sinZ : α) (old vs : List (Point3D α)) (face : Face) :
    Option (List (Point3D α) × DrawCall) := do
  let vs ← memcpyVertices vs old
  let vs ← rotateInPlace cosX sinX cosY sinY cosZ sinZ vs face.v0
  let vs ← rotateInPlace cosX sinX cosY sinY cosZ sinZ vs face.v1
  let vs ← rotateInPlace cosX sinX cosY sinY cosZ sinZ vs face.v2
  let call ← fillFace vs face
  pure (vs, call)

/-- The face loop `for (Face &face : faces)` of `rotateAndFillCube`. -/
def fillLoop {α : Type} [LinearOrderedField α] [FloorRing α]
    (cosX sinX cosY sinY cosZ sinZ : α) (old : List (Point3D α)) :
    List Face → List (Point3D α) → Option (List (Point3D α) × List DrawCall)
  | [], vs => some (vs, [])
  | face :: rest, vs => do
    let r ← rotateAndFillFace cosX sinX cosY sinY cosZ sinZ old vs face
    let rs ← fillLoop cosX sinX cosY sinY cosZ sinZ old rest r.1
    pure (rs.1, r.2 :: rs.2)

/-- The global state of the program: both vertex buffers, the face table and the
three `static` angles of `renderCube`. -/
structure Scene (α : Type) where
  vertices : List (Point3D α)
  oldVertices : List (Point3D α)
  faces : List Face
  angleX : α
  angleY : α
  angleZ : α

/-- The state at start-up. -/
def initialScene (α : Type) [LinearOrderedField α] : Scene α :=
  ⟨vertices α, oldVertices α, faces, 0, 0, 0⟩

/-- Source: `rotateAndFillCube`; `cos` and `sin` are the library functions.  The
result is the state on exit and the draw calls made, in order. -/
def rotateAndFillCube {α : Type} [LinearOrderedField α] [FloorRing α] (cos sin : α → α)
    (angleX angleY angleZ : α) (st : Scene α) : Option (Scene α × List DrawCall) := do
  let cosX := cos angleX
  let sinX := sin angleX
  let cosY := cos angleY
  let sinY := sin angleY
  let cosZ := cos angleZ
  let sinZ := sin angleZ
  let r ← fillLoop cosX sinX cosY sinY cosZ sinZ st.oldVertices st.faces st.vertices
  pure ({ st with vertices := r.1 }, r.2)

/-- Source: `renderCube`.  The frame buffer is cleared first, so the draw calls
returned are all that the frame shows. -/
def renderCube {α : Type} [LinearOrderedField α] [FloorRing α] (cos sin : α → α)
    (st : Scene α) : Option (Scene α × List DrawCall) :=
  let st : Scene α :=
    { st with angleX := st.angleX + 0.02, angleY := st.angleY + 0.02,
              angleZ := st.angleZ + 0.02 }
  rotateAndFillCube cos sin st.angleX st.angleY st.angleZ st

/-! ## Notions used to state the properties -/

/-- In the triple `s` an occurrence of `a` stands before an occurrence of `b`. -/
def comesBefore (s : Point2D × Point2D × Point2D) (a b : Point2D) : Prop :=
  (s.1 = a ∧ s.2.1 = b) ∨ (s.1 = a ∧ s.2.2 = b) ∨ (s.2.1 = a ∧ s.2.2 = b)

instance (s : Point2D × Point2D × Point2D) (a b : Point2D) : Decidable (comesBefore s a b) := by
  unfold comesBefore
  infer_instance

/-- The divisor `di` of `Interpolate` where the division takes place, that is after
the guard `if(!di) di = 1`. -/
def interpolateDivisor (i0 i1 : Int) : Int :=
  let di : Int := i1 - i0
  if di = 0 then 1 else di

/-- The rendering part of `loop()` run `n` times: `n` calls of `renderCube`, each on
the state the previous one left. -/
def renderTicks {α : Type} [LinearOrderedField α] [FloorRing α] (cos sin : α → α) :
    Nat → Scene α → Option (Scene α)
  | 0, st => some st
  | n + 1, st => do
    let r ← renderCube cos sin st
    renderTicks cos sin n r.1

/-- The vertices of `vs` with the indices `idx` all lie in one side plane of the cube:
one of their coordinates has the same value `1` or `-1` for all of them. -/
def onSidePlane {α : Type} [LinearOrderedField α] (vs : List (Point3D α)) (idx : List Int) :
    Prop :=
  ∃ c ∈ [(-1 : α), 1],
    (∀ i ∈ idx, (indexAt vs i).map Point3D.x = some c) ∨
    (∀ i ∈ idx, (indexAt vs i).map Point3D.y = some c) ∨
    (∀ i ∈ idx, (indexAt vs i).map Point3D.z = some c)

/-- The vertex indices that two faces have in common. -/
def sharedIndices (f g : Face) : List Int :=
  [f.v0, f.v1, f.v2].filter fun i => decide (i ∈ [g.v0, g.v1, g.v2])

/-- Follows the spec (transform stage), not the source: the rotation about the X axis
alone, by the angle with cosine `c` and sine `s`. -/
def rotateX {α : Type} [LinearOrderedField α] (c s : α) (v : Point3D α) : Point3D α :=
  ⟨v.x, c * v.y - s * v.z, s * v.y + c * v.z⟩

/-- Follows the spec (transform stage), not the source: the rotation about the Y axis
alone, by the angle with cosine `c` and sine `s`. -/
def rotateY {α : Type} [LinearOrderedField α] (c s : α) (v : Point3D α) : Point3D α :=
  ⟨c * v.x + s * v.z, v.y, -s * v.x + c * v.z⟩

/-- Follows the spec (transform stage), not the source: the rotation about the Z axis
alone, by the angle with cosine `c` and sine `s`. -/
def rotateZ {α : Type} [LinearOrderedField α] (c s : α) (v : Point3D α) : Point3D α :=
  ⟨c * v.x - s * v.y, s * v.x + c * v.y, v.z⟩

/-- Follows the spec (design note, variant (a)), not the source: every face of the
list is filled by `fillFace` from one fixed vertex buffer. -/
def fillFaces {α : Type} [LinearOrderedField α] [FloorRing α] (vs : List (Point3D α)) :
    List Face → Option (List DrawCall)
  | [] => some []
  | face :: rest => do
    let call ← fillFace vs face
    let calls ← fillFaces vs rest
    pure (call :: calls)

/-- Follows the spec (design note, variant (a)), not the source: every canonical
vertex is rotated once for the frame into an array of rotated positions, and every
face is then filled from that array. -/
def rotateAllThenFill {α : Type} [LinearOrderedField α] [FloorRing α] (cos sin : α → α)
    (angleX angleY angleZ : α) (st : Scene α) : Option (List DrawCall) :=
  let rotated := st.oldVertices.map fun c =>
    rotateZ (cos angleZ) (sin angleZ) (rotateY (cos angleY) (sin angleY)
      (rotateX (cos angleX) (sin angleX) c))
  fillFaces rotated st.faces

/-- The three vertex indices of `face` are pairwise distinct. -/
def distinctIndices (face : Face) : Prop :=
  face.v0 ≠ face.v1 ∧ face.v0 ≠ face.v2 ∧ face.v1 ≠ face.v2

instance (face : Face) : Decidable (distinctIndices face) := by
  unfold distinctIndices
  infer_instance

/-! ## Machine arithmetic

The definitions above read `float`, `double` and `int` as exact numbers; they serve
the properties that are stated over the reals.  The definitions of this part read the
same source lines as the processor runs them: every floating operation is followed by
a rounding `fl` (a parameter, with the IEEE roundings `roundDouble` and `roundFloat`
as the instances that matter), and an `int` operation that leaves the 32-bit range is
undefined and gives `none`. -/

/-- Rounding of `q` to the nearest integer; a tie goes to the even neighbour. -/
def roundHalfEven (q : ℚ) : Int :=
  let f : Int := ⌊q⌋
  let r : ℚ := q - (f : ℚ)
  if r < 1 / 2 then f
  else if 1 / 2 < r then f + 1
  else if f % 2 = 0 then f else f + 1

/-- The position of the leading bit of `n ≥ 1`: the `k` with `2 ^ k ≤ n < 2 ^ (k + 1)`,
found by halving `n` (at most `fuel` times; `fuel = n` is enough). -/
def leadingBit : Nat → Nat → Nat
  | 0, _ => 0
  | fuel + 1, n => if n < 2 then 0 else leadingBit fuel (n / 2) + 1

/-- The binary exponent of `x ≠ 0`: the integer `k` with `2 ^ k ≤ |x| < 2 ^ (k + 1)`. -/
def binaryExponent (x : ℚ) : Int :=
  let k : Int := (leadingBit x.num.natAbs x.num.natAbs : Int) - (leadingBit x.den x.den : Int)
  if (2 : ℚ) ^ k ≤ |x| then k else k - 1

/-- Rounding to the nearest number with `prec` significant bits, ties to even: the
rounding that IEEE 754 arithmetic applies to the exact result `x` of an operation, as
long as `x` lies in the normal range of the format.  The exponent is not bounded here:
a result beyond the largest finite number is not turned into an infinity, and a result
below the least normal number keeps all `prec` bits. -/
def roundToBits (prec : Nat) (x : ℚ) : ℚ :=
  if x = 0 then 0
  else
    let e : Int := binaryExponent x - ((prec : Int) - 1)
    (roundHalfEven (x / (2 : ℚ) ^ e) : ℚ) * (2 : ℚ) ^ e

/-- The rounding of `double` arithmetic (53 significant bits). -/
def roundDouble (x : ℚ) : ℚ := roundToBits 53 x

/-- The rounding of `float` arithmetic (24 significant bits). -/
def roundFloat (x : ℚ) : ℚ := roundToBits 24 x

def INT_MAX : Int := 2147483647

def INT_MIN : Int := -2147483648

/-- The value `n` fits the 32-bit type `int`. -/
def isInt (n : Int) : Prop := INT_MIN ≤ n ∧ n ≤ INT_MAX

instance (n : Int) : Decidable (isInt n) := by
  unfold isInt
  infer_instance

/-- Conversion of a floating value to `int`: the fraction is discarded; the result
is undefined when it does not fit. -/
def toInt (x : ℚ) : Option Int :=
  if isInt (truncToInt x) then some (truncToInt x) else none

/-! ## Rasterizer and projector on the machine -/

/-- The loop of `Interpolate` with `d += a` rounded, by the number of rounds left. -/
def interpolateLoopM (fl : ℚ → ℚ) (a : ℚ) : Nat → ℚ → List ℚ
  | 0, _ => []
  | n + 1, d => d :: interpolateLoopM fl a n (fl (d + a))

/-- Source: `Interpolate`, on the machine.  The subtraction `i1 - i0` must fit `int`;
the loop counter is incremented once more after the round `i = i1`, which overflows
for `i1 = INT_MAX`. -/
def InterpolateM (fl : ℚ → ℚ) (i0 : Int) (d0 : ℚ) (i1 : Int) (d1 : ℚ) : Option (List ℚ) :=
  if i0 = i1 then some [d0]
  else if ¬ isInt (i1 - i0) then none
  else
    let di : Int := i1 - i0
    let di : Int := if di = 0 then 1 else di
    let a : ℚ := fl (fl (d1 - d0) / (di : ℚ))
    if i1 < i0 then some []
    else if i1 = INT_MAX then none
    else some (interpolateLoopM fl a (i1 + 1 - i0).toNat d0)

/-- The inner loop `for (int x = xl; x <= xr; x++) setPixel(x, y, color)` on the
machine: the conversion of `xl` must fit `int`, and the increment after the last
round overflows when that round has `x = INT_MAX`. -/
def fillRowM (xl xr : ℚ) (y color : Int) : Option (List Pixel) := do
  let x0 ← toInt xl
  if x0 ≤ ⌊xr⌋ ∧ INT_MAX ≤ ⌊xr⌋ then none
  else
    pure ((List.range (⌊xr⌋ + 1 - x0).toNat).map
      fun (i : Nat) => ⟨x0 + (i : Int), y, color⟩)

/-- The outer loop `for (int y = p0.y; y <= p2.y; y++)` on the machine, by the number
of rounds left; `y0` is `p0.y`. -/
def drawRowsM (x_left x_right : List ℚ) (y0 color : Int) : Nat → Int → Option (List Pixel)
  | 0, _ => some []
  | n + 1, y => do
    let xl ← indexAt x_left (y - y0)
    let xr ← indexAt x_right (y - y0)
    let row ← fillRowM xl xr y color
    let rest ← drawRowsM x_left x_right y0 color n (y + 1)
    pure (row ++ rest)

/-- The vector `x02` of `DrawFilledTriangle` on the machine. -/
def directEdgeM (fl : ℚ → ℚ) (p0 p2 : Point2D) : Option (List ℚ) :=
  InterpolateM fl p0.y (p0.x : ℚ) p2.y (p2.x : ℚ)

/-- The vector `x012` of `DrawFilledTriangle` on the machine. -/
def compositeEdgeM (fl : ℚ → ℚ) (p0 p1 p2 : Point2D) : Option (List ℚ) := do
  let x01 ← InterpolateM fl p0.y (p0.x : ℚ) p1.y (p1.x : ℚ)
  let x12 ← InterpolateM fl p1.y (p1.x : ℚ) p2.y (p2.x : ℚ)
  if x01.isEmpty then none
  else
    let x01 := x01.dropLast
    pure (x01 ++ x12)

/-- The part of `DrawFilledTriangle` between the sort and the drawing loop, on the
machine: the result is `(x_left, x_right)`. -/
def leftRightEdgesM (fl : ℚ → ℚ) (p0 p1 p2 : Point2D) : Option (List ℚ × List ℚ) := do
  let x012 ← compositeEdgeM fl p0 p1 p2
  let x02 ← directEdgeM fl p0 p2
  let m : Int := ((x02.length / 2 : Nat) : Int)
  let a ← indexAt x02 m
  let b ← indexAt x012 m
  pure (if a < b then (x02, x012) else (x012, x02))

/-- Source: `DrawFilledTriangle`, on the machine; the result is the sequence of
`setPixel` calls.  The row loop increments `y` once more after the round `y = p2.y`,
which overflows for `p2.y = INT_MAX`. -/
def DrawFilledTriangleM (fl : ℚ → ℚ) (p0 p1 p2 : Point2D) (color : Int) :
    Option (List Pixel) := do
  let s := sortPoints p0 p1 p2
  let p0 := s.1
  let p1 := s.2.1
  let p2 := s.2.2
  let edges ← leftRightEdgesM fl p0 p1 p2
  let x_left := edges.1
  let x_right := edges.2
  if p2.y = INT_MAX then none
  else drawRowsM x_left x_right p0.y color (p2.y + 1 - p0.y).toNat p0.y

/-- The largest finite `float`. -/
def FLT_MAX : ℚ := (2 ^ 24 - 1) * 2 ^ 104

/-- Source: `ProjectTo2D`, on the machine: the product, the sum `p.z + 4`, the
quotient and the outer sum are each rounded to `float`, and the conversion to `int`
must fit.  A zero divisor gives an infinity or a NaN, and so does a product beyond
`FLT_MAX`; the conversion of either to `int` is undefined. -/
def ProjectTo2DM (fl : ℚ → ℚ) (p : Point3D ℚ) : Option Point2D :=
  if fl (p.z + 4) = 0 ∨ FLT_MAX < |fl (p.x * FOV)| ∨ FLT_MAX < |fl (p.y * FOV)| then none
  else do
    let x ← toInt (fl (((SCREEN_WIDTH / 2 : Int) : ℚ) + fl (fl (p.x * FOV) / fl (p.z + 4))))
    let y ← toInt (fl (((SCREEN_HEIGHT / 2 : Int) : ℚ) - fl (fl (p.y * FOV) / fl (p.z + 4))))
    pure ⟨x, y⟩

/-- The rounding `fl` has relative error at most `u`: the standard model of
floating-point arithmetic. -/
def RoundsWithin (u : ℚ) (fl : ℚ → ℚ) : Prop := ∀ t : ℚ, |fl t - t| ≤ u * |t|

/-- The value that the loop of `Interpolate` holds in round `k` on the machine:
it starts at `d` and every round adds `a` and rounds. -/
def accumulated (fl : ℚ → ℚ) (a d : ℚ) : Nat → ℚ
  | 0 => d
  | k + 1 => fl (accumulated fl a d k + a)

/-- Both coordinates of `p` lie between `-B` and `B`. -/
def within (B : Int) (p : Point2D) : Prop := -B ≤ p.x ∧ p.x ≤ B ∧ -B ≤ p.y ∧ p.y ≤ B

instance (B : Int) (p : Point2D) : Decidable (within B p) := by
  unfold within
  infer_instance

/-- Twice the signed area of the triangle `q0 q1 q2`; it is `0` exactly when the three
points are collinear. -/
def doubledArea (q0 q1 q2 : Point2D) : Int :=
  (q1.x - q0.x) * (q2.y - q0.y) - (q2.x - q0.x) * (q1.y - q0.y)

/-- The share of the doubled area by which the two exact edges of a triangle are apart
in row `k`, for short edges of heights `h1` and `h2`. -/
def rowWeight (h1 h2 k : Nat) : ℚ :=
  if k < h1 then (k : ℚ) / ((h1 : ℚ) * ((h1 : ℚ) + h2))
  else if 0 < h2 then (((h1 : ℚ) + h2) - k) / ((h2 : ℚ) * ((h1 : ℚ) + h2))
  else 1 / ((h1 : ℚ) + h2)

section InterpolateLemmas
variable {α : Type} [LinearOrderedField α]

theorem interpolateLoop_length (a : α) (n : Nat) (d : α) :
    (interpolateLoop a n d).length = n := by
  induction n generalizing d with
  | zero => rfl
  | succ n ih => simp [interpolateLoop, ih]

theorem interpolateLoop_getElem? (a : α) (n k : Nat) (d : α) (hk : k < n) :
    (interpolateLoop a n d)[k]? = some (d + (k : α) * a) := by
  induction n generalizing d k with
  | zero => omega
  | succ n ih =>
    cases k with
    | zero => simp [interpolateLoop]
    | succ k =>
      simp only [interpolateLoop, List.getElem?_cons_succ]
      rw [ih k (d + a) (by omega)]
      congr 1
      push_cast
      ring

theorem Interpolate_of_lt (i0 i1 : Int) (d0 d1 : α) (h : i0 < i1) :
    Interpolate i0 d0 i1 d1
      = interpolateLoop ((d1 - d0) / ((i1 - i0 : Int) : α)) (i1 + 1 - i0).toNat d0 := by
  have h1 : i0 ≠ i1 := ne_of_lt h
  have h2 : i1 - i0 ≠ 0 := by omega
  simp only [Interpolate, if_neg h1, if_neg h2]

theorem Interpolate_same (i : Int) (d0 d1 : α) : Interpolate i d0 i d1 = [d0] := by
  simp [Interpolate]

theorem Interpolate_length (i0 i1 : Int) (d0 d1 : α) (h : i0 ≤ i1) :
    (Interpolate i0 d0 i1 d1).length = (i1 - i0).toNat + 1 := by
  rcases eq_or_lt_of_le h with h | h
  · subst h; simp [Interpolate_same]
  · rw [Interpolate_of_lt _ _ _ _ h, interpolateLoop_length]; omega

theorem Interpolate_getElem? (i0 i1 : Int) (d0 d1 : α) (h : i0 < i1) (k : Nat)
    (hk : (k : Int) ≤ i1 - i0) :
    (Interpolate i0 d0 i1 d1)[k]? = some (d0 + (k : α) * ((d1 - d0) / ((i1 - i0 : Int) : α))) := by
  rw [Interpolate_of_lt _ _ _ _ h, interpolateLoop_getElem? _ _ _ _ (by omega)]

end InterpolateLemmas

/-- C4. With equal indices `Interpolate i d0 i d1` is the one-element
sequence `[d0]`, whatever `d1` is. -/
theorem Interpolate_equal_indices {α : Type} [LinearOrderedField α] (i : Int) (d0 d1 : α) :
    Interpolate i d0 i d1 = [d0] ∧ ∀ e : α, Interpolate i d0 i e = Interpolate i d0 i d1 := by
  refine ⟨Interpolate_same i d0 d1, fun e => ?_⟩
  rw [Interpolate_same, Interpolate_same]

theorem ProjectTo2D_of_ne {α : Type} [LinearOrderedField α] [FloorRing α] (p : Point3D α)
    (h : p.z + 4 ≠ 0) :
    ProjectTo2D p = some ⟨truncToInt ((160 : α) + 256 * p.x / (p.z + 4)),
      truncToInt ((120 : α) - 256 * p.y / (p.z + 4))⟩ := by
  simp only [ProjectTo2D, if_neg h, SCREEN_WIDTH, SCREEN_HEIGHT, FOV]
  norm_num
  constructor <;> congr 2 <;> ring

theorem rotateVertex_zero_angle {α : Type} [LinearOrderedField α] (v : Point3D α) :
    rotateVertex 1 0 1 0 1 0 v = v := by
  cases v
  simp [rotateVertex]

/-- C6, as the code has it. With zero rotation (cosines 1, sines 0) the cube vertex
`(-1, -1, -1)` is projected to `(74, 205)`: the divisor is `z + 4 = 3`.  The
coordinate `(96, 184)` is the image of a point with `z = 0`, such as `(-1, -1, 0)`. -/
theorem ProjectTo2D_first_vertex :
    ProjectTo2D (rotateVertex 1 0 1 0 1 0 (⟨-1, -1, -1⟩ : Point3D ℚ)) = some ⟨74, 205⟩ ∧
    ProjectTo2D (⟨-1, -1, 0⟩ : Point3D ℚ) = some ⟨96, 184⟩ := by
  rw [rotateVertex_zero_angle]
  constructor
  · rw [ProjectTo2D_of_ne _ (by norm_num)]
    simp [truncToInt]
    norm_num
  · rw [ProjectTo2D_of_ne _ (by norm_num)]
    simp [truncToInt]
    norm_num

/-- C6 refuted as stated: the projection of the vertex `(-1, -1, -1)` at zero rotation
is not `(96, 184)`. -/
theorem ProjectTo2D_first_vertex_ne :
    ProjectTo2D (rotateVertex 1 0 1 0 1 0 (⟨-1, -1, -1⟩ : Point3D ℚ)) ≠ some ⟨96, 184⟩ := by
  rw [rotateVertex_zero_angle, ProjectTo2D_of_ne _ (by norm_num)]
  simp [truncToInt]
  norm_num

/-! ## The library sort -/

section SortLemmas
variable {β : Type} (comp : β → β → Bool)

theorem unguardedLinearInsert_perm (val : β) (l : List β) :
    (unguardedLinearInsert comp val l).Perm (val :: l) := by
  induction l with
  | nil => simp [unguardedLinearInsert]
  | cons next rest ih =>
    simp only [unguardedLinearInsert]
    split
    · exact (List.Perm.cons next ih).trans (List.Perm.swap val next rest)
    · exact List.Perm.refl _

theorem insertionStep_perm (done : List β) (val : β) :
    (insertionStep comp done val).Perm (val :: done) := by
  cases done with
  | nil => simp [insertionStep]
  | cons first tl =>
    simp only [insertionStep]
    split
    · exact List.Perm.refl _
    · refine (List.reverse_perm _).trans ?_
      refine (unguardedLinearInsert_perm comp val _).trans ?_
      exact List.Perm.cons val (List.reverse_perm _)

theorem foldl_insertionStep_perm (l acc : List β) :
    (l.foldl (insertionStep comp) acc).Perm (acc ++ l) := by
  induction l generalizing acc with
  | nil => simp
  | cons a l ih =>
    simp only [List.foldl_cons]
    refine (ih _).trans ?_
    have h1 : (insertionStep comp acc a ++ l).Perm ((a :: acc) ++ l) :=
      List.Perm.append_right l (insertionStep_perm comp acc a)
    refine h1.trans ?_
    simpa using (@List.perm_middle _ a acc l).symm

theorem stdSort_perm (l : List β) : (stdSort comp l).Perm l := by
  simpa [stdSort] using foldl_insertionStep_perm comp l []

end SortLemmas

theorem unguardedLinearInsert_ascending (val : Face) (l : List Face)
    (h : l.Pairwise (fun a b => a.depth ≤ b.depth)) :
    (unguardedLinearInsert depthGreater val l).Pairwise (fun a b => a.depth ≤ b.depth) := by
  induction l with
  | nil => simp [unguardedLinearInsert]
  | cons next rest ih =>
    rw [List.pairwise_cons] at h
    simp only [unguardedLinearInsert]
    by_cases hc : depthGreater val next = true
    · rw [if_pos hc, List.pairwise_cons]
      refine ⟨?_, ih h.2⟩
      intro b hb
      have hb2 := (unguardedLinearInsert_perm depthGreater val rest).mem_iff.mp hb
      rcases List.mem_cons.mp hb2 with hb3 | hb3
      · rw [hb3]
        have : val.depth > next.depth := by simpa [depthGreater] using hc
        exact le_of_lt this
      · exact h.1 b hb3
    · rw [if_neg hc]
      have hle : val.depth ≤ next.depth := by
        have : ¬ val.depth > next.depth := by simpa [depthGreater] using hc
        exact not_lt.mp this
      rw [List.pairwise_cons, List.pairwise_cons]
      refine ⟨?_, h.1, h.2⟩
      intro b hb
      rcases List.mem_cons.mp hb with hb3 | hb3
      · rw [hb3]; exact hle
      · exact le_trans hle (h.1 b hb3)

theorem insertionStep_descending (done : List Face) (val : Face)
    (h : done.Pairwise (fun a b => a.depth ≥ b.depth)) :
    (insertionStep depthGreater done val).Pairwise (fun a b => a.depth ≥ b.depth) := by
  cases done with
  | nil => simp [insertionStep]
  | cons first tl =>
    simp only [insertionStep]
    by_cases hc : depthGreater val first = true
    · rw [if_pos hc, List.pairwise_cons]
      refine ⟨?_, h⟩
      have hv : val.depth > first.depth := by simpa [depthGreater] using hc
      intro b hb
      rcases List.mem_cons.mp hb with hb3 | hb3
      · rw [hb3]; exact le_of_lt hv
      · exact le_trans ((List.pairwise_cons.mp h).1 b hb3) (le_of_lt hv)
    · rw [if_neg hc, List.pairwise_reverse]
      apply unguardedLinearInsert_ascending
      rw [List.pairwise_reverse]
      exact h

theorem foldl_insertionStep_descending (l acc : List Face)
    (h : acc.Pairwise (fun a b => a.depth ≥ b.depth)) :
    (l.foldl (insertionStep depthGreater) acc).Pairwise (fun a b => a.depth ≥ b.depth) := by
  induction l generalizing acc with
  | nil => simpa using h
  | cons a l ih => exact ih _ (insertionStep_descending acc a h)

theorem stdSort_descending (l : List Face) :
    (stdSort depthGreater l).Pairwise (fun a b => a.depth ≥ b.depth) :=
  foldl_insertionStep_descending l [] List.Pairwise.nil

theorem insertionStep_of_descending (done : List Face) (val : Face)
    (h : ∀ a ∈ done, a.depth ≥ val.depth) :
    insertionStep depthGreater done val = done ++ [val] := by
  cases done with
  | nil => simp [insertionStep]
  | cons first tl =>
    have h1 : ¬ (depthGreater val first = true) := by
      have := h first (List.mem_cons_self _ _)
      simp only [depthGreater, decide_eq_true_eq]
      omega
    simp only [insertionStep, if_neg h1]
    cases hr : (first :: tl).reverse with
    | nil => simp at hr
    | cons e rest =>
      have he : e ∈ first :: tl := by
        rw [← List.mem_reverse, hr]; exact List.mem_cons_self _ _
      have h2 : ¬ (depthGreater val e = true) := by
        have := h e he
        simp only [depthGreater, decide_eq_true_eq]
        omega
      simp only [unguardedLinearInsert, if_neg h2]
      rw [← hr]
      simp

theorem foldl_insertionStep_of_descending (l acc : List Face)
    (h : (acc ++ l).Pairwise (fun a b => a.depth ≥ b.depth)) :
    l.foldl (insertionStep depthGreater) acc = acc ++ l := by
  induction l generalizing acc with
  | nil => simp
  | cons a l ih =>
    have hstep : insertionStep depthGreater acc a = acc ++ [a] := by
      apply insertionStep_of_descending
      intro b hb
      exact (List.pairwise_append.mp h).2.2 b hb a (List.mem_cons_self _ _)
    rw [List.foldl_cons, hstep, ih]
    · simp
    · simpa using h

theorem stdSort_of_descending (l : List Face)
    (h : l.Pairwise (fun a b => a.depth ≥ b.depth)) : stdSort depthGreater l = l := by
  simpa [stdSort] using foldl_insertionStep_of_descending l [] (by simpa using h)

/-! ## Depth assignment -/

section DepthLemmas
variable {α : Type} [LinearOrderedField α]

theorem indexAt_of_bounds {β : Type} (l : List β) (i : Int) (h0 : 0 ≤ i) (h1 : i < l.length) :
    ∃ v, indexAt l i = some v ∧ l[i.toNat]? = some v := by
  have hlt : i.toNat < l.length := by omega
  refine ⟨l[i.toNat], ?_, List.getElem?_eq_getElem hlt⟩
  simp only [indexAt, if_neg (not_lt.mpr h0)]
  exact List.getElem?_eq_getElem hlt

theorem computeFaceDepth_of_valid (vs : List (Point3D α)) (face : Face)
    (h : validFace vs.length face) : ∃ d, computeFaceDepth vs face = some d := by
  obtain ⟨⟨a0, a1⟩, ⟨b0, b1⟩, ⟨c0, c1⟩⟩ := h
  obtain ⟨u, hu, _⟩ := indexAt_of_bounds vs face.v0 a0 a1
  obtain ⟨v, hv, _⟩ := indexAt_of_bounds vs face.v1 b0 b1
  obtain ⟨w, hw, _⟩ := indexAt_of_bounds vs face.v2 c0 c1
  exact ⟨(u.z + v.z + w.z) / 3, by simp [computeFaceDepth, hu, hv, hw]⟩

theorem computeFaceDepth_with_depth (vs : List (Point3D α)) (face : Face) (d : Int) :
    computeFaceDepth vs { face with depth := d } = computeFaceDepth vs face := rfl

variable [FloorRing α]

theorem assignDepths_of_valid (vs : List (Point3D α)) (fs : List Face)
    (h : ∀ f ∈ fs, validFace vs.length f) : ∃ gs, assignDepths vs fs = some gs := by
  induction fs with
  | nil => exact ⟨[], rfl⟩
  | cons f rest ih =>
    obtain ⟨d, hd⟩ := computeFaceDepth_of_valid vs f (h f (List.mem_cons_self _ _))
    obtain ⟨gs, hgs⟩ := ih (fun g hg => h g (List.mem_cons_of_mem _ hg))
    exact ⟨{ f with depth := truncToInt d } :: gs, by simp [assignDepths, hd, hgs]⟩

theorem assignDepths_result (vs : List (Point3D α)) (fs gs : List Face)
    (h : assignDepths vs fs = some gs) :
    gs.map faceIdentity = fs.map faceIdentity ∧
      ∀ g ∈ gs, ∃ d, computeFaceDepth vs g = some d ∧ g.depth = truncToInt d := by
  induction fs generalizing gs with
  | nil =>
    simp only [assignDepths, Option.some.injEq] at h
    subst h
    simp
  | cons f rest ih =>
    simp only [assignDepths, Option.bind_eq_bind, Option.pure_def] at h
    cases hd : computeFaceDepth vs f with
    | none => simp [hd] at h
    | some d =>
      cases hr : assignDepths vs rest with
      | none => simp [hd, hr] at h
      | some rs =>
        simp only [hd, hr, Option.some_bind, Option.some.injEq] at h
        subst h
        obtain ⟨h1, h2⟩ := ih rs hr
        refine ⟨by simp [h1, faceIdentity], ?_⟩
        intro g hg
        rcases List.mem_cons.mp hg with hg | hg
        · subst hg
          exact ⟨d, by rw [computeFaceDepth_with_depth]; exact hd, rfl⟩
        · exact h2 g hg

theorem assignDepths_fixed (vs : List (Point3D α)) (gs : List Face)
    (h : ∀ g ∈ gs, ∃ d, computeFaceDepth vs g = some d ∧ g.depth = truncToInt d) :
    assignDepths vs gs = some gs := by
  induction gs with
  | nil => rfl
  | cons g rest ih =>
    obtain ⟨d, hd, hdep⟩ := h g (List.mem_cons_self _ _)
    have hr := ih (fun e he => h e (List.mem_cons_of_mem _ he))
    simp only [assignDepths, hd, hr, Option.bind_eq_bind, Option.some_bind, Option.pure_def,
      ← hdep]

theorem sortFacesByDepth_eq (vs : List (Point3D α)) (fs gs : List Face)
    (h : assignDepths vs fs = some gs) :
    sortFacesByDepth vs fs = some (stdSort depthGreater gs) := by
  simp [sortFacesByDepth, h]

end DepthLemmas

section TruncLemmas
variable {α : Type} [LinearOrderedField α] [FloorRing α]

theorem truncToInt_eq_of_nonneg (x : α) (n : Int) (h0 : 0 ≤ x) (h1 : (n : α) ≤ x)
    (h2 : x < (n : α) + 1) : truncToInt x = n := by
  rw [truncToInt, if_pos h0, Int.floor_eq_iff]
  exact ⟨h1, h2⟩

theorem truncToInt_eq_of_nonpos (x : α) (n : Int) (h0 : x ≤ 0) (h1 : (n : α) - 1 < x)
    (h2 : x ≤ (n : α)) : truncToInt x = n := by
  rcases eq_or_lt_of_le h0 with h | h
  · subst h
    have hn : n = 0 := by
      have a1 : (n : α) < 1 := by linarith
      have a2 : (0 : α) ≤ (n : α) := h2
      have b1 : n < 1 := by exact_mod_cast a1
      have b2 : 0 ≤ n := by exact_mod_cast a2
      omega
    simp [truncToInt, hn]
  · rw [truncToInt, if_neg (not_le.mpr h), Int.ceil_eq_iff]
    exact ⟨h1, h2⟩

theorem truncToInt_intCast (n : Int) : truncToInt (n : α) = n := by
  unfold truncToInt
  split <;> simp

end TruncLemmas

theorem assignDepths_cube :
    assignDepths (vertices ℚ) faces =
      some [ ⟨0, 1, 2, 6, -1⟩, ⟨0, 2, 3, 6, -1⟩, ⟨4, 5, 6, 1, 1⟩, ⟨4, 6, 7, 1, 1⟩,
             ⟨0, 3, 7, 2, 0⟩, ⟨0, 7, 4, 2, 0⟩, ⟨1, 5, 6, 3, 0⟩, ⟨1, 6, 2, 3, 0⟩,
             ⟨2, 3, 7, 4, 0⟩, ⟨2, 7, 6, 4, 0⟩, ⟨0, 1, 5, 5, 0⟩, ⟨0, 5, 4, 5, 0⟩ ] := by
  have h1 : truncToInt ((-1 + -1 + -1) / 3 : ℚ) = -1 :=
    truncToInt_eq_of_nonpos _ (-1) (by norm_num) (by norm_num) (by norm_num)
  have h2 : truncToInt ((1 + 1 + 1) / 3 : ℚ) = 1 :=
    truncToInt_eq_of_nonneg _ 1 (by norm_num) (by norm_num) (by norm_num)
  have h3 : truncToInt (-1 / 3 : ℚ) = 0 :=
    truncToInt_eq_of_nonpos _ 0 (by norm_num) (by norm_num) (by norm_num)
  have h4 : truncToInt (3⁻¹ : ℚ) = 0 :=
    truncToInt_eq_of_nonneg _ 0 (by norm_num) (by norm_num) (by norm_num)
  simp [assignDepths, faces, vertices, computeFaceDepth, indexAt, h1, h2, h3, h4]

/-- C8 at the cube in its start-up state. The side face `{0, 3, 7}` has mean depth
`-1/3`, yet after `sortFacesByDepth` its stored `depth` field is `0`: the `float`
mean is converted to the `int` field and loses its fraction. -/
theorem sortFacesByDepth_stores_truncated_depth :
    computeFaceDepth (vertices ℚ) ⟨0, 3, 7, 2, 0⟩ = some (-1 / 3) ∧
    sortFacesByDepth (vertices ℚ) faces =
      some [ ⟨4, 5, 6, 1, 1⟩, ⟨4, 6, 7, 1, 1⟩,
             ⟨0, 3, 7, 2, 0⟩, ⟨0, 7, 4, 2, 0⟩, ⟨1, 5, 6, 3, 0⟩, ⟨1, 6, 2, 3, 0⟩,
             ⟨2, 3, 7, 4, 0⟩, ⟨2, 7, 6, 4, 0⟩, ⟨0, 1, 5, 5, 0⟩, ⟨0, 5, 4, 5, 0⟩,
             ⟨0, 1, 2, 6, -1⟩, ⟨0, 2, 3, 6, -1⟩ ] := by
  constructor
  · simp [vertices, computeFaceDepth, indexAt]
  · rw [sortFacesByDepth_eq _ _ _ assignDepths_cube]
    decide

/-- C9. Over the reals the rotation of `rotateAndFillCube` has period `2 * π` in each
of the three angles separately, on every program state and on every single vertex; at
the angles `(2 * π, 2 * π, 2 * π)` every vertex is where it started and its projection
is the one it has with zero rotation. -/
theorem rotateAndFillCube_periodic (ax ay az : ℝ) (st : Scene ℝ) (v : Point3D ℝ) :
    rotateAndFillCube Real.cos Real.sin (ax + 2 * Real.pi) ay az st
        = rotateAndFillCube Real.cos Real.sin ax ay az st ∧
    rotateAndFillCube Real.cos Real.sin ax (ay + 2 * Real.pi) az st
        = rotateAndFillCube Real.cos Real.sin ax ay az st ∧
    rotateAndFillCube Real.cos Real.sin ax ay (az + 2 * Real.pi) st
        = rotateAndFillCube Real.cos Real.sin ax ay az st ∧
    rotateVertex (Real.cos (ax + 2 * Real.pi)) (Real.sin (ax + 2 * Real.pi))
        (Real.cos (ay + 2 * Real.pi)) (Real.sin (ay + 2 * Real.pi))
        (Real.cos (az + 2 * Real.pi)) (Real.sin (az + 2 * Real.pi)) v
      = rotateVertex (Real.cos ax) (Real.sin ax) (Real.cos ay) (Real.sin ay)
          (Real.cos az) (Real.sin az) v ∧
    rotateVertex (Real.cos (2 * Real.pi)) (Real.sin (2 * Real.pi))
        (Real.cos (2 * Real.pi)) (Real.sin (2 * Real.pi))
        (Real.cos (2 * Real.pi)) (Real.sin (2 * Real.pi)) v = v ∧
    ProjectTo2D (rotateVertex (Real.cos (2 * Real.pi)) (Real.sin (2 * Real.pi))
        (Real.cos (2 * Real.pi)) (Real.sin (2 * Real.pi))
        (Real.cos (2 * Real.pi)) (Real.sin (2 * Real.pi)) v)
      = ProjectTo2D (rotateVertex (Real.cos 0) (Real.sin 0) (Real.cos 0) (Real.sin 0)
          (Real.cos 0) (Real.sin 0) v) := by
  refine ⟨?_, ?_, ?_, ?_, ?_, ?_⟩
  · simp only [rotateAndFillCube, Real.cos_add_two_pi, Real.sin_add_two_pi]
  · simp only [rotateAndFillCube, Real.cos_add_two_pi, Real.sin_add_two_pi]
  · simp only [rotateAndFillCube, Real.cos_add_two_pi, Real.sin_add_two_pi]
  · simp only [Real.cos_add_two_pi, Real.sin_add_two_pi]
  · simp only [Real.cos_two_pi, Real.sin_two_pi, rotateVertex_zero_angle]
  · simp only [Real.cos_two_pi, Real.sin_two_pi, Real.cos_zero, Real.sin_zero]

/-! ## The three-point sort -/

theorem perm_of_three {β : Type} (a b c : β) :
    [a, c, b].Perm [a, b, c] ∧ [b, a, c].Perm [a, b, c] ∧ [b, c, a].Perm [a, b, c] ∧
      [c, a, b].Perm [a, b, c] ∧ [c, b, a].Perm [a, b, c] := by
  have h1 : [a, c, b].Perm [a, b, c] := List.Perm.cons a (List.Perm.swap b c [])
  have h2 : [b, a, c].Perm [a, b, c] := List.Perm.swap a b [c]
  have h3 : [b, c, a].Perm [a, b, c] :=
    (List.Perm.cons b (List.Perm.swap a c [])).trans h2
  have h4 : [c, a, b].Perm [a, b, c] := (List.Perm.swap a c [b]).trans h1
  have h5 : [c, b, a].Perm [a, b, c] :=
    (List.Perm.cons c (List.Perm.swap a b [])).trans h4
  exact ⟨h1, h2, h3, h4, h5⟩

theorem sortPoints_cases (p0 p1 p2 : Point2D) :
    ∃ q0 q1 q2 : Point2D, sortPoints p0 p1 p2 = (q0, q1, q2) ∧ q0.y ≤ q1.y ∧ q1.y ≤ q2.y ∧
      [q0, q1, q2].Perm [p0, p1, p2] := by
  obtain ⟨h1, h2, h3, h4, h5⟩ := perm_of_three p0 p1 p2
  simp only [sortPoints]
  split_ifs
  all_goals dsimp only at *
  all_goals first
    | exact ⟨_, _, _, rfl, by omega, by omega, List.Perm.refl _⟩
    | exact ⟨_, _, _, rfl, by omega, by omega, h1⟩
    | exact ⟨_, _, _, rfl, by omega, by omega, h2⟩
    | exact ⟨_, _, _, rfl, by omega, by omega, h3⟩
    | exact ⟨_, _, _, rfl, by omega, by omega, h4⟩
    | exact ⟨_, _, _, rfl, by omega, by omega, h5⟩

/-! ## Values of an interpolated edge -/

section EdgeLemmas
variable {α : Type} [LinearOrderedField α]

theorem intCast_toNat_sub (i0 i1 : Int) (h : i0 ≤ i1) :
    (((i1 - i0).toNat : Nat) : α) = (i1 : α) - (i0 : α) := by
  have h1 : (((i1 - i0).toNat : Nat) : Int) = i1 - i0 := Int.toNat_of_nonneg (by omega)
  calc (((i1 - i0).toNat : Nat) : α) = ((((i1 - i0).toNat : Nat) : Int) : α) := by
        push_cast; rfl
    _ = ((i1 - i0 : Int) : α) := by rw [h1]
    _ = (i1 : α) - (i0 : α) := by push_cast; rfl

/-- Value number `k` of an edge, also when the edge has height zero. -/
theorem Interpolate_getElem?_le (i0 i1 : Int) (d0 d1 : α) (h : i0 ≤ i1) (k : Nat)
    (hk : k ≤ (i1 - i0).toNat) :
    (Interpolate i0 d0 i1 d1)[k]? = some (d0 + (k : α) * ((d1 - d0) / ((i1 : α) - (i0 : α)))) := by
  rcases eq_or_lt_of_le h with h | h
  · subst h
    have hk0 : k = 0 := by simpa using hk
    subst hk0
    simp [Interpolate_same]
  · rw [Interpolate_getElem? i0 i1 d0 d1 h k (by omega)]
    push_cast
    rfl

theorem Interpolate_ne_nil (i0 i1 : Int) (d0 d1 : α) (h : i0 ≤ i1) :
    Interpolate i0 d0 i1 d1 ≠ [] := by
  intro hnil
  have := Interpolate_length i0 i1 d0 d1 h
  rw [hnil] at this
  simp at this

/-- An interpolated value lies between the two end values. -/
theorem interpolated_between (d0 d1 n k lo hi : α) (hlo0 : lo ≤ d0) (hlo1 : lo ≤ d1)
    (hhi0 : d0 ≤ hi) (hhi1 : d1 ≤ hi) (hk0 : 0 ≤ k) (hkn : k ≤ n) :
    lo ≤ d0 + k * ((d1 - d0) / n) ∧ d0 + k * ((d1 - d0) / n) ≤ hi := by
  rcases eq_or_lt_of_le (le_trans hk0 hkn) with hn | hn
  · subst hn
    simp [hlo0, hhi0]
  · have ht0 : 0 ≤ k / n := div_nonneg hk0 (le_of_lt hn)
    have ht1 : k / n ≤ 1 := (div_le_one hn).mpr hkn
    have heq : d0 + k * ((d1 - d0) / n) = (1 - k / n) * d0 + (k / n) * d1 := by
      field_simp
      ring
    rw [heq]
    constructor
    · nlinarith [mul_nonneg ht0 (sub_nonneg.mpr hlo1),
        mul_nonneg (sub_nonneg.mpr ht1) (sub_nonneg.mpr hlo0)]
    · nlinarith [mul_nonneg ht0 (sub_nonneg.mpr hhi1),
        mul_nonneg (sub_nonneg.mpr ht1) (sub_nonneg.mpr hhi0)]

theorem Interpolate_mem_between (i0 i1 : Int) (d0 d1 lo hi : α) (h : i0 ≤ i1)
    (hlo0 : lo ≤ d0) (hlo1 : lo ≤ d1) (hhi0 : d0 ≤ hi) (hhi1 : d1 ≤ hi) (v : α)
    (hv : v ∈ Interpolate i0 d0 i1 d1) : lo ≤ v ∧ v ≤ hi := by
  obtain ⟨k, hk, hget⟩ := List.getElem_of_mem hv
  have hk2 : k ≤ (i1 - i0).toNat := by
    rw [Interpolate_length i0 i1 d0 d1 h] at hk
    omega
  have h2 := Interpolate_getElem?_le i0 i1 d0 d1 h k hk2
  rw [List.getElem?_eq_getElem hk, hget, Option.some.injEq] at h2
  rw [h2]
  apply interpolated_between d0 d1 _ _ lo hi hlo0 hlo1 hhi0 hhi1 (Nat.cast_nonneg k)
  rw [← intCast_toNat_sub i0 i1 h]
  exact_mod_cast hk2

end EdgeLemmas

/-! ## Rows of pixels -/

theorem truncToInt_le_self_of_nonneg {α : Type} [LinearOrderedField α] [FloorRing α] (x : α)
    (h : 0 ≤ x) : ((truncToInt x : Int) : α) ≤ x := by
  rw [truncToInt, if_pos h]
  exact Int.floor_le x

theorem le_truncToInt {α : Type} [LinearOrderedField α] [FloorRing α] (x : α) (n : Int)
    (h : (n : α) ≤ x) : n ≤ truncToInt x := by
  unfold truncToInt
  split
  · exact Int.le_floor.mpr h
  · exact le_trans (Int.le_floor.mpr h) (Int.floor_le_ceil x)

theorem mem_fillRow (xl xr : ℚ) (y color : Int) (px : Pixel) :
    px ∈ fillRow xl xr y color ↔
      px.y = y ∧ px.color = color ∧ truncToInt xl ≤ px.x ∧ (px.x : ℚ) ≤ xr := by
  unfold fillRow
  rw [List.mem_map]
  constructor
  · rintro ⟨i, hi, rfl⟩
    rw [List.mem_range] at hi
    refine ⟨rfl, rfl, by simp, ?_⟩
    have : truncToInt xl + (i : Int) ≤ ⌊xr⌋ := by omega
    exact Int.le_floor.mp this
  · rintro ⟨hy, hc, hx1, hx2⟩
    have hfl : px.x ≤ ⌊xr⌋ := Int.le_floor.mpr hx2
    refine ⟨(px.x - truncToInt xl).toNat, ?_, ?_⟩
    · rw [List.mem_range]; omega
    · cases px
      simp only [Pixel.mk.injEq] at *
      refine ⟨?_, hy.symm, hc.symm⟩
      omega

/-! ## The two edges of a triangle with sorted points -/

theorem indexAt_natCast {β : Type} (l : List β) (n : Nat) : indexAt l (n : Int) = l[n]? := by
  have h : ¬ ((n : Int) < 0) := by omega
  simp only [indexAt, if_neg h, Int.toNat_ofNat]

theorem directEdge_length (q0 q2 : Point2D) (h : q0.y ≤ q2.y) :
    (directEdge q0 q2).length = (q2.y - q0.y).toNat + 1 :=
  Interpolate_length _ _ _ _ h

theorem directEdge_getElem? (q0 q2 : Point2D) (h : q0.y ≤ q2.y) (k : Nat)
    (hk : k ≤ (q2.y - q0.y).toNat) :
    (directEdge q0 q2)[k]? =
      some ((q0.x : ℚ) + (k : ℚ) * (((q2.x : ℚ) - q0.x) / ((q2.y : ℚ) - q0.y))) :=
  Interpolate_getElem?_le _ _ _ _ h k hk

theorem compositeEdge_eq (q0 q1 q2 : Point2D) (h01 : q0.y ≤ q1.y) :
    compositeEdge q0 q1 q2 =
      some ((Interpolate q0.y (q0.x : ℚ) q1.y (q1.x : ℚ)).dropLast ++
        Interpolate q1.y (q1.x : ℚ) q2.y (q2.x : ℚ)) := by
  have hne := Interpolate_ne_nil q0.y q1.y (q0.x : ℚ) (q1.x : ℚ) h01
  simp [compositeEdge, hne]

theorem compositeEdge_spec (q0 q1 q2 : Point2D) (h01 : q0.y ≤ q1.y) (h12 : q1.y ≤ q2.y) :
    ∃ x012 : List ℚ, compositeEdge q0 q1 q2 = some x012 ∧
      x012.length = (q2.y - q0.y).toNat + 1 ∧
      (∀ k : Nat, k < (q1.y - q0.y).toNat →
        x012[k]? = some ((q0.x : ℚ) + (k : ℚ) * (((q1.x : ℚ) - q0.x) / ((q1.y : ℚ) - q0.y)))) ∧
      (∀ k : Nat, (q1.y - q0.y).toNat ≤ k → k ≤ (q2.y - q0.y).toNat →
        x012[k]? = some ((q1.x : ℚ) +
          ((k : ℚ) - ((q1.y : ℚ) - q0.y)) * (((q2.x : ℚ) - q1.x) / ((q2.y : ℚ) - q1.y)))) ∧
      (∀ v ∈ x012, ∀ lo hi : ℚ,
        lo ≤ q0.x → lo ≤ q1.x → lo ≤ q2.x → (q0.x : ℚ) ≤ hi → (q1.x : ℚ) ≤ hi →
          (q2.x : ℚ) ≤ hi → lo ≤ v ∧ v ≤ hi) := by
  refine ⟨_, compositeEdge_eq q0 q1 q2 h01, ?_, ?_, ?_, ?_⟩
  · rw [List.length_append, List.length_dropLast, Interpolate_length _ _ _ _ h01,
      Interpolate_length _ _ _ _ h12]
    omega
  · intro k hk
    have hlen : k < (Interpolate q0.y (q0.x : ℚ) q1.y (q1.x : ℚ)).dropLast.length := by
      rw [List.length_dropLast, Interpolate_length _ _ _ _ h01]
      omega
    rw [List.getElem?_append_left hlen, List.getElem?_dropLast,
      if_pos (by rw [Interpolate_length _ _ _ _ h01]; omega)]
    exact Interpolate_getElem?_le _ _ _ _ h01 k (by omega)
  · intro k hk1 hk2
    have hlen : (Interpolate q0.y (q0.x : ℚ) q1.y (q1.x : ℚ)).dropLast.length
        = (q1.y - q0.y).toNat := by
      rw [List.length_dropLast, Interpolate_length _ _ _ _ h01]
      omega
    rw [List.getElem?_append_right (by rw [hlen]; exact hk1), hlen,
      Interpolate_getElem?_le _ _ _ _ h12 _ (by omega)]
    congr 2
    rw [Nat.cast_sub hk1, intCast_toNat_sub q0.y q1.y h01]
  · intro v hv lo hi a0 a1 a2 b0 b1 b2
    rcases List.mem_append.mp hv with hv | hv
    · exact Interpolate_mem_between _ _ _ _ lo hi h01 a0 a1 b0 b1 v (List.mem_of_mem_dropLast hv)
    · exact Interpolate_mem_between _ _ _ _ lo hi h12 a1 a2 b1 b2 v hv

theorem leftRightEdges_spec (q0 q1 q2 : Point2D) (h01 : q0.y ≤ q1.y) (h12 : q1.y ≤ q2.y) :
    ∃ (x012 : List ℚ) (a b : ℚ), compositeEdge q0 q1 q2 = some x012 ∧
      (directEdge q0 q2)[((q2.y - q0.y).toNat + 1) / 2]? = some a ∧
      x012[((q2.y - q0.y).toNat + 1) / 2]? = some b ∧
      leftRightEdges q0 q1 q2 =
        some (if a < b then (directEdge q0 q2, x012) else (x012, directEdge q0 q2)) := by
  obtain ⟨x012, hx, hlen, -, -, -⟩ := compositeEdge_spec q0 q1 q2 h01 h12
  have hlen2 := directEdge_length q0 q2 (le_trans h01 h12)
  have hm : ((q2.y - q0.y).toNat + 1) / 2 < (q2.y - q0.y).toNat + 1 := by omega
  obtain ⟨a, ha⟩ : ∃ a, (directEdge q0 q2)[((q2.y - q0.y).toNat + 1) / 2]? = some a := by
    rw [List.getElem?_eq_getElem (by rw [hlen2]; exact hm)]
    exact ⟨_, rfl⟩
  obtain ⟨b, hb⟩ : ∃ b, x012[((q2.y - q0.y).toNat + 1) / 2]? = some b := by
    rw [List.getElem?_eq_getElem (by rw [hlen]; exact hm)]
    exact ⟨_, rfl⟩
  refine ⟨x012, a, b, hx, ha, hb, ?_⟩
  simp only [leftRightEdges, hx, Option.bind_eq_bind, Option.some_bind, indexAt_natCast, hlen2,
    ha, hb, Option.pure_def]

/-! ## The drawing loop -/

theorem drawRows_spec (x_left x_right : List ℚ) (y0 color : Int) (n j : Nat)
    (hl : j + n ≤ x_left.length) (hr : j + n ≤ x_right.length) :
    ∃ pixels, drawRows x_left x_right y0 color n (y0 + j) = some pixels ∧
      ∀ px, px ∈ pixels ↔ ∃ (k : Nat) (u v : ℚ), j ≤ k ∧ k < j + n ∧
        x_left[k]? = some u ∧ x_right[k]? = some v ∧ px ∈ fillRow u v (y0 + k) color := by
  induction n generalizing j with
  | zero =>
    refine ⟨[], rfl, ?_⟩
    intro px
    constructor
    · intro h; simp at h
    · rintro ⟨k, _, _, h1, h2, _⟩; omega
  | succ n ih =>
    obtain ⟨rest, hrest, hmem⟩ := ih (j + 1) (by omega) (by omega)
    obtain ⟨u, hu⟩ : ∃ u, x_left[j]? = some u := by
      rw [List.getElem?_eq_getElem (by omega)]; exact ⟨_, rfl⟩
    obtain ⟨v, hv⟩ : ∃ v, x_right[j]? = some v := by
      rw [List.getElem?_eq_getElem (by omega)]; exact ⟨_, rfl⟩
    have hidx : y0 + (j : Int) - y0 = ((j : Nat) : Int) := by omega
    have hnext : y0 + (j : Int) + 1 = y0 + ((j + 1 : Nat) : Int) := by push_cast; ring
    refine ⟨fillRow u v (y0 + j) color ++ rest, ?_, ?_⟩
    · simp only [drawRows, hidx, indexAt_natCast, hu, hv, hnext, hrest, Option.bind_eq_bind,
        Option.some_bind, Option.pure_def]
    · intro px
      rw [List.mem_append, hmem]
      constructor
      · rintro (h | ⟨k, a, b, h1, h2, h3, h4, h5⟩)
        · exact ⟨j, u, v, le_refl _, by omega, hu, hv, h⟩
        · exact ⟨k, a, b, by omega, by omega, h3, h4, h5⟩
      · rintro ⟨k, a, b, h1, h2, h3, h4, h5⟩
        rcases Nat.eq_or_lt_of_le h1 with h | h
        · subst h
          rw [hu] at h3
          rw [hv] at h4
          cases h3
          cases h4
          exact Or.inl h5
        · exact Or.inr ⟨k, a, b, by omega, by omega, h3, h4, h5⟩

/-- What `DrawFilledTriangle` does, in terms of the sorted points: it returns, and a
pixel is written exactly when it lies in the span of some row `k` between the chosen
left and right edge. -/
theorem DrawFilledTriangle_spec (p0 p1 p2 : Point2D) (color : Int) :
    ∃ (q0 q1 q2 : Point2D) (x012 : List ℚ) (a b : ℚ) (pixels : List Pixel),
      sortPoints p0 p1 p2 = (q0, q1, q2) ∧ q0.y ≤ q1.y ∧ q1.y ≤ q2.y ∧
      [q0, q1, q2].Perm [p0, p1, p2] ∧
      compositeEdge q0 q1 q2 = some x012 ∧
      (directEdge q0 q2)[((q2.y - q0.y).toNat + 1) / 2]? = some a ∧
      x012[((q2.y - q0.y).toNat + 1) / 2]? = some b ∧
      DrawFilledTriangle p0 p1 p2 color = some pixels ∧
      ∀ px, px ∈ pixels ↔ ∃ (k : Nat) (u v : ℚ), k ≤ (q2.y - q0.y).toNat ∧
        (if a < b then directEdge q0 q2 else x012)[k]? = some u ∧
        (if a < b then x012 else directEdge q0 q2)[k]? = some v ∧
        px ∈ fillRow u v (q0.y + k) color := by
  obtain ⟨q0, q1, q2, hs, h01, h12, hperm⟩ := sortPoints_cases p0 p1 p2
  obtain ⟨x012, a, b, hx, ha, hb, hlr⟩ := leftRightEdges_spec q0 q1 q2 h01 h12
  obtain ⟨_, hx', hlen, -, -, -⟩ := compositeEdge_spec q0 q1 q2 h01 h12
  rw [hx, Option.some.injEq] at hx'
  subst hx'
  have hlen2 := directEdge_length q0 q2 (le_trans h01 h12)
  have hn : (q2.y + 1 - q0.y).toNat = (q2.y - q0.y).toNat + 1 := by omega
  have hL : 0 + ((q2.y - q0.y).toNat + 1) ≤ (if a < b then directEdge q0 q2 else x012).length := by
    split <;> omega
  have hR : 0 + ((q2.y - q0.y).toNat + 1) ≤ (if a < b then x012 else directEdge q0 q2).length := by
    split <;> omega
  obtain ⟨pixels, hpix, hmem⟩ := drawRows_spec _ _ q0.y color _ 0 hL hR
  refine ⟨q0, q1, q2, x012, a, b, pixels, hs, h01, h12, hperm, hx, ha, hb, ?_, ?_⟩
  · simp only [DrawFilledTriangle, hs, hlr, Option.bind_eq_bind, Option.some_bind, hn]
    rw [← hpix]
    split <;> simp
  · intro px
    rw [hmem]
    constructor
    · rintro ⟨k, u, v, _, h2, h3, h4, h5⟩
      exact ⟨k, u, v, by omega, h3, h4, h5⟩
    · rintro ⟨k, u, v, h2, h3, h4, h5⟩
      exact ⟨k, u, v, Nat.zero_le _, by omega, h3, h4, h5⟩

/-! ## The bounding box and the top row -/

theorem mem_three_bounds (p0 p1 p2 q : Point2D) (h : q ∈ [p0, p1, p2]) :
    minX p0 p1 p2 ≤ q.x ∧ q.x ≤ maxX p0 p1 p2 ∧ minY p0 p1 p2 ≤ q.y ∧ q.y ≤ maxY p0 p1 p2 := by
  simp only [List.mem_cons, List.mem_singleton, List.not_mem_nil, or_false] at h
  unfold minX maxX minY maxY
  rcases h with h | h | h <;> subst h <;> refine ⟨?_, ?_, ?_, ?_⟩ <;> omega

theorem sorted_extremes (p0 p1 p2 q0 q1 q2 : Point2D) (h01 : q0.y ≤ q1.y) (h12 : q1.y ≤ q2.y)
    (hperm : [q0, q1, q2].Perm [p0, p1, p2]) :
    q0.y = minY p0 p1 p2 ∧ q2.y = maxY p0 p1 p2 := by
  have a0 := mem_three_bounds p0 p1 p2 q0 (hperm.mem_iff.mp (by simp))
  have a2 := mem_three_bounds p0 p1 p2 q2 (hperm.mem_iff.mp (by simp))
  have b0 := mem_three_bounds q0 q1 q2 p0 (hperm.mem_iff.mpr (by simp))
  have b1 := mem_three_bounds q0 q1 q2 p1 (hperm.mem_iff.mpr (by simp))
  have b2 := mem_three_bounds q0 q1 q2 p2 (hperm.mem_iff.mpr (by simp))
  unfold minX maxX minY maxY at *
  constructor <;> omega

theorem two_on_top_row (p0 p1 p2 q0 q1 q2 : Point2D)
    (hperm : [q0, q1, q2].Perm [p0, p1, p2]) (h : q1.y = q0.y)
    (hmin : q0.y = minY p0 p1 p2) : flatTop p0 p1 p2 := by
  have hc := (hperm.map Point2D.y).count_eq (minY p0 p1 p2)
  unfold flatTop
  simp only [List.map_cons, List.map_nil, List.count_cons, List.count_nil, beq_iff_eq] at hc
  rw [h, hmin] at hc
  simp only [if_true] at hc
  by_cases a0 : p0.y = minY p0 p1 p2 <;> by_cases a1 : p1.y = minY p0 p1 p2 <;>
    by_cases a2 : p2.y = minY p0 p1 p2 <;> simp [a0, a1, a2] at hc ⊢

/-! ## The face loop -/

theorem memcpyVertices_same_length {α : Type} (dst src : List (Point3D α))
    (h : dst.length = src.length) : memcpyVertices dst src = some src := by
  simp [memcpyVertices, h]

section FaceLoop
variable {α : Type} [LinearOrderedField α]

theorem rotateVertex_norm (cosX sinX cosY sinY cosZ sinZ : α)
    (hX : cosX ^ 2 + sinX ^ 2 = 1) (hY : cosY ^ 2 + sinY ^ 2 = 1)
    (hZ : cosZ ^ 2 + sinZ ^ 2 = 1) (v : Point3D α) :
    (rotateVertex cosX sinX cosY sinY cosZ sinZ v).x ^ 2
      + (rotateVertex cosX sinX cosY sinY cosZ sinZ v).y ^ 2
      + (rotateVertex cosX sinX cosY sinY cosZ sinZ v).z ^ 2
      = v.x ^ 2 + v.y ^ 2 + v.z ^ 2 := by
  simp only [rotateVertex]
  linear_combination
    ((cosY * v.x + sinY * (sinX * v.y + cosX * v.z)) ^ 2 + (cosX * v.y - sinX * v.z) ^ 2) * hZ
    + (v.x ^ 2 + (sinX * v.y + cosX * v.z) ^ 2) * hY + (v.y ^ 2 + v.z ^ 2) * hX

theorem depth_pos_of_norm (v : Point3D α) (h : v.x ^ 2 + v.y ^ 2 + v.z ^ 2 = 3) :
    0 < v.z + 4 := by
  nlinarith [sq_nonneg v.x, sq_nonneg v.y, sq_nonneg (v.z + 4), sq_nonneg (v.z - 2)]

theorem oldVertices_norm (v : Point3D α) (h : v ∈ oldVertices α) :
    v.x ^ 2 + v.y ^ 2 + v.z ^ 2 = 3 := by
  simp only [oldVertices, List.mem_cons, List.mem_singleton, List.not_mem_nil, or_false] at h
  rcases h with h | h | h | h | h | h | h | h <;> subst h <;> norm_num

theorem rotateInPlace_spec (cosX sinX cosY sinY cosZ sinZ : α) (vs : List (Point3D α))
    (idx : Int) (h0 : 0 ≤ idx) (h1 : idx < vs.length) :
    ∃ v, vs[idx.toNat]? = some v ∧
      rotateInPlace cosX sinX cosY sinY cosZ sinZ vs idx
        = some (vs.set idx.toNat (rotateVertex cosX sinX cosY sinY cosZ sinZ v)) := by
  obtain ⟨v, hv, hv2⟩ := indexAt_of_bounds vs idx h0 h1
  exact ⟨v, hv2, by simp [rotateInPlace, hv]⟩

variable [FloorRing α]

theorem fillFace_of_norm (vs : List (Point3D α)) (face : Face)
    (hvalid : validFace vs.length face) (hnorm : ∀ v ∈ vs, v.x ^ 2 + v.y ^ 2 + v.z ^ 2 = 3) :
    ∃ call, fillFace vs face = some call ∧ call.color = face.color := by
  obtain ⟨⟨a0, a1⟩, ⟨b0, b1⟩, ⟨c0, c1⟩⟩ := hvalid
  obtain ⟨u, hu, hu2⟩ := indexAt_of_bounds vs face.v0 a0 a1
  obtain ⟨v, hv, hv2⟩ := indexAt_of_bounds vs face.v1 b0 b1
  obtain ⟨w, hw, hw2⟩ := indexAt_of_bounds vs face.v2 c0 c1
  have zu := ne_of_gt (depth_pos_of_norm u (hnorm u (List.getElem?_mem hu2)))
  have zv := ne_of_gt (depth_pos_of_norm v (hnorm v (List.getElem?_mem hv2)))
  have zw := ne_of_gt (depth_pos_of_norm w (hnorm w (List.getElem?_mem hw2)))
  obtain ⟨pu, hpu⟩ : ∃ p, ProjectTo2D u = some p := ⟨_, ProjectTo2D_of_ne u zu⟩
  obtain ⟨pv, hpv⟩ : ∃ p, ProjectTo2D v = some p := ⟨_, ProjectTo2D_of_ne v zv⟩
  obtain ⟨pw, hpw⟩ : ∃ p, ProjectTo2D w = some p := ⟨_, ProjectTo2D_of_ne w zw⟩
  obtain ⟨_, _, _, _, _, _, pixels, -, -, -, -, -, -, -, hdraw, -⟩ :=
    DrawFilledTriangle_spec pu pv pw face.color
  refine ⟨⟨pu, pv, pw, face.color, pixels⟩, ?_, rfl⟩
  simp only [fillFace, hu, hv, hw, hpu, hpv, hpw, hdraw, Option.bind_eq_bind, Option.some_bind,
    Option.pure_def]

theorem rotateAndFillFace_spec (cosX sinX cosY sinY cosZ sinZ : α)
    (hX : cosX ^ 2 + sinX ^ 2 = 1) (hY : cosY ^ 2 + sinY ^ 2 = 1)
    (hZ : cosZ ^ 2 + sinZ ^ 2 = 1) (old vs : List (Point3D α)) (face : Face)
    (hlen : vs.length = old.length) (hvalid : validFace old.length face)
    (hnorm : ∀ v ∈ old, v.x ^ 2 + v.y ^ 2 + v.z ^ 2 = 3) :
    ∃ vs' call, rotateAndFillFace cosX sinX cosY sinY cosZ sinZ old vs face = some (vs', call) ∧
      vs'.length = old.length ∧ call.color = face.color := by
  have hstep : ∀ (ws : List (Point3D α)) (idx : Int), 0 ≤ idx → idx < old.length →
      ws.length = old.length → (∀ v ∈ ws, v.x ^ 2 + v.y ^ 2 + v.z ^ 2 = 3) →
      ∃ ws', rotateInPlace cosX sinX cosY sinY cosZ sinZ ws idx = some ws' ∧
        ws'.length = old.length ∧ ∀ v ∈ ws', v.x ^ 2 + v.y ^ 2 + v.z ^ 2 = 3 := by
    intro ws idx i0 i1 hl hn
    obtain ⟨v, hv, hrot⟩ := rotateInPlace_spec cosX sinX cosY sinY cosZ sinZ ws idx i0
      (by rw [hl]; exact i1)
    refine ⟨_, hrot, by rw [List.length_set, hl], ?_⟩
    intro e he
    rcases List.mem_or_eq_of_mem_set he with he | he
    · exact hn e he
    · rw [he, rotateVertex_norm _ _ _ _ _ _ hX hY hZ]
      exact hn v (List.getElem?_mem hv)
  obtain ⟨⟨a0, a1⟩, ⟨b0, b1⟩, ⟨c0, c1⟩⟩ := hvalid
  obtain ⟨w1, r1, l1, n1⟩ := hstep old face.v0 a0 a1 rfl hnorm
  obtain ⟨w2, r2, l2, n2⟩ := hstep w1 face.v1 b0 b1 l1 n1
  obtain ⟨w3, r3, l3, n3⟩ := hstep w2 face.v2 c0 c1 l2 n2
  obtain ⟨call, hcall, hcolor⟩ := fillFace_of_norm w3 face
    (by rw [l3]; exact ⟨⟨a0, a1⟩, ⟨b0, b1⟩, ⟨c0, c1⟩⟩) n3
  refine ⟨w3, call, ?_, l3, hcolor⟩
  simp only [rotateAndFillFace, memcpyVertices_same_length vs old hlen, r1, r2, r3, hcall,
    Option.bind_eq_bind, Option.some_bind, Option.pure_def]

theorem fillLoop_spec (cosX sinX cosY sinY cosZ sinZ : α)
    (hX : cosX ^ 2 + sinX ^ 2 = 1) (hY : cosY ^ 2 + sinY ^ 2 = 1)
    (hZ : cosZ ^ 2 + sinZ ^ 2 = 1) (old : List (Point3D α))
    (hnorm : ∀ v ∈ old, v.x ^ 2 + v.y ^ 2 + v.z ^ 2 = 3) (fs : List Face)
    (hvalid : ∀ f ∈ fs, validFace old.length f) (vs : List (Point3D α))
    (hlen : vs.length = old.length) :
    ∃ vs' calls, fillLoop cosX sinX cosY sinY cosZ sinZ old fs vs = some (vs', calls) ∧
      vs'.length = old.length ∧ calls.map DrawCall.color = fs.map Face.color := by
  induction fs generalizing vs with
  | nil => exact ⟨vs, [], rfl, hlen, rfl⟩
  | cons f rest ih =>
    obtain ⟨w, call, hface, hl, hc⟩ := rotateAndFillFace_spec cosX sinX cosY sinY cosZ sinZ
      hX hY hZ old vs f hlen (hvalid f (List.mem_cons_self _ _)) hnorm
    obtain ⟨w', calls, hrest, hl', hcs⟩ :=
      ih (fun g hg => hvalid g (List.mem_cons_of_mem _ hg)) w hl
    refine ⟨w', call :: calls, ?_, hl', by simp [hc, hcs]⟩
    simp only [fillLoop, hface, hrest, Option.bind_eq_bind, Option.some_bind, Option.pure_def]

end FaceLoop

/-- C5 on the first tick after start-up (real angles `0.02`). `renderCube` returns, and
its draw calls carry the colors of `faces[]` in the order of the table: nothing sorts
the faces.  The first triangle drawn is the front face `{0, 1, 2}` (color 6) and the
third is the back face `{4, 5, 6}` (color 1); the mean depth of the first is smaller
than that of the third, both on the canonical vertices (`-1` against `1`) and on the
vertices rotated by the angles of the tick. -/
theorem renderCube_draws_in_table_order :
    ∃ st' calls, renderCube Real.cos Real.sin (initialScene ℝ) = some (st', calls) ∧
      calls.map DrawCall.color = [6, 6, 1, 1, 2, 2, 3, 3, 4, 4, 5, 5] ∧
      computeFaceDepth (oldVertices ℝ) ⟨0, 1, 2, 6, 0⟩ = some (-1) ∧
      computeFaceDepth (oldVertices ℝ) ⟨4, 5, 6, 1, 0⟩ = some 1 ∧
      ∃ d0 d2 : ℝ,
        computeFaceDepth ((oldVertices ℝ).map (rotateVertex (Real.cos 0.02) (Real.sin 0.02)
          (Real.cos 0.02) (Real.sin 0.02) (Real.cos 0.02) (Real.sin 0.02))) ⟨0, 1, 2, 6, 0⟩
            = some d0 ∧
        computeFaceDepth ((oldVertices ℝ).map (rotateVertex (Real.cos 0.02) (Real.sin 0.02)
          (Real.cos 0.02) (Real.sin 0.02) (Real.cos 0.02) (Real.sin 0.02))) ⟨4, 5, 6, 1, 0⟩
            = some d2 ∧
        d0 < d2 := by
  have htrig : Real.cos 0.02 ^ 2 + Real.sin 0.02 ^ 2 = 1 := Real.cos_sq_add_sin_sq 0.02
  have hvalid : ∀ f ∈ faces, validFace (oldVertices ℝ).length f := by decide
  obtain ⟨vs', calls, hloop, -, hcolors⟩ :=
    fillLoop_spec (Real.cos 0.02) (Real.sin 0.02) (Real.cos 0.02) (Real.sin 0.02)
      (Real.cos 0.02) (Real.sin 0.02) htrig htrig htrig (oldVertices ℝ)
      (fun v hv => oldVertices_norm v hv) faces hvalid (vertices ℝ) rfl
  have hcos : 0 < Real.cos 0.02 := by
    apply Real.cos_pos_of_mem_Ioo
    constructor <;> nlinarith [Real.pi_gt_three]
  refine ⟨⟨vs', oldVertices ℝ, faces, 0 + 0.02, 0 + 0.02, 0 + 0.02⟩, calls, ?_, ?_, ?_, ?_,
    ((rotateVertex (Real.cos 0.02) (Real.sin 0.02) (Real.cos 0.02) (Real.sin 0.02)
        (Real.cos 0.02) (Real.sin 0.02) ⟨-1, -1, -1⟩).z
      + (rotateVertex (Real.cos 0.02) (Real.sin 0.02) (Real.cos 0.02) (Real.sin 0.02)
        (Real.cos 0.02) (Real.sin 0.02) ⟨1, -1, -1⟩).z
      + (rotateVertex (Real.cos 0.02) (Real.sin 0.02) (Real.cos 0.02) (Real.sin 0.02)
        (Real.cos 0.02) (Real.sin 0.02) ⟨1, 1, -1⟩).z) / 3,
    ((rotateVertex (Real.cos 0.02) (Real.sin 0.02) (Real.cos 0.02) (Real.sin 0.02)
        (Real.cos 0.02) (Real.sin 0.02) ⟨-1, -1, 1⟩).z
      + (rotateVertex (Real.cos 0.02) (Real.sin 0.02) (Real.cos 0.02) (Real.sin 0.02)
        (Real.cos 0.02) (Real.sin 0.02) ⟨1, -1, 1⟩).z
      + (rotateVertex (Real.cos 0.02) (Real.sin 0.02) (Real.cos 0.02) (Real.sin 0.02)
        (Real.cos 0.02) (Real.sin 0.02) ⟨1, 1, 1⟩).z) / 3, ?_, ?_, ?_⟩
  · simp only [renderCube, rotateAndFillCube, initialScene, zero_add, hloop,
      Option.bind_eq_bind, Option.some_bind, Option.pure_def]
  · rw [hcolors]
    decide
  · simp [oldVertices, computeFaceDepth, indexAt]
    norm_num
  · simp [oldVertices, computeFaceDepth, indexAt]
    norm_num
  · simp [oldVertices, computeFaceDepth, indexAt]
  · simp [oldVertices, computeFaceDepth, indexAt]
  · simp only [rotateVertex]
    nlinarith [mul_pos hcos hcos]

/-- C18. After the three compare-and-swap steps that open `DrawFilledTriangle` the
points `(p0, p1, p2)` are a rearrangement of the three inputs and their
y-coordinates do not decrease: `p0.y ≤ p1.y ≤ p2.y`. -/
theorem sortPoints_sorted_perm (p0 p1 p2 : Point2D) :
    [(sortPoints p0 p1 p2).1, (sortPoints p0 p1 p2).2.1, (sortPoints p0 p1 p2).2.2].Perm
        [p0, p1, p2] ∧
      (sortPoints p0 p1 p2).1.y ≤ (sortPoints p0 p1 p2).2.1.y ∧
      (sortPoints p0 p1 p2).2.1.y ≤ (sortPoints p0 p1 p2).2.2.y := by
  obtain ⟨q0, q1, q2, hs, h01, h12, hperm⟩ := sortPoints_cases p0 p1 p2
  rw [hs]
  exact ⟨hperm, h01, h12⟩

/-- C19, as the code has it. Unless the first two inputs share a row and the third
lies strictly above it (`p0.y = p1.y` and `p2.y < p0.y`), the three-point sort keeps
points of equal `y` in their input order: the result is what a stable insertion sort
by `y` gives, and of two inputs with equal `y` the earlier one stands first. -/
theorem sortPoints_stable_unless (p0 p1 p2 : Point2D)
    (h : ¬ (p0.y = p1.y ∧ p2.y < p0.y)) :
    [(sortPoints p0 p1 p2).1, (sortPoints p0 p1 p2).2.1, (sortPoints p0 p1 p2).2.2]
        = List.insertionSort (fun a b : Point2D => a.y ≤ b.y) [p0, p1, p2] ∧
      (p0.y = p1.y → comesBefore (sortPoints p0 p1 p2) p0 p1) ∧
      (p0.y = p2.y → comesBefore (sortPoints p0 p1 p2) p0 p2) ∧
      (p1.y = p2.y → comesBefore (sortPoints p0 p1 p2) p1 p2) := by
  simp only [sortPoints, comesBefore]
  split_ifs
  all_goals dsimp only at *
  all_goals first
    | omega
    | (refine ⟨?_, ?_, ?_, ?_⟩
       · simp only [List.insertionSort, List.orderedInsert]
         split_ifs <;> simp only [List.orderedInsert] <;> (try split_ifs) <;>
           first | rfl | omega
       all_goals (intro e; first | omega | simp))

/-- C19 (as the code has it) on the points `(0, 0)`, `(5, 0)`, `(3, 0)` of one row:
they come out in input order. -/
theorem sortPoints_stable_unless_witness :
    ¬ ((⟨0, 0⟩ : Point2D).y = (⟨5, 0⟩ : Point2D).y ∧ (⟨3, 0⟩ : Point2D).y < (⟨0, 0⟩ : Point2D).y) ∧
    sortPoints ⟨0, 0⟩ ⟨5, 0⟩ ⟨3, 0⟩ = (⟨0, 0⟩, ⟨5, 0⟩, ⟨3, 0⟩) ∧
    comesBefore (sortPoints ⟨0, 0⟩ ⟨5, 0⟩ ⟨3, 0⟩) ⟨0, 0⟩ ⟨5, 0⟩ :=
  ⟨by decide, by decide,
    (sortPoints_stable_unless ⟨0, 0⟩ ⟨5, 0⟩ ⟨3, 0⟩ (by decide)).2.1 (by decide)⟩

/-- C19 refuted as stated. The inputs `(0, 1)`, `(5, 1)`, `(0, 0)` come out as
`(0, 0)`, `(5, 1)`, `(0, 1)`: the two points of row `1` have changed places, since the
second step swaps the outer points across the middle one. -/
theorem sortPoints_not_stable :
    sortPoints ⟨0, 1⟩ ⟨5, 1⟩ ⟨0, 0⟩ = (⟨0, 0⟩, ⟨5, 1⟩, ⟨0, 1⟩) ∧
    (⟨0, 1⟩ : Point2D).y = (⟨5, 1⟩ : Point2D).y ∧
    ¬ comesBefore (sortPoints ⟨0, 1⟩ ⟨5, 1⟩ ⟨0, 0⟩) ⟨0, 1⟩ ⟨5, 1⟩ ∧
    [(sortPoints ⟨0, 1⟩ ⟨5, 1⟩ ⟨0, 0⟩).1, (sortPoints ⟨0, 1⟩ ⟨5, 1⟩ ⟨0, 0⟩).2.1,
        (sortPoints ⟨0, 1⟩ ⟨5, 1⟩ ⟨0, 0⟩).2.2]
      ≠ List.insertionSort (fun a b : Point2D => a.y ≤ b.y) [⟨0, 1⟩, ⟨5, 1⟩, ⟨0, 0⟩] := by
  decide

/-! ## The projection of the rotating cube -/

/-- C17. Over the reals, for every canonical cube vertex and all angles the rotation
of `rotateAndFillCube` keeps the squared norm at `3`, so the rotated `z` satisfies
`z + 4 > 0` and `ProjectTo2D` is defined there; and `rotateAndFillCube` on the cube
returns a result for all angles, so none of its projections divides by zero. -/
theorem rotated_cube_stays_in_front (ax ay az : ℝ) (v : Point3D ℝ)
    (hv : v ∈ oldVertices ℝ) :
    (rotateVertex (Real.cos ax) (Real.sin ax) (Real.cos ay) (Real.sin ay)
        (Real.cos az) (Real.sin az) v).x ^ 2
      + (rotateVertex (Real.cos ax) (Real.sin ax) (Real.cos ay) (Real.sin ay)
        (Real.cos az) (Real.sin az) v).y ^ 2
      + (rotateVertex (Real.cos ax) (Real.sin ax) (Real.cos ay) (Real.sin ay)
        (Real.cos az) (Real.sin az) v).z ^ 2 = 3 ∧
    0 < (rotateVertex (Real.cos ax) (Real.sin ax) (Real.cos ay) (Real.sin ay)
        (Real.cos az) (Real.sin az) v).z + 4 ∧
    (∃ p, ProjectTo2D (rotateVertex (Real.cos ax) (Real.sin ax) (Real.cos ay) (Real.sin ay)
        (Real.cos az) (Real.sin az) v) = some p) ∧
    (∀ (vs : List (Point3D ℝ)) (a b c : ℝ), vs.length = 8 →
      ∃ r, rotateAndFillCube Real.cos Real.sin ax ay az ⟨vs, oldVertices ℝ, faces, a, b, c⟩
        = some r) := by
  have hX := Real.cos_sq_add_sin_sq ax
  have hY := Real.cos_sq_add_sin_sq ay
  have hZ := Real.cos_sq_add_sin_sq az
  have hnorm := (rotateVertex_norm _ _ _ _ _ _ hX hY hZ v).trans (oldVertices_norm v hv)
  have hpos := depth_pos_of_norm _ hnorm
  refine ⟨hnorm, hpos, ⟨_, ProjectTo2D_of_ne _ (ne_of_gt hpos)⟩, ?_⟩
  intro vs a b c hlen
  have hvalid : ∀ f ∈ faces, validFace (oldVertices ℝ).length f := by decide
  obtain ⟨vs', calls, hloop, -, -⟩ :=
    fillLoop_spec _ _ _ _ _ _ hX hY hZ (oldVertices ℝ) (fun w hw => oldVertices_norm w hw)
      faces hvalid vs (by rw [hlen]; rfl)
  exact ⟨(⟨vs', oldVertices ℝ, faces, a, b, c⟩, calls), by
    simp only [rotateAndFillCube, hloop, Option.bind_eq_bind, Option.some_bind,
      Option.pure_def]⟩

/-- C17 on the vertex `(-1, -1, -1)` at the angles `(0, 0, 0)`. -/
theorem rotated_cube_stays_in_front_witness :
    (⟨-1, -1, -1⟩ : Point3D ℝ) ∈ oldVertices ℝ ∧
    0 < (rotateVertex (Real.cos 0) (Real.sin 0) (Real.cos 0) (Real.sin 0)
        (Real.cos 0) (Real.sin 0) (⟨-1, -1, -1⟩ : Point3D ℝ)).z + 4 :=
  ⟨by simp [oldVertices],
    (rotated_cube_stays_in_front 0 0 0 ⟨-1, -1, -1⟩ (by simp [oldVertices])).2.1⟩

theorem screen_x_bounds (x y z : ℝ) (h : x ^ 2 + y ^ 2 + z ^ 2 = 3) :
    0 < z + 4 ∧ 0 ≤ (160 : ℝ) + 256 * x / (z + 4) ∧ (160 : ℝ) + 256 * x / (z + 4) < 320 := by
  have hpos : 0 < z + 4 := by
    nlinarith [sq_nonneg x, sq_nonneg y, sq_nonneg (z + 4), sq_nonneg (z - 2)]
  have h1 : 8 * x < 5 * (z + 4) := by
    by_contra hc
    have hc' : 5 * (z + 4) ≤ 8 * x := not_lt.mp hc
    have hx : 0 < x := by nlinarith
    nlinarith [sq_nonneg y, sq_nonneg (89 * z + 100), mul_self_le_mul_self (le_of_lt
      (mul_pos (by norm_num : (0 : ℝ) < 5) hpos)) hc']
  have h2 : -(5 * (z + 4)) < 8 * x := by
    by_contra hc
    have hc' : 8 * x ≤ -(5 * (z + 4)) := not_lt.mp hc
    have hc'' : 5 * (z + 4) ≤ 8 * (-x) := by linarith
    nlinarith [sq_nonneg y, sq_nonneg (89 * z + 100), mul_self_le_mul_self (le_of_lt
      (mul_pos (by norm_num : (0 : ℝ) < 5) hpos)) hc'']
  have e : (160 : ℝ) + 256 * x / (z + 4) = (160 * (z + 4) + 256 * x) / (z + 4) := by
    field_simp
  rw [e]
  refine ⟨hpos, div_nonneg (by nlinarith) (le_of_lt hpos), ?_⟩
  rw [div_lt_iff₀ hpos]
  nlinarith

/-- C20. Over the reals, for every canonical cube vertex and all rotation angles the
screen x-coordinate that `ProjectTo2D` returns for the rotated vertex satisfies
`0 ≤ x < SCREEN_WIDTH = 320`. -/
theorem rotated_cube_screen_x (ax ay az : ℝ) (v : Point3D ℝ) (hv : v ∈ oldVertices ℝ) :
    ∃ p, ProjectTo2D (rotateVertex (Real.cos ax) (Real.sin ax) (Real.cos ay) (Real.sin ay)
        (Real.cos az) (Real.sin az) v) = some p ∧ 0 ≤ p.x ∧ p.x < SCREEN_WIDTH := by
  have hnorm := (rotateVertex_norm _ _ _ _ _ _ (Real.cos_sq_add_sin_sq ax)
    (Real.cos_sq_add_sin_sq ay) (Real.cos_sq_add_sin_sq az) v).trans (oldVertices_norm v hv)
  obtain ⟨hpos, hlo, hhi⟩ := screen_x_bounds _ _ _ hnorm
  refine ⟨_, ProjectTo2D_of_ne _ (ne_of_gt hpos), ?_, ?_⟩
  · simp only [truncToInt, if_pos hlo]
    exact Int.floor_nonneg.mpr hlo
  · simp only [truncToInt, if_pos hlo, SCREEN_WIDTH]
    rw [Int.floor_lt]
    exact_mod_cast hhi

/-- C20 on the vertex `(1, 1, -1)` at the angles `(0, 0, 0)`. -/
theorem rotated_cube_screen_x_witness :
    (⟨1, 1, -1⟩ : Point3D ℝ) ∈ oldVertices ℝ ∧
    ∃ p, ProjectTo2D (rotateVertex (Real.cos 0) (Real.sin 0) (Real.cos 0) (Real.sin 0)
        (Real.cos 0) (Real.sin 0) (⟨1, 1, -1⟩ : Point3D ℝ)) = some p ∧
      0 ≤ p.x ∧ p.x < SCREEN_WIDTH :=
  ⟨by simp [oldVertices], rotated_cube_screen_x 0 0 0 ⟨1, 1, -1⟩ (by simp [oldVertices])⟩

/-! ## The canonical vertices are read-only -/

section FrameLemmas
variable {α : Type} [LinearOrderedField α] [FloorRing α]

theorem rotateAndFillCube_frame (cos sin : α → α) (ax ay az : α) (st st' : Scene α)
    (calls : List DrawCall) (h : rotateAndFillCube cos sin ax ay az st = some (st', calls)) :
    st' = { st with vertices := st'.vertices } := by
  simp only [rotateAndFillCube, Option.bind_eq_bind, Option.pure_def] at h
  cases hl : fillLoop (cos ax) (sin ax) (cos ay) (sin ay) (cos az) (sin az) st.oldVertices
      st.faces st.vertices with
  | none => simp [hl] at h
  | some r =>
    simp only [hl, Option.some_bind, Option.some.injEq, Prod.mk.injEq] at h
    rw [← h.1]

theorem renderCube_frame (cos sin : α → α) (st st' : Scene α) (calls : List DrawCall)
    (h : renderCube cos sin st = some (st', calls)) :
    st'.oldVertices = st.oldVertices ∧ st'.faces = st.faces := by
  have h2 := rotateAndFillCube_frame cos sin _ _ _ _ st' calls h
  rw [h2]
  exact ⟨rfl, rfl⟩

theorem renderTicks_frame (cos sin : α → α) (n : Nat) (st st' : Scene α)
    (h : renderTicks cos sin n st = some st') :
    st'.oldVertices = st.oldVertices ∧ st'.faces = st.faces := by
  induction n generalizing st with
  | zero =>
    simp only [renderTicks, Option.some.injEq] at h
    rw [← h]
    exact ⟨rfl, rfl⟩
  | succ n ih =>
    simp only [renderTicks, Option.bind_eq_bind] at h
    cases hr : renderCube cos sin st with
    | none => simp [hr] at h
    | some r =>
      simp only [hr, Option.some_bind] at h
      obtain ⟨a1, a2⟩ := ih r.1 h
      obtain ⟨b1, b2⟩ := renderCube_frame cos sin st r.1 r.2 hr
      exact ⟨a1.trans b1, a2.trans b2⟩

end FrameLemmas

/-- C12. The canonical vertex set is never written: whenever `rotateAndFillCube`
returns, the state it leaves differs from the state it found in the working buffer
`vertices` only; `renderCube` leaves `oldVertices` (and `faces`) as they were; and so
does any number of ticks. -/
theorem oldVertices_never_mutated {α : Type} [LinearOrderedField α] [FloorRing α]
    (cos sin : α → α) :
    (∀ (ax ay az : α) (st st' : Scene α) (calls : List DrawCall),
      rotateAndFillCube cos sin ax ay az st = some (st', calls) →
        st' = { st with vertices := st'.vertices } ∧ st'.oldVertices = st.oldVertices) ∧
    (∀ (st st' : Scene α) (calls : List DrawCall),
      renderCube cos sin st = some (st', calls) → st'.oldVertices = st.oldVertices) ∧
    (∀ (n : Nat) (st st' : Scene α),
      renderTicks cos sin n st = some st' → st'.oldVertices = st.oldVertices) := by
  refine ⟨?_, ?_, ?_⟩
  · intro ax ay az st st' calls h
    have h2 := rotateAndFillCube_frame cos sin ax ay az st st' calls h
    refine ⟨h2, ?_⟩
    rw [h2]
  · intro st st' calls h
    exact (renderCube_frame cos sin st st' calls h).1
  · intro n st st' h
    exact (renderTicks_frame cos sin n st st' h).1

/-- C12 on the first tick after start-up, over the reals: the tick returns and the
canonical vertices are those of the start. -/
theorem oldVertices_never_mutated_witness :
    ∃ st', renderTicks Real.cos Real.sin 1 (initialScene ℝ) = some st' ∧
      st'.oldVertices = (initialScene ℝ).oldVertices := by
  have htrig : Real.cos 0.02 ^ 2 + Real.sin 0.02 ^ 2 = 1 := Real.cos_sq_add_sin_sq 0.02
  have hvalid : ∀ f ∈ faces, validFace (oldVertices ℝ).length f := by decide
  obtain ⟨vs', calls, hloop, -, -⟩ :=
    fillLoop_spec (Real.cos 0.02) (Real.sin 0.02) (Real.cos 0.02) (Real.sin 0.02)
      (Real.cos 0.02) (Real.sin 0.02) htrig htrig htrig (oldVertices ℝ)
      (fun v hv => oldVertices_norm v hv) faces hvalid (vertices ℝ) rfl
  have hrun : renderTicks Real.cos Real.sin 1 (initialScene ℝ)
      = some ⟨vs', oldVertices ℝ, faces, 0 + 0.02, 0 + 0.02, 0 + 0.02⟩ := by
    simp only [renderTicks, renderCube, rotateAndFillCube, initialScene, zero_add, hloop,
      Option.bind_eq_bind, Option.some_bind, Option.pure_def]
  exact ⟨_, hrun, (oldVertices_never_mutated Real.cos Real.sin).2.2 1 _ _ hrun⟩

/-! ## The built-in mesh -/

/-- C14. The built-in mesh is a well-formed cube: 8 canonical vertices, pairwise
different, among them every sign combination `(±1, ±1, ±1)` (the working buffer
starts as a copy); 12 faces whose three vertex indices lie in `0..7` and are pairwise
distinct; colors in `0..15`, exactly 6 different ones; and for `k` in `0..5` the
faces `2k` and `2k + 1` have the same color, share exactly two vertex indices and
have all their vertices in one side plane of the cube. -/
theorem cube_mesh_well_formed :
    (oldVertices ℚ).length = 8 ∧ (oldVertices ℚ).Nodup ∧
    (∀ sx ∈ [(-1 : ℚ), 1], ∀ sy ∈ [(-1 : ℚ), 1], ∀ sz ∈ [(-1 : ℚ), 1],
      (⟨sx, sy, sz⟩ : Point3D ℚ) ∈ oldVertices ℚ) ∧
    vertices ℚ = oldVertices ℚ ∧
    faces.length = 12 ∧
    (∀ f ∈ faces, validFace 8 f ∧ f.v0 ≠ f.v1 ∧ f.v0 ≠ f.v2 ∧ f.v1 ≠ f.v2 ∧
      0 ≤ f.color ∧ f.color ≤ 15) ∧
    (faces.map Face.color).dedup.length = 6 ∧
    (∀ k : Nat, k < 6 → ∃ f g : Face, faces[2 * k]? = some f ∧ faces[2 * k + 1]? = some g ∧
      f.color = g.color ∧ (sharedIndices f g).length = 2 ∧
      onSidePlane (oldVertices ℚ) [f.v0, f.v1, f.v2, g.v0, g.v1, g.v2]) := by
  refine ⟨rfl, ?_, ?_, rfl, rfl, by decide, by decide, ?_⟩
  · simp [oldVertices]
    norm_num
  · simp [oldVertices]
  · intro k hk
    interval_cases k
    · refine ⟨⟨0, 1, 2, 6, 0⟩, ⟨0, 2, 3, 6, 0⟩, rfl, rfl, rfl, by decide, -1, by simp, ?_⟩
      right; right
      simp [oldVertices, indexAt]
    · refine ⟨⟨4, 5, 6, 1, 0⟩, ⟨4, 6, 7, 1, 0⟩, rfl, rfl, rfl, by decide, 1, by simp, ?_⟩
      right; right
      simp [oldVertices, indexAt]
    · refine ⟨⟨0, 3, 7, 2, 0⟩, ⟨0, 7, 4, 2, 0⟩, rfl, rfl, rfl, by decide, -1, by simp, ?_⟩
      left
      simp [oldVertices, indexAt]
    · refine ⟨⟨1, 5, 6, 3, 0⟩, ⟨1, 6, 2, 3, 0⟩, rfl, rfl, rfl, by decide, 1, by simp, ?_⟩
      left
      simp [oldVertices, indexAt]
    · refine ⟨⟨2, 3, 7, 4, 0⟩, ⟨2, 7, 6, 4, 0⟩, rfl, rfl, rfl, by decide, 1, by simp, ?_⟩
      right; left
      simp [oldVertices, indexAt]
    · refine ⟨⟨0, 1, 5, 5, 0⟩, ⟨0, 5, 4, 5, 0⟩, rfl, rfl, rfl, by decide, -1, by simp, ?_⟩
      right; left
      simp [oldVertices, indexAt]

/-! ## Per-face rotation against rotation of the whole mesh -/

section Refinement
variable {α : Type} [LinearOrderedField α]

theorem rotateVertex_eq_compose (cosX sinX cosY sinY cosZ sinZ : α) (v : Point3D α) :
    rotateVertex cosX sinX cosY sinY cosZ sinZ v
      = rotateZ cosZ sinZ (rotateY cosY sinY (rotateX cosX sinX v)) := by
  simp [rotateVertex, rotateX, rotateY, rotateZ]

theorem indexAt_eq_getElem? {β : Type} (l : List β) (i : Int) (h0 : 0 ≤ i) :
    indexAt l i = l[i.toNat]? := by
  simp only [indexAt, if_neg (not_lt.mpr h0)]

variable [FloorRing α]

theorem fillFace_congr (vs ws : List (Point3D α)) (face : Face)
    (h0 : indexAt vs face.v0 = indexAt ws face.v0)
    (h1 : indexAt vs face.v1 = indexAt ws face.v1)
    (h2 : indexAt vs face.v2 = indexAt ws face.v2) : fillFace vs face = fillFace ws face := by
  simp only [fillFace, h0, h1, h2]

/-- The body of the face loop draws what `fillFace` draws on the fully rotated
canonical array. -/
theorem rotateAndFillFace_eq (cosX sinX cosY sinY cosZ sinZ : α) (old vs : List (Point3D α))
    (face : Face) (hlen : vs.length = old.length) (hvalid : validFace old.length face)
    (hdist : distinctIndices face) :
    (rotateAndFillFace cosX sinX cosY sinY cosZ sinZ old vs face).map Prod.snd
        = fillFace (old.map (rotateVertex cosX sinX cosY sinY cosZ sinZ)) face ∧
      ∀ r, rotateAndFillFace cosX sinX cosY sinY cosZ sinZ old vs face = some r →
        r.1.length = old.length := by
  obtain ⟨⟨a0, a1⟩, ⟨b0, b1⟩, ⟨c0, c1⟩⟩ := hvalid
  obtain ⟨d01, d02, d12⟩ := hdist
  obtain ⟨u, hu, hu2⟩ := indexAt_of_bounds old face.v0 a0 a1
  obtain ⟨v, hv, hv2⟩ := indexAt_of_bounds old face.v1 b0 b1
  obtain ⟨w, hw, hw2⟩ := indexAt_of_bounds old face.v2 c0 c1
  have n01 : face.v0.toNat ≠ face.v1.toNat := by omega
  have n02 : face.v0.toNat ≠ face.v2.toNat := by omega
  have n12 : face.v1.toNat ≠ face.v2.toNat := by omega
  have l0 : face.v0.toNat < old.length := by omega
  have l1 : face.v1.toNat < old.length := by omega
  have l2 : face.v2.toNat < old.length := by omega
  -- the three rotations in place
  have r1 : rotateInPlace cosX sinX cosY sinY cosZ sinZ old face.v0
      = some (old.set face.v0.toNat (rotateVertex cosX sinX cosY sinY cosZ sinZ u)) := by
    simp [rotateInPlace, hu]
  have r2 : rotateInPlace cosX sinX cosY sinY cosZ sinZ
        (old.set face.v0.toNat (rotateVertex cosX sinX cosY sinY cosZ sinZ u)) face.v1
      = some ((old.set face.v0.toNat (rotateVertex cosX sinX cosY sinY cosZ sinZ u)).set
          face.v1.toNat (rotateVertex cosX sinX cosY sinY cosZ sinZ v)) := by
    simp [rotateInPlace, indexAt_eq_getElem? _ _ b0, List.getElem?_set_ne n01, hv2]
  have r3 : rotateInPlace cosX sinX cosY sinY cosZ sinZ
        ((old.set face.v0.toNat (rotateVertex cosX sinX cosY sinY cosZ sinZ u)).set
          face.v1.toNat (rotateVertex cosX sinX cosY sinY cosZ sinZ v)) face.v2
      = some (((old.set face.v0.toNat (rotateVertex cosX sinX cosY sinY cosZ sinZ u)).set
          face.v1.toNat (rotateVertex cosX sinX cosY sinY cosZ sinZ v)).set
          face.v2.toNat (rotateVertex cosX sinX cosY sinY cosZ sinZ w)) := by
    simp [rotateInPlace, indexAt_eq_getElem? _ _ c0, List.getElem?_set_ne n02,
      List.getElem?_set_ne n12, hw2]
  -- what `fillFace` reads afterwards
  have g0 : indexAt (((old.set face.v0.toNat (rotateVertex cosX sinX cosY sinY cosZ sinZ u)).set
          face.v1.toNat (rotateVertex cosX sinX cosY sinY cosZ sinZ v)).set
          face.v2.toNat (rotateVertex cosX sinX cosY sinY cosZ sinZ w)) face.v0
      = indexAt (old.map (rotateVertex cosX sinX cosY sinY cosZ sinZ)) face.v0 := by
    rw [indexAt_eq_getElem? _ _ a0, indexAt_eq_getElem? _ _ a0,
      List.getElem?_set_ne (Ne.symm n02), List.getElem?_set_ne (Ne.symm n01),
      List.getElem?_set_self l0, List.getElem?_map, hu2]
    rfl
  have g1 : indexAt (((old.set face.v0.toNat (rotateVertex cosX sinX cosY sinY cosZ sinZ u)).set
          face.v1.toNat (rotateVertex cosX sinX cosY sinY cosZ sinZ v)).set
          face.v2.toNat (rotateVertex cosX sinX cosY sinY cosZ sinZ w)) face.v1
      = indexAt (old.map (rotateVertex cosX sinX cosY sinY cosZ sinZ)) face.v1 := by
    rw [indexAt_eq_getElem? _ _ b0, indexAt_eq_getElem? _ _ b0,
      List.getElem?_set_ne (Ne.symm n12),
      List.getElem?_set_self (by rw [List.length_set]; exact l1), List.getElem?_map, hv2]
    rfl
  have g2 : indexAt (((old.set face.v0.toNat (rotateVertex cosX sinX cosY sinY cosZ sinZ u)).set
          face.v1.toNat (rotateVertex cosX sinX cosY sinY cosZ sinZ v)).set
          face.v2.toNat (rotateVertex cosX sinX cosY sinY cosZ sinZ w)) face.v2
      = indexAt (old.map (rotateVertex cosX sinX cosY sinY cosZ sinZ)) face.v2 := by
    rw [indexAt_eq_getElem? _ _ c0, indexAt_eq_getElem? _ _ c0,
      List.getElem?_set_self (by rw [List.length_set, List.length_set]; exact l2),
      List.getElem?_map, hw2]
    rfl
  have hfill := fillFace_congr _ _ face g0 g1 g2
  have hrun : rotateAndFillFace cosX sinX cosY sinY cosZ sinZ old vs face
      = (fillFace (old.map (rotateVertex cosX sinX cosY sinY cosZ sinZ)) face).map fun call =>
          ((((old.set face.v0.toNat (rotateVertex cosX sinX cosY sinY cosZ sinZ u)).set
            face.v1.toNat (rotateVertex cosX sinX cosY sinY cosZ sinZ v)).set
            face.v2.toNat (rotateVertex cosX sinX cosY sinY cosZ sinZ w)), call) := by
    simp only [rotateAndFillFace, memcpyVertices_same_length vs old hlen, r1, r2, r3, hfill,
      Option.bind_eq_bind, Option.some_bind, Option.pure_def]
    cases fillFace (old.map (rotateVertex cosX sinX cosY sinY cosZ sinZ)) face <;> rfl
  constructor
  · rw [hrun, Option.map_map]
    cases fillFace (old.map (rotateVertex cosX sinX cosY sinY cosZ sinZ)) face <;> rfl
  · intro r hr
    rw [hrun] at hr
    cases hf : fillFace (old.map (rotateVertex cosX sinX cosY sinY cosZ sinZ)) face with
    | none => simp [hf] at hr
    | some call =>
      simp only [hf, Option.map_some', Option.some.injEq] at hr
      rw [← hr]
      simp

theorem fillLoop_eq_fillFaces (cosX sinX cosY sinY cosZ sinZ : α) (old : List (Point3D α))
    (fs : List Face) (hvalid : ∀ f ∈ fs, validFace old.length f)
    (hdist : ∀ f ∈ fs, distinctIndices f) (vs : List (Point3D α))
    (hlen : vs.length = old.length) :
    (fillLoop cosX sinX cosY sinY cosZ sinZ old fs vs).map Prod.snd
      = fillFaces (old.map (rotateVertex cosX sinX cosY sinY cosZ sinZ)) fs := by
  induction fs generalizing vs with
  | nil => rfl
  | cons f rest ih =>
    obtain ⟨h1, h2⟩ := rotateAndFillFace_eq cosX sinX cosY sinY cosZ sinZ old vs f hlen
      (hvalid f (List.mem_cons_self _ _)) (hdist f (List.mem_cons_self _ _))
    simp only [fillLoop, fillFaces, Option.bind_eq_bind, Option.pure_def]
    rw [← h1]
    cases hr : rotateAndFillFace cosX sinX cosY sinY cosZ sinZ old vs f with
    | none => rfl
    | some r =>
      have ih' := ih (fun g hg => hvalid g (List.mem_cons_of_mem _ hg))
        (fun g hg => hdist g (List.mem_cons_of_mem _ hg)) r.1 (h2 r hr)
      simp only [Option.some_bind, Option.map_some']
      rw [← ih']
      cases fillLoop cosX sinX cosY sinY cosZ sinZ old rest r.1 <;> rfl

end Refinement

section RefinementFaces
variable {α : Type} [LinearOrderedField α] [FloorRing α]

theorem indexAt_map {β γ : Type} (f : β → γ) (l : List β) (i : Int) :
    indexAt (l.map f) i = (indexAt l i).map f := by
  unfold indexAt
  split
  · rfl
  · exact List.getElem?_map f l _

theorem fillFace_some (vs : List (Point3D α)) (face : Face) (call : DrawCall)
    (h : fillFace vs face = some call) :
    ∃ w0 w1 w2 : Point3D α, indexAt vs face.v0 = some w0 ∧ indexAt vs face.v1 = some w1 ∧
      indexAt vs face.v2 = some w2 ∧ ProjectTo2D w0 = some call.p0 ∧
      ProjectTo2D w1 = some call.p1 ∧ ProjectTo2D w2 = some call.p2 ∧
      call.color = face.color ∧
      DrawFilledTriangle call.p0 call.p1 call.p2 face.color = some call.pixels := by
  simp only [fillFace, Option.bind_eq_bind, Option.pure_def] at h
  cases h0 : indexAt vs face.v0 with
  | none => simp [h0] at h
  | some w0 =>
    cases h1 : indexAt vs face.v1 with
    | none => simp [h0, h1] at h
    | some w1 =>
      cases h2 : indexAt vs face.v2 with
      | none => simp [h0, h1, h2] at h
      | some w2 =>
        cases e0 : ProjectTo2D w0 with
        | none => simp [h0, h1, h2, e0] at h
        | some p0 =>
          cases e1 : ProjectTo2D w1 with
          | none => simp [h0, h1, h2, e0, e1] at h
          | some p1 =>
            cases e2 : ProjectTo2D w2 with
            | none => simp [h0, h1, h2, e0, e1, e2] at h
            | some p2 =>
              cases e3 : DrawFilledTriangle p0 p1 p2 face.color with
              | none => simp [h0, h1, h2, e0, e1, e2, e3] at h
              | some pixels =>
                simp only [h0, h1, h2, e0, e1, e2, e3, Option.some_bind,
                  Option.some.injEq] at h
                subst h
                exact ⟨w0, w1, w2, rfl, rfl, rfl, e0, e1, e2, rfl, e3⟩

theorem fillFaces_forall₂ (vs : List (Point3D α)) (fs : List Face) (calls : List DrawCall)
    (h : fillFaces vs fs = some calls) :
    List.Forall₂ (fun face call => fillFace vs face = some call) fs calls := by
  induction fs generalizing calls with
  | nil =>
    simp only [fillFaces, Option.some.injEq] at h
    subst h
    exact List.Forall₂.nil
  | cons f rest ih =>
    simp only [fillFaces, Option.bind_eq_bind, Option.pure_def] at h
    cases hf : fillFace vs f with
    | none => simp [hf] at h
    | some call =>
      cases hr : fillFaces vs rest with
      | none => simp [hf, hr] at h
      | some cs =>
        simp only [hf, hr, Option.some_bind, Option.some.injEq] at h
        subst h
        exact List.Forall₂.cons hf (ih cs hr)

theorem rotateAndFillCube_calls (cos sin : α → α) (ax ay az : α) (st : Scene α)
    (hlen : st.vertices.length = st.oldVertices.length)
    (hvalid : ∀ f ∈ st.faces, validFace st.oldVertices.length f)
    (hdist : ∀ f ∈ st.faces, distinctIndices f) :
    (rotateAndFillCube cos sin ax ay az st).map Prod.snd
      = rotateAllThenFill cos sin ax ay az st := by
  have h := fillLoop_eq_fillFaces (cos ax) (sin ax) (cos ay) (sin ay) (cos az) (sin az)
    st.oldVertices st.faces hvalid hdist st.vertices hlen
  have hfun : rotateVertex (cos ax) (sin ax) (cos ay) (sin ay) (cos az) (sin az)
      = fun c => rotateZ (cos az) (sin az) (rotateY (cos ay) (sin ay)
          (rotateX (cos ax) (sin ax) c)) := by
    funext c
    exact rotateVertex_eq_compose _ _ _ _ _ _ c
  simp only [rotateAllThenFill, ← hfun, ← h, rotateAndFillCube, Option.bind_eq_bind,
    Option.pure_def]
  cases fillLoop (cos ax) (sin ax) (cos ay) (sin ay) (cos az) (sin az) st.oldVertices
    st.faces st.vertices <;> rfl

end RefinementFaces

/-- C15. For a state whose working buffer is as long as the canonical one and whose
faces have valid, pairwise distinct vertex indices, the draw calls of
`rotateAndFillCube` are those of the variant that rotates every canonical vertex once
and fills every face from the rotated array.  The triangle drawn for a face is
`(ProjectTo2D (R c[v0]), ProjectTo2D (R c[v1]), ProjectTo2D (R c[v2]))` with `c` the
canonical vertices and `R` the rotation about X, then about Y, then about Z; it does
not depend on the working buffer found on entry. -/
theorem rotateAndFillCube_refines {α : Type} [LinearOrderedField α] [FloorRing α]
    (cos sin : α → α) (ax ay az : α) (st : Scene α)
    (hlen : st.vertices.length = st.oldVertices.length)
    (hvalid : ∀ f ∈ st.faces, validFace st.oldVertices.length f)
    (hdist : ∀ f ∈ st.faces, distinctIndices f) :
    (rotateAndFillCube cos sin ax ay az st).map Prod.snd
        = rotateAllThenFill cos sin ax ay az st ∧
    (∀ (st' : Scene α) (calls : List DrawCall),
      rotateAndFillCube cos sin ax ay az st = some (st', calls) →
      List.Forall₂ (fun face call =>
        ∃ c0 c1 c2 : Point3D α, indexAt st.oldVertices face.v0 = some c0 ∧
          indexAt st.oldVertices face.v1 = some c1 ∧ indexAt st.oldVertices face.v2 = some c2 ∧
          ProjectTo2D (rotateZ (cos az) (sin az) (rotateY (cos ay) (sin ay)
            (rotateX (cos ax) (sin ax) c0))) = some call.p0 ∧
          ProjectTo2D (rotateZ (cos az) (sin az) (rotateY (cos ay) (sin ay)
            (rotateX (cos ax) (sin ax) c1))) = some call.p1 ∧
          ProjectTo2D (rotateZ (cos az) (sin az) (rotateY (cos ay) (sin ay)
            (rotateX (cos ax) (sin ax) c2))) = some call.p2 ∧
          call.color = face.color) st.faces calls) ∧
    (∀ vs : List (Point3D α), vs.length = st.oldVertices.length →
      (rotateAndFillCube cos sin ax ay az { st with vertices := vs }).map Prod.snd
        = (rotateAndFillCube cos sin ax ay az st).map Prod.snd) := by
  have hmain := rotateAndFillCube_calls cos sin ax ay az st hlen hvalid hdist
  refine ⟨hmain, ?_, ?_⟩
  · intro st' calls hrun
    rw [hrun, Option.map_some'] at hmain
    have hall := fillFaces_forall₂ _ _ _ hmain.symm
    refine hall.imp ?_
    intro face call hcall
    obtain ⟨w0, w1, w2, h0, h1, h2, e0, e1, e2, hc, -⟩ := fillFace_some _ _ _ hcall
    rw [indexAt_map] at h0 h1 h2
    cases k0 : indexAt st.oldVertices face.v0 with
    | none => simp [k0] at h0
    | some c0 =>
      cases k1 : indexAt st.oldVertices face.v1 with
      | none => simp [k1] at h1
      | some c1 =>
        cases k2 : indexAt st.oldVertices face.v2 with
        | none => simp [k2] at h2
        | some c2 =>
          simp only [k0, k1, k2, Option.map_some', Option.some.injEq] at h0 h1 h2
          subst h0
          subst h1
          subst h2
          exact ⟨c0, c1, c2, rfl, rfl, rfl, e0, e1, e2, hc⟩
  · intro vs hvs
    rw [hmain]
    exact rotateAndFillCube_calls cos sin ax ay az { st with vertices := vs } hvs hvalid hdist

/-- C15 on the cube at start-up, over the reals at the angles of the first tick. -/
theorem rotateAndFillCube_refines_witness :
    (initialScene ℝ).vertices.length = (initialScene ℝ).oldVertices.length ∧
    (∀ f ∈ (initialScene ℝ).faces, validFace (initialScene ℝ).oldVertices.length f) ∧
    (∀ f ∈ (initialScene ℝ).faces, distinctIndices f) ∧
    (rotateAndFillCube Real.cos Real.sin 0.02 0.02 0.02 (initialScene ℝ)).map Prod.snd
      = rotateAllThenFill Real.cos Real.sin 0.02 0.02 0.02 (initialScene ℝ) :=
  ⟨rfl, by decide, by decide,
    (rotateAndFillCube_refines Real.cos Real.sin 0.02 0.02 0.02 (initialScene ℝ) rfl
      (by decide) (by decide)).1⟩

/-! ## The roundings -/

theorem roundHalfEven_error (q : ℚ) : |((roundHalfEven q : Int) : ℚ) - q| ≤ 1 / 2 := by
  have h0 : ((⌊q⌋ : Int) : ℚ) ≤ q := Int.floor_le q
  have h1 : q < ((⌊q⌋ : Int) : ℚ) + 1 := Int.lt_floor_add_one q
  unfold roundHalfEven
  dsimp only
  rw [abs_le]
  split_ifs with a b c
  · constructor <;> linarith
  · push_cast
    constructor <;> linarith
  · have e : q - ((⌊q⌋ : Int) : ℚ) = 1 / 2 := le_antisymm (not_lt.mp b) (not_lt.mp a)
    constructor <;> linarith
  · have e : q - ((⌊q⌋ : Int) : ℚ) = 1 / 2 := le_antisymm (not_lt.mp b) (not_lt.mp a)
    push_cast
    constructor <;> linarith

theorem rat_abs_eq (x : ℚ) : |x| = ((x.num.natAbs : Nat) : ℚ) / ((x.den : Nat) : ℚ) := by
  have hden : (0 : ℚ) < ((x.den : Nat) : ℚ) := by exact_mod_cast x.den_pos
  have h := Rat.num_div_den x
  calc |x| = |(x.num : ℚ) / (x.den : ℚ)| := by rw [h]
    _ = |(x.num : ℚ)| / ((x.den : Nat) : ℚ) := by rw [abs_div, abs_of_pos hden]
    _ = ((x.num.natAbs : Nat) : ℚ) / ((x.den : Nat) : ℚ) := by rw [Nat.cast_natAbs]; push_cast; rfl

theorem leadingBit_eq_log2 (fuel n : Nat) (h : n ≤ fuel) : leadingBit fuel n = Nat.log2 n := by
  induction fuel generalizing n with
  | zero =>
    have : n = 0 := by omega
    subst this
    rw [Nat.log2]
    simp [leadingBit]
  | succ fuel ih =>
    rw [Nat.log2]
    by_cases h2 : n < 2
    · have : ¬ n ≥ 2 := by omega
      simp [leadingBit, h2, this]
    · have h3 : n ≥ 2 := by omega
      simp only [leadingBit, if_neg h2, if_pos h3]
      rw [ih (n / 2) (by omega)]

theorem binaryExponent_le (x : ℚ) (hx : x ≠ 0) : (2 : ℚ) ^ binaryExponent x ≤ |x| := by
  unfold binaryExponent
  dsimp only
  rw [leadingBit_eq_log2 _ _ (le_refl _), leadingBit_eq_log2 _ _ (le_refl _)]
  split_ifs with h
  · exact h
  · have hn : x.num.natAbs ≠ 0 := by
      intro h0
      exact hx (Rat.zero_of_num_zero (Int.natAbs_eq_zero.mp h0))
    have h1 : 2 ^ Nat.log2 x.num.natAbs ≤ x.num.natAbs := Nat.log2_self_le hn
    have h2 : x.den < 2 ^ (Nat.log2 x.den + 1) := Nat.lt_log2_self
    have h1q : (2 : ℚ) ^ (Nat.log2 x.num.natAbs) ≤ ((x.num.natAbs : Nat) : ℚ) := by
      exact_mod_cast h1
    have h2q : ((x.den : Nat) : ℚ) ≤ (2 : ℚ) ^ (Nat.log2 x.den + 1) := by
      exact_mod_cast le_of_lt h2
    have hden : (0 : ℚ) < ((x.den : Nat) : ℚ) := by exact_mod_cast x.den_pos
    have hpow : (0 : ℚ) < (2 : ℚ) ^ (Nat.log2 x.den + 1) := by positivity
    rw [rat_abs_eq x]
    have e : (2 : ℚ) ^ ((Nat.log2 x.num.natAbs : Int) - (Nat.log2 x.den : Int) - 1)
        = (2 : ℚ) ^ (Nat.log2 x.num.natAbs) / (2 : ℚ) ^ (Nat.log2 x.den + 1) := by
      rw [show ((Nat.log2 x.num.natAbs : Int) - (Nat.log2 x.den : Int) - 1)
          = (Nat.log2 x.num.natAbs : Int) - ((Nat.log2 x.den + 1 : Nat) : Int) by
        push_cast; ring]
      rw [zpow_sub₀ (by norm_num : (2 : ℚ) ≠ 0), zpow_natCast, zpow_natCast]
    rw [e]
    calc (2 : ℚ) ^ (Nat.log2 x.num.natAbs) / (2 : ℚ) ^ (Nat.log2 x.den + 1)
        ≤ ((x.num.natAbs : Nat) : ℚ) / (2 : ℚ) ^ (Nat.log2 x.den + 1) :=
          div_le_div_of_nonneg_right h1q (le_of_lt hpow)
      _ ≤ ((x.num.natAbs : Nat) : ℚ) / ((x.den : Nat) : ℚ) :=
          div_le_div_of_nonneg_left (Nat.cast_nonneg _) hden h2q

/-- Rounding to `prec` bits has relative error at most `2 ^ (-prec)`. -/
theorem roundToBits_roundsWithin (prec : Nat) :
    RoundsWithin (1 / 2 ^ prec) (roundToBits prec) := by
  intro x
  unfold roundToBits
  split_ifs with hx
  · simp [hx]
  · dsimp only
    have hE := binaryExponent_le x hx
    have hpos : (0 : ℚ) < (2 : ℚ) ^ (binaryExponent x - ((prec : Int) - 1)) := by positivity
    have herr := roundHalfEven_error (x / (2 : ℚ) ^ (binaryExponent x - ((prec : Int) - 1)))
    have e1 : ((roundHalfEven (x / (2 : ℚ) ^ (binaryExponent x - ((prec : Int) - 1))) : Int) : ℚ)
          * (2 : ℚ) ^ (binaryExponent x - ((prec : Int) - 1)) - x
        = (((roundHalfEven (x / (2 : ℚ) ^ (binaryExponent x - ((prec : Int) - 1))) : Int) : ℚ)
            - x / (2 : ℚ) ^ (binaryExponent x - ((prec : Int) - 1)))
          * (2 : ℚ) ^ (binaryExponent x - ((prec : Int) - 1)) := by
      field_simp
    rw [e1, abs_mul, abs_of_pos hpos]
    have e2 : (2 : ℚ) ^ (binaryExponent x - ((prec : Int) - 1))
        = (2 : ℚ) ^ binaryExponent x * (2 / 2 ^ prec) := by
      rw [show binaryExponent x - ((prec : Int) - 1) = binaryExponent x + (1 - (prec : Int)) by
        ring]
      rw [zpow_add₀ (by norm_num : (2 : ℚ) ≠ 0), zpow_sub₀ (by norm_num : (2 : ℚ) ≠ 0),
        zpow_one, zpow_natCast]
    rw [e2]
    have hp : (0 : ℚ) < 2 ^ prec := by positivity
    calc |((roundHalfEven (x / ((2 : ℚ) ^ binaryExponent x * (2 / 2 ^ prec))) : Int) : ℚ)
            - x / ((2 : ℚ) ^ binaryExponent x * (2 / 2 ^ prec))|
          * ((2 : ℚ) ^ binaryExponent x * (2 / 2 ^ prec))
        ≤ 1 / 2 * ((2 : ℚ) ^ binaryExponent x * (2 / 2 ^ prec)) := by
          apply mul_le_mul_of_nonneg_right _ (by positivity)
          rw [← e2]
          exact herr
      _ = 1 / 2 ^ prec * (2 : ℚ) ^ binaryExponent x := by
          field_simp
      _ ≤ 1 / 2 ^ prec * |x| := mul_le_mul_of_nonneg_left hE (by positivity)

theorem roundDouble_roundsWithin : RoundsWithin (1 / 2 ^ 53) roundDouble :=
  roundToBits_roundsWithin 53

theorem roundFloat_roundsWithin : RoundsWithin (1 / 2 ^ 24) roundFloat :=
  roundToBits_roundsWithin 24

theorem id_roundsWithin (u : ℚ) (hu : 0 ≤ u) : RoundsWithin u id := by
  intro t
  simpa using mul_nonneg hu (abs_nonneg t)

/-! ## `Interpolate` on the machine -/

theorem accumulated_shift (fl : ℚ → ℚ) (a d : ℚ) (k : Nat) :
    accumulated fl a (fl (d + a)) k = accumulated fl a d (k + 1) := by
  induction k with
  | zero => rfl
  | succ k ih =>
    show fl (accumulated fl a (fl (d + a)) k + a) = fl (accumulated fl a d (k + 1) + a)
    rw [ih]

theorem interpolateLoopM_length (fl : ℚ → ℚ) (a : ℚ) (n : Nat) (d : ℚ) :
    (interpolateLoopM fl a n d).length = n := by
  induction n generalizing d with
  | zero => rfl
  | succ n ih => simp [interpolateLoopM, ih]

theorem interpolateLoopM_getElem? (fl : ℚ → ℚ) (a : ℚ) (n k : Nat) (d : ℚ) (hk : k < n) :
    (interpolateLoopM fl a n d)[k]? = some (accumulated fl a d k) := by
  induction n generalizing d k with
  | zero => omega
  | succ n ih =>
    cases k with
    | zero => simp [interpolateLoopM, accumulated]
    | succ k =>
      simp only [interpolateLoopM, List.getElem?_cons_succ]
      rw [ih k (fl (d + a)) (by omega), accumulated_shift]

theorem interpolateLoopM_id (a : ℚ) (n : Nat) (d : ℚ) :
    interpolateLoopM id a n d = interpolateLoop a n d := by
  induction n generalizing d with
  | zero => rfl
  | succ n ih => simp [interpolateLoopM, interpolateLoop, ih]

theorem InterpolateM_same (fl : ℚ → ℚ) (i : Int) (d0 d1 : ℚ) :
    InterpolateM fl i d0 i d1 = some [d0] := by
  simp [InterpolateM]

theorem InterpolateM_of_lt (fl : ℚ → ℚ) (i0 i1 : Int) (d0 d1 : ℚ) (h : i0 < i1)
    (hmax : i1 < INT_MAX) (hdiff : isInt (i1 - i0)) :
    InterpolateM fl i0 d0 i1 d1
      = some (interpolateLoopM fl (fl (fl (d1 - d0) / ((i1 : ℚ) - (i0 : ℚ))))
          (i1 + 1 - i0).toNat d0) := by
  have h1 : i0 ≠ i1 := ne_of_lt h
  have h2 : i1 - i0 ≠ 0 := by omega
  have h3 : ¬ i1 < i0 := by omega
  have h4 : i1 ≠ INT_MAX := ne_of_lt hmax
  simp only [InterpolateM, if_neg h1, hdiff, not_true_eq_false, if_false, if_neg h2, if_neg h3,
    if_neg h4]
  push_cast
  rfl

/-- For in-range rows the machine version with exact arithmetic is the exact
reading of `Interpolate`. -/
theorem InterpolateM_id (i0 i1 : Int) (d0 d1 : ℚ) (h : i0 ≤ i1) (hmax : i1 < INT_MAX)
    (hdiff : isInt (i1 - i0)) : InterpolateM id i0 d0 i1 d1 = some (Interpolate i0 d0 i1 d1) := by
  rcases eq_or_lt_of_le h with h | h
  · subst h
    rw [InterpolateM_same, Interpolate_same]
  · rw [InterpolateM_of_lt id i0 i1 d0 d1 h hmax hdiff, Interpolate_of_lt i0 i1 d0 d1 h,
      interpolateLoopM_id]
    simp

/-- What `Interpolate` returns on the machine for in-range rows `i0 ≤ i1`: one value
per row, value `k` being the accumulated sum of round `k`. -/
theorem InterpolateM_spec_le (fl : ℚ → ℚ) (i0 i1 : Int) (d0 d1 : ℚ) (h : i0 ≤ i1)
    (hmax : i1 < INT_MAX) (hdiff : isInt (i1 - i0)) :
    ∃ vs : List ℚ, InterpolateM fl i0 d0 i1 d1 = some vs ∧
      vs.length = (i1 - i0).toNat + 1 ∧
      ∀ k : Nat, k ≤ (i1 - i0).toNat →
        vs[k]? = some (accumulated fl (fl (fl (d1 - d0) / ((i1 : ℚ) - (i0 : ℚ)))) d0 k) := by
  rcases eq_or_lt_of_le h with h | h
  · subst h
    refine ⟨[d0], InterpolateM_same fl i0 d0 d1, by simp, ?_⟩
    intro k hk
    have hk0 : k = 0 := by simpa using hk
    subst hk0
    rfl
  · refine ⟨_, InterpolateM_of_lt fl i0 i1 d0 d1 h hmax hdiff, ?_, ?_⟩
    · rw [interpolateLoopM_length]; omega
    · intro k hk
      exact interpolateLoopM_getElem? fl _ _ k d0 (by omega)

/-! ## Accumulated rounding error of an edge -/

theorem slope_error (fl : ℚ → ℚ) (u : ℚ) (hu : 0 ≤ u) (hfl : RoundsWithin u fl) (δ n : ℚ) :
    |fl (fl δ / n) - δ / n| ≤ ((1 + u) ^ 2 - 1) * |δ / n| := by
  have h1 := hfl δ
  have h2 := hfl (fl δ / n)
  have hq : |fl δ / n - δ / n| ≤ u * |δ / n| := by
    rw [← sub_div, abs_div, abs_div]
    rw [show u * (|δ| / |n|) = u * |δ| / |n| by ring]
    exact div_le_div_of_nonneg_right h1 (abs_nonneg n)
  have hq2 : |fl δ / n| ≤ |δ / n| + u * |δ / n| := by
    have := abs_sub_abs_le_abs_sub (fl δ / n) (δ / n)
    linarith
  have hs := abs_nonneg (δ / n)
  have htri : |fl (fl δ / n) - δ / n| ≤ |fl (fl δ / n) - fl δ / n| + |fl δ / n - δ / n| := by
    have := abs_sub_le (fl (fl δ / n)) (fl δ / n) (δ / n)
    linarith
  have h3 : u * |fl δ / n| ≤ u * (|δ / n| + u * |δ / n|) := mul_le_mul_of_nonneg_left hq2 hu
  nlinarith

theorem accumulated_error (fl : ℚ → ℚ) (u : ℚ) (hu : 0 ≤ u) (hfl : RoundsWithin u fl)
    (a s d0 : ℚ) (hA : |a - s| ≤ ((1 + u) ^ 2 - 1) * |s|) (k : Nat) :
    |accumulated fl a d0 k - (d0 + (k : ℚ) * s)|
      ≤ ((1 + u) ^ (k + 2) - 1) * (|d0| + (k : ℚ) * |s|) := by
  have hP : (1 : ℚ) ≤ 1 + u := by linarith
  have hS := abs_nonneg s
  have hD := abs_nonneg d0
  induction k with
  | zero =>
    simp only [accumulated, Nat.cast_zero, zero_mul, add_zero, sub_self, abs_zero]
    have : (1 : ℚ) ≤ (1 + u) ^ (0 + 2) := one_le_pow₀ hP
    nlinarith
  | succ k ih =>
    have hX : (1 : ℚ) ≤ (1 + u) ^ (k + 2) := one_le_pow₀ hP
    have hX3 : (1 + u) ^ 3 ≤ (1 + u) ^ (k + 3) := pow_le_pow_right₀ hP (by omega)
    have hpow : (1 + u) ^ (k + 3) = (1 + u) ^ (k + 2) * (1 + u) := pow_succ _ _
    have hB : 0 ≤ |d0| + (k : ℚ) * |s| := by positivity
    have ht : |d0 + (k : ℚ) * s| ≤ |d0| + (k : ℚ) * |s| := by
      have h1 := abs_add d0 ((k : ℚ) * s)
      have h2 : |(k : ℚ) * s| = (k : ℚ) * |s| := by
        rw [abs_mul, abs_of_nonneg (Nat.cast_nonneg k)]
      linarith
    have hw := hfl (accumulated fl a d0 k + a)
    -- the argument of the rounding
    have hw2 : |accumulated fl a d0 k + a|
        ≤ |accumulated fl a d0 k - (d0 + (k : ℚ) * s)| + (|d0| + (k : ℚ) * |s|)
          + |a - s| + |s| := by
      have e : accumulated fl a d0 k + a
          = (accumulated fl a d0 k - (d0 + (k : ℚ) * s)) + (d0 + (k : ℚ) * s) + (a - s) + s := by
        ring
      have h1 := abs_add ((accumulated fl a d0 k - (d0 + (k : ℚ) * s)) + (d0 + (k : ℚ) * s)
        + (a - s)) s
      have h2 := abs_add ((accumulated fl a d0 k - (d0 + (k : ℚ) * s)) + (d0 + (k : ℚ) * s))
        (a - s)
      have h3 := abs_add (accumulated fl a d0 k - (d0 + (k : ℚ) * s)) (d0 + (k : ℚ) * s)
      rw [← e] at h1
      linarith
    have hstep : |accumulated fl a d0 (k + 1) - (d0 + ((k + 1 : Nat) : ℚ) * s)|
        ≤ |fl (accumulated fl a d0 k + a) - (accumulated fl a d0 k + a)|
          + |accumulated fl a d0 k - (d0 + (k : ℚ) * s)| + |a - s| := by
      have e : accumulated fl a d0 (k + 1) - (d0 + ((k + 1 : Nat) : ℚ) * s)
          = (fl (accumulated fl a d0 k + a) - (accumulated fl a d0 k + a))
            + (accumulated fl a d0 k - (d0 + (k : ℚ) * s)) + (a - s) := by
        simp only [accumulated]
        push_cast
        ring
      rw [e]
      have h1 := abs_add ((fl (accumulated fl a d0 k + a) - (accumulated fl a d0 k + a))
        + (accumulated fl a d0 k - (d0 + (k : ℚ) * s))) (a - s)
      have h2 := abs_add (fl (accumulated fl a d0 k + a) - (accumulated fl a d0 k + a))
        (accumulated fl a d0 k - (d0 + (k : ℚ) * s))
      linarith
    have hE0 := abs_nonneg (accumulated fl a d0 k - (d0 + (k : ℚ) * s))
    have hA0 := abs_nonneg (a - s)
    have hu1 : u * |accumulated fl a d0 k + a|
        ≤ u * (|accumulated fl a d0 k - (d0 + (k : ℚ) * s)| + (|d0| + (k : ℚ) * |s|)
          + |a - s| + |s|) := mul_le_mul_of_nonneg_left hw2 hu
    -- collect: the new error is at most (1 + u) E + (1 + u) A + u (B + |s|)
    have hsum : |accumulated fl a d0 (k + 1) - (d0 + ((k + 1 : Nat) : ℚ) * s)|
        ≤ (1 + u) * |accumulated fl a d0 k - (d0 + (k : ℚ) * s)| + (1 + u) * |a - s|
          + u * ((|d0| + (k : ℚ) * |s|) + |s|) := by
      nlinarith
    have hEm : (1 + u) * |accumulated fl a d0 k - (d0 + (k : ℚ) * s)|
        ≤ (1 + u) * (((1 + u) ^ (k + 2) - 1) * (|d0| + (k : ℚ) * |s|)) :=
      mul_le_mul_of_nonneg_left ih (by linarith)
    have hAm : (1 + u) * |a - s| ≤ (1 + u) * (((1 + u) ^ 2 - 1) * |s|) :=
      mul_le_mul_of_nonneg_left hA (by linarith)
    have hfinal : (1 + u) * (((1 + u) ^ (k + 2) - 1) * (|d0| + (k : ℚ) * |s|))
          + (1 + u) * (((1 + u) ^ 2 - 1) * |s|) + u * ((|d0| + (k : ℚ) * |s|) + |s|)
        ≤ ((1 + u) ^ (k + 1 + 2) - 1) * (|d0| + ((k + 1 : Nat) : ℚ) * |s|) := by
      have e1 : (1 + u) * (((1 + u) ^ (k + 2) - 1) * (|d0| + (k : ℚ) * |s|))
            + (1 + u) * (((1 + u) ^ 2 - 1) * |s|) + u * ((|d0| + (k : ℚ) * |s|) + |s|)
          = ((1 + u) ^ (k + 3) - 1) * (|d0| + (k : ℚ) * |s|) + ((1 + u) ^ 3 - 1) * |s| := by
        rw [hpow]
        ring
      have e2 : ((1 + u) ^ (k + 1 + 2) - 1) * (|d0| + ((k + 1 : Nat) : ℚ) * |s|)
          = ((1 + u) ^ (k + 3) - 1) * (|d0| + (k : ℚ) * |s|) + ((1 + u) ^ (k + 3) - 1) * |s| := by
        push_cast
        ring
      rw [e1, e2]
      have : ((1 + u) ^ 3 - 1) * |s| ≤ ((1 + u) ^ (k + 3) - 1) * |s| :=
        mul_le_mul_of_nonneg_right (by linarith) hS
      linarith
    linarith

theorem one_add_pow_le (u : ℚ) (hu : 0 ≤ u) (n : Nat) (h : (n : ℚ) * u ≤ 1 / 2) :
    (1 + u) ^ n ≤ 1 + 2 * (n : ℚ) * u := by
  induction n with
  | zero => simp
  | succ n ih =>
    have hn : (n : ℚ) * u ≤ 1 / 2 := by
      push_cast at h
      nlinarith
    have h1 := ih hn
    have hn0 : (0 : ℚ) ≤ (n : ℚ) := Nat.cast_nonneg n
    rw [pow_succ]
    push_cast
    have h2 : (1 + u) ^ n * (1 + u) ≤ (1 + 2 * (n : ℚ) * u) * (1 + u) :=
      mul_le_mul_of_nonneg_right h1 (by linarith)
    nlinarith [mul_nonneg hu (mul_nonneg hn0 hu)]

/-! ## `Interpolate`: what the machine returns -/

/-- C3, as the code has it.  Let every floating operation be rounded by `fl` with
relative error at most `u` (`u = 2 ^ -53` is `double` arithmetic on results that neither
overflow nor underflow, `u = 0` is exact arithmetic).  For rows `i0 < i1 < INT_MAX` whose
difference fits `int`, `Interpolate` returns exactly `i1 - i0 + 1` values and the first
is `d0`; each further value is the rounded sum of its predecessor and one fixed slope
`a`, which differs from `s = (d1 - d0) / (i1 - i0)` by at most `((1 + u) ^ 2 - 1) * |s|`;
value `k` differs from `d0 + k * s` by at most
`((1 + u) ^ (k + 2) - 1) * (|d0| + k * |s|)`.  For `u = 0` value `k` is `d0 + k * s`, the
last value is `d1` and consecutive values differ by `s`. -/
theorem InterpolateM_spec (fl : ℚ → ℚ) (u : ℚ) (hu : 0 ≤ u) (hfl : RoundsWithin u fl)
    (i0 i1 : Int) (d0 d1 : ℚ) (h : i0 < i1) (hmax : i1 < INT_MAX) (hdiff : isInt (i1 - i0)) :
    ∃ (vs : List ℚ) (a : ℚ), InterpolateM fl i0 d0 i1 d1 = some vs ∧
      (vs.length : Int) = i1 - i0 + 1 ∧
      vs[0]? = some d0 ∧
      |a - (d1 - d0) / ((i1 : ℚ) - i0)| ≤ ((1 + u) ^ 2 - 1) * |(d1 - d0) / ((i1 : ℚ) - i0)| ∧
      (∀ k : Nat, (k : Int) < i1 - i0 →
        ∃ v : ℚ, vs[k]? = some v ∧ vs[k + 1]? = some (fl (v + a))) ∧
      (∀ k : Nat, (k : Int) ≤ i1 - i0 → ∃ v : ℚ, vs[k]? = some v ∧
        |v - (d0 + (k : ℚ) * ((d1 - d0) / ((i1 : ℚ) - i0)))|
          ≤ ((1 + u) ^ (k + 2) - 1) * (|d0| + (k : ℚ) * |(d1 - d0) / ((i1 : ℚ) - i0)|)) ∧
      (u = 0 →
        (∀ k : Nat, (k : Int) ≤ i1 - i0 →
          vs[k]? = some (d0 + (k : ℚ) * ((d1 - d0) / ((i1 : ℚ) - i0)))) ∧
        vs.getLast? = some d1 ∧
        (∀ k : Nat, (k : Int) < i1 - i0 → ∃ v w : ℚ, vs[k]? = some v ∧ vs[k + 1]? = some w ∧
          w - v = (d1 - d0) / ((i1 : ℚ) - i0))) := by
  obtain ⟨vs, hvs, hlen, hval⟩ := InterpolateM_spec_le fl i0 i1 d0 d1 (le_of_lt h) hmax hdiff
  have hA := slope_error fl u hu hfl (d1 - d0) ((i1 : ℚ) - i0)
  have hbound : ∀ k : Nat, (k : Int) ≤ i1 - i0 → ∃ v : ℚ, vs[k]? = some v ∧
      |v - (d0 + (k : ℚ) * ((d1 - d0) / ((i1 : ℚ) - i0)))|
        ≤ ((1 + u) ^ (k + 2) - 1) * (|d0| + (k : ℚ) * |(d1 - d0) / ((i1 : ℚ) - i0)|) := by
    intro k hk
    exact ⟨_, hval k (by omega), accumulated_error fl u hu hfl _ _ d0 hA k⟩
  have hn : ((i1 : ℚ) - i0) ≠ 0 := by
    have : (i0 : ℚ) < i1 := by exact_mod_cast h
    linarith
  refine ⟨vs, fl (fl (d1 - d0) / ((i1 : ℚ) - (i0 : ℚ))), hvs, ?_, ?_, hA, ?_, hbound, ?_⟩
  · rw [hlen]; push_cast; omega
  · exact hval 0 (Nat.zero_le _)
  · intro k hk
    exact ⟨_, hval k (by omega), hval (k + 1) (by omega)⟩
  · intro hu0
    have hexact : ∀ k : Nat, (k : Int) ≤ i1 - i0 →
        vs[k]? = some (d0 + (k : ℚ) * ((d1 - d0) / ((i1 : ℚ) - i0))) := by
      intro k hk
      obtain ⟨v, hv, hb⟩ := hbound k hk
      rw [hu0] at hb
      simp only [add_zero, one_pow, sub_self, zero_mul] at hb
      have : v - (d0 + (k : ℚ) * ((d1 - d0) / ((i1 : ℚ) - i0))) = 0 :=
        abs_eq_zero.mp (le_antisymm hb (abs_nonneg _))
      rw [hv]
      congr 1
      linarith
    refine ⟨hexact, ?_, ?_⟩
    · have hl : vs.length - 1 = (i1 - i0).toNat := by omega
      rw [List.getLast?_eq_getElem?, hl, hexact _ (by omega)]
      congr 1
      have e : (((i1 - i0).toNat : Nat) : ℚ) = (i1 : ℚ) - i0 := intCast_toNat_sub i0 i1 (le_of_lt h)
      rw [e]
      field_simp
    · intro k hk
      refine ⟨_, _, hexact k (by omega), hexact (k + 1) (by push_cast; omega), ?_⟩
      push_cast
      ring

/-- C3 refuted as stated.  In `double` arithmetic `Interpolate(0, 0.0, 10, 1.0)` returns
eleven values whose last one is `1 - 2 ^ -53`, not `d1 = 1`; and for `i1 = INT_MAX` the
loop counter overflows, so nothing is returned. -/
theorem InterpolateM_last_value_differs :
    (InterpolateM roundDouble 0 0 10 1).map List.length = some 11 ∧
    (InterpolateM roundDouble 0 0 10 1).bind List.getLast?
      = some (9007199254740991 / 9007199254740992) ∧
    (9007199254740991 / 9007199254740992 : ℚ) ≠ 1 ∧
    InterpolateM roundDouble 2147483646 0 2147483647 1 = none := by
  refine ⟨by decide!, by decide!, by norm_num, by decide!⟩

/-! ## The drawing loops on the machine -/

theorem indexAt_mem {β : Type} (l : List β) (i : Int) (v : β) (h : indexAt l i = some v) :
    v ∈ l := by
  unfold indexAt at h
  split at h
  · cases h
  · exact List.getElem?_mem h

/-- Where the conversion of `xl` fits `int` and the row ends below `INT_MAX`, the inner
loop on the machine writes the pixels of the exact reading. -/
theorem fillRowM_eq (xl xr : ℚ) (y color : Int) (h1 : isInt (truncToInt xl))
    (h2 : ⌊xr⌋ < INT_MAX) : fillRowM xl xr y color = some (fillRow xl xr y color) := by
  have h3 : ¬ (truncToInt xl ≤ ⌊xr⌋ ∧ INT_MAX ≤ ⌊xr⌋) := by
    rintro ⟨-, h⟩
    omega
  simp only [fillRowM, toInt, if_pos h1, Option.bind_eq_bind, Option.some_bind, if_neg h3,
    Option.pure_def, fillRow]

theorem drawRowsM_eq (x_left x_right : List ℚ) (y0 color : Int) (n : Nat) (y : Int)
    (hl : ∀ v ∈ x_left, isInt (truncToInt v)) (hr : ∀ v ∈ x_right, ⌊v⌋ < INT_MAX) :
    drawRowsM x_left x_right y0 color n y = drawRows x_left x_right y0 color n y := by
  induction n generalizing y with
  | zero => rfl
  | succ n ih =>
    unfold drawRowsM drawRows
    rw [ih (y + 1)]
    cases e1 : indexAt x_left (y - y0) with
    | none => rfl
    | some xl =>
      cases e2 : indexAt x_right (y - y0) with
      | none => rfl
      | some xr =>
        have a1 := hl xl (indexAt_mem _ _ _ e1)
        have a2 := hr xr (indexAt_mem _ _ _ e2)
        simp only [Option.bind_eq_bind, Option.some_bind, fillRowM_eq xl xr y color a1 a2]

/-! ## Values of an edge on the machine -/

/-- With coordinates bounded by `B` and at most `2 * B` rows, the value that the
machine holds in round `k` is within `12 * B * (B + 1) * u` of the exact value. -/
theorem accumulated_close (fl : ℚ → ℚ) (u B : ℚ) (hu : 0 ≤ u) (hfl : RoundsWithin u fl)
    (hB : (2 * B + 2) * u ≤ 1 / 2) (x0 x1 n : ℚ) (k : Nat) (h0 : |x0| ≤ B) (h1 : |x1| ≤ B)
    (hk : (k : ℚ) ≤ n) (hn : n ≤ 2 * B) :
    |accumulated fl (fl (fl (x1 - x0) / n)) x0 k - (x0 + (k : ℚ) * ((x1 - x0) / n))|
      ≤ 12 * B * (B + 1) * u := by
  have hB0 : 0 ≤ B := le_trans (abs_nonneg x0) h0
  have hk0 : (0 : ℚ) ≤ (k : ℚ) := Nat.cast_nonneg k
  have herr := accumulated_error fl u hu hfl _ _ x0
    (slope_error fl u hu hfl (x1 - x0) n) k
  have hpow : (1 + u) ^ (k + 2) ≤ 1 + 2 * ((k + 2 : Nat) : ℚ) * u := by
    apply one_add_pow_le u hu
    push_cast
    nlinarith
  have hd : |x1 - x0| ≤ 2 * B := by
    have := abs_sub x1 x0
    have := abs_add x1 (-x0)
    rw [abs_neg] at this
    have e : x1 + -x0 = x1 - x0 := by ring
    rw [e] at this
    linarith
  have hks : (k : ℚ) * |(x1 - x0) / n| ≤ 2 * B := by
    rcases eq_or_lt_of_le (le_trans hk0 hk) with hn0 | hn0
    · rw [← hn0]
      simp only [div_zero, abs_zero, mul_zero]
      linarith
    · rw [abs_div, abs_of_pos hn0]
      have : (k : ℚ) * (|x1 - x0| / n) = (k / n) * |x1 - x0| := by
        field_simp
      rw [this]
      have hkn : (k : ℚ) / n ≤ 1 := (div_le_one hn0).mpr hk
      have hkn0 : 0 ≤ (k : ℚ) / n := div_nonneg hk0 (le_of_lt hn0)
      nlinarith [abs_nonneg (x1 - x0)]
  have hsum : |x0| + (k : ℚ) * |(x1 - x0) / n| ≤ 3 * B := by linarith
  have hsum0 : 0 ≤ |x0| + (k : ℚ) * |(x1 - x0) / n| := by positivity
  have hfac : (1 + u) ^ (k + 2) - 1 ≤ 2 * (2 * B + 2) * u := by
    have : ((k + 2 : Nat) : ℚ) ≤ 2 * B + 2 := by
      push_cast
      linarith
    nlinarith
  have hfac0 : 0 ≤ (1 + u) ^ (k + 2) - 1 := by
    have : (1 : ℚ) ≤ (1 + u) ^ (k + 2) := one_le_pow₀ (by linarith)
    linarith
  calc |accumulated fl (fl (fl (x1 - x0) / n)) x0 k - (x0 + (k : ℚ) * ((x1 - x0) / n))|
      ≤ ((1 + u) ^ (k + 2) - 1) * (|x0| + (k : ℚ) * |(x1 - x0) / n|) := herr
    _ ≤ (2 * (2 * B + 2) * u) * (3 * B) := mul_le_mul hfac hsum hsum0 (by positivity)
    _ = 12 * B * (B + 1) * u := by ring

theorem directEdgeM_spec (fl : ℚ → ℚ) (q0 q2 : Point2D) (h : q0.y ≤ q2.y)
    (hmax : q2.y < INT_MAX) (hdiff : isInt (q2.y - q0.y)) :
    ∃ x02 : List ℚ, directEdgeM fl q0 q2 = some x02 ∧
      x02.length = (q2.y - q0.y).toNat + 1 ∧
      ∀ k : Nat, k ≤ (q2.y - q0.y).toNat →
        x02[k]? = some (accumulated fl
          (fl (fl ((q2.x : ℚ) - q0.x) / ((q2.y : ℚ) - q0.y))) q0.x k) :=
  InterpolateM_spec_le fl q0.y q2.y q0.x q2.x h hmax hdiff

theorem compositeEdgeM_spec (fl : ℚ → ℚ) (q0 q1 q2 : Point2D) (h01 : q0.y ≤ q1.y)
    (h12 : q1.y ≤ q2.y) (hmax : q2.y < INT_MAX) (hdiff : isInt (q2.y - q0.y)) :
    ∃ x01 x12 x012 : List ℚ,
      InterpolateM fl q0.y (q0.x : ℚ) q1.y (q1.x : ℚ) = some x01 ∧
      InterpolateM fl q1.y (q1.x : ℚ) q2.y (q2.x : ℚ) = some x12 ∧
      x01 ≠ [] ∧
      compositeEdgeM fl q0 q1 q2 = some x012 ∧
      x012 = x01.dropLast ++ x12 ∧
      x012.length = (q2.y - q0.y).toNat + 1 ∧
      (∀ k : Nat, k < (q1.y - q0.y).toNat →
        x012[k]? = some (accumulated fl
          (fl (fl ((q1.x : ℚ) - q0.x) / ((q1.y : ℚ) - q0.y))) q0.x k)) ∧
      (∀ k : Nat, (q1.y - q0.y).toNat ≤ k → k ≤ (q2.y - q0.y).toNat →
        x012[k]? = some (accumulated fl
          (fl (fl ((q2.x : ℚ) - q1.x) / ((q2.y : ℚ) - q1.y))) q1.x
          (k - (q1.y - q0.y).toNat))) := by
  have hd01 : isInt (q1.y - q0.y) := by
    unfold isInt INT_MIN INT_MAX at *
    omega
  have hd12 : isInt (q2.y - q1.y) := by
    unfold isInt INT_MIN INT_MAX at *
    omega
  obtain ⟨x01, e01, l01, v01⟩ :=
    InterpolateM_spec_le fl q0.y q1.y q0.x q1.x h01 (by omega) hd01
  obtain ⟨x12, e12, l12, v12⟩ :=
    InterpolateM_spec_le fl q1.y q2.y q1.x q2.x h12 hmax hd12
  have hne : x01 ≠ [] := by
    intro hnil
    rw [hnil] at l01
    simp at l01
  have hemp : x01.isEmpty = false := by
    cases x01 with
    | nil => exact absurd rfl hne
    | cons a t => rfl
  have hlen : x01.dropLast.length = (q1.y - q0.y).toNat := by
    rw [List.length_dropLast, l01]
    omega
  refine ⟨x01, x12, x01.dropLast ++ x12, e01, e12, hne, ?_, rfl, ?_, ?_, ?_⟩
  · simp [compositeEdgeM, e01, e12, hne]
  · rw [List.length_append, hlen, l12]
    omega
  · intro k hk
    rw [List.getElem?_append_left (by rw [hlen]; exact hk), List.getElem?_dropLast,
      if_pos (by rw [l01]; omega)]
    exact v01 k (by omega)
  · intro k hk1 hk2
    rw [List.getElem?_append_right (by rw [hlen]; exact hk1), hlen]
    exact v12 _ (by omega)

/-- On the machine both edges of a triangle with sorted, bounded points exist, start
at exact values, and stay within `12 * B * (B + 1) * u` of the exact edges. -/
theorem edgesM_close (fl : ℚ → ℚ) (u : ℚ) (B : Int) (hu : 0 ≤ u) (hfl : RoundsWithin u fl)
    (hB : (2 * (B : ℚ) + 2) * u ≤ 1 / 2) (hBmax : B < 2 ^ 30) (q0 q1 q2 : Point2D)
    (h01 : q0.y ≤ q1.y) (h12 : q1.y ≤ q2.y) (w0 : within B q0) (w1 : within B q1)
    (w2 : within B q2) :
    ∃ x02 x012 e012 : List ℚ, directEdgeM fl q0 q2 = some x02 ∧
      compositeEdgeM fl q0 q1 q2 = some x012 ∧ compositeEdge q0 q1 q2 = some e012 ∧
      x02.length = (q2.y - q0.y).toNat + 1 ∧ x012.length = (q2.y - q0.y).toNat + 1 ∧
      x02[0]? = some (q0.x : ℚ) ∧
      x012[0]? = some (if q0.y = q1.y then (q1.x : ℚ) else (q0.x : ℚ)) ∧
      ∀ k : Nat, k ≤ (q2.y - q0.y).toNat → ∃ m e m' e' : ℚ,
        x02[k]? = some m ∧ (directEdge q0 q2)[k]? = some e ∧
        |m - e| ≤ 12 * (B : ℚ) * ((B : ℚ) + 1) * u ∧
        x012[k]? = some m' ∧ e012[k]? = some e' ∧
        |m' - e'| ≤ 12 * (B : ℚ) * ((B : ℚ) + 1) * u := by
  unfold within at w0 w1 w2
  have hmax : q2.y < INT_MAX := by unfold INT_MAX; omega
  have hdiff : isInt (q2.y - q0.y) := by unfold isInt INT_MIN INT_MAX; omega
  have b0 : |(q0.x : ℚ)| ≤ (B : ℚ) := by
    rw [abs_le]; constructor <;> [exact_mod_cast w0.1; exact_mod_cast w0.2.1]
  have b1 : |(q1.x : ℚ)| ≤ (B : ℚ) := by
    rw [abs_le]; constructor <;> [exact_mod_cast w1.1; exact_mod_cast w1.2.1]
  have b2 : |(q2.x : ℚ)| ≤ (B : ℚ) := by
    rw [abs_le]; constructor <;> [exact_mod_cast w2.1; exact_mod_cast w2.2.1]
  have n02 : ((q2.y : ℚ) - q0.y) ≤ 2 * (B : ℚ) := by
    have : q2.y - q0.y ≤ 2 * B := by omega
    exact_mod_cast this
  have n01 : ((q1.y : ℚ) - q0.y) ≤ 2 * (B : ℚ) := by
    have : q1.y - q0.y ≤ 2 * B := by omega
    exact_mod_cast this
  have n12 : ((q2.y : ℚ) - q1.y) ≤ 2 * (B : ℚ) := by
    have : q2.y - q1.y ≤ 2 * B := by omega
    exact_mod_cast this
  obtain ⟨x02, hx02, l02, v02⟩ := directEdgeM_spec fl q0 q2 (le_trans h01 h12) hmax hdiff
  obtain ⟨x01, x12, x012, -, -, -, hx012, -, l012, vlow, vhigh⟩ :=
    compositeEdgeM_spec fl q0 q1 q2 h01 h12 hmax hdiff
  obtain ⟨e012, he012, -, elow, ehigh, -⟩ := compositeEdge_spec q0 q1 q2 h01 h12
  refine ⟨x02, x012, e012, hx02, hx012, he012, l02, l012, ?_, ?_, ?_⟩
  · exact v02 0 (Nat.zero_le _)
  · by_cases hy : q0.y = q1.y
    · rw [if_pos hy]
      have := vhigh 0 (by omega) (Nat.zero_le _)
      rw [this]
      have e : 0 - (q1.y - q0.y).toNat = 0 := by omega
      rw [e]
      rfl
    · rw [if_neg hy]
      exact vlow 0 (by omega)
  · intro k hk
    have hkq : (k : ℚ) ≤ (q2.y : ℚ) - q0.y := by
      rw [← intCast_toNat_sub q0.y q2.y (le_trans h01 h12)]
      exact_mod_cast hk
    by_cases hlow : k < (q1.y - q0.y).toNat
    · have hkq1 : (k : ℚ) ≤ (q1.y : ℚ) - q0.y := by
        rw [← intCast_toNat_sub q0.y q1.y h01]
        exact_mod_cast (le_of_lt hlow)
      exact ⟨_, _, _, _, v02 k hk, directEdge_getElem? q0 q2 (le_trans h01 h12) k hk,
        accumulated_close fl u B hu hfl hB _ _ _ k b0 b2 hkq n02,
        vlow k hlow, elow k hlow,
        accumulated_close fl u B hu hfl hB _ _ _ k b0 b1 hkq1 n01⟩
    · have hge : (q1.y - q0.y).toNat ≤ k := by omega
      have hj : ((k - (q1.y - q0.y).toNat : Nat) : ℚ) = (k : ℚ) - ((q1.y : ℚ) - q0.y) := by
        rw [Nat.cast_sub hge, intCast_toNat_sub q0.y q1.y h01]
      have hkq2 : ((k - (q1.y - q0.y).toNat : Nat) : ℚ) ≤ (q2.y : ℚ) - q1.y := by
        rw [hj]
        linarith
      have hcl := accumulated_close fl u B hu hfl hB (q1.x : ℚ) (q2.x : ℚ) _
        (k - (q1.y - q0.y).toNat) b1 b2 hkq2 n12
      rw [hj] at hcl
      exact ⟨_, _, _, _, v02 k hk, directEdge_getElem? q0 q2 (le_trans h01 h12) k hk,
        accumulated_close fl u B hu hfl hB _ _ _ k b0 b2 hkq n02,
        vhigh k hge hk, ehigh k hge hk, hcl⟩

theorem truncToInt_le {α : Type} [LinearOrderedField α] [FloorRing α] (x : α) (n : Int)
    (h : x ≤ (n : α)) : truncToInt x ≤ n := by
  unfold truncToInt
  split
  · exact Int.cast_le.mp (le_trans (Int.floor_le x) h)
  · exact Int.ceil_le.mpr h

/-- On the machine every value of both edges lies between the least and the greatest
`x` of the three points, up to the rounding error. -/
theorem edgesM_between (fl : ℚ → ℚ) (u : ℚ) (B : Int) (hu : 0 ≤ u) (hfl : RoundsWithin u fl)
    (hB : (2 * (B : ℚ) + 2) * u ≤ 1 / 2) (hBmax : B < 2 ^ 30) (q0 q1 q2 : Point2D)
    (h01 : q0.y ≤ q1.y) (h12 : q1.y ≤ q2.y) (w0 : within B q0) (w1 : within B q1)
    (w2 : within B q2) (x02 x012 : List ℚ) (hx02 : directEdgeM fl q0 q2 = some x02)
    (hx012 : compositeEdgeM fl q0 q1 q2 = some x012) (lo hi : ℚ)
    (a0 : lo ≤ q0.x) (a1 : lo ≤ q1.x) (a2 : lo ≤ q2.x)
    (c0 : (q0.x : ℚ) ≤ hi) (c1 : (q1.x : ℚ) ≤ hi) (c2 : (q2.x : ℚ) ≤ hi) (v : ℚ)
    (hv : v ∈ x02 ∨ v ∈ x012) :
    lo - 12 * (B : ℚ) * ((B : ℚ) + 1) * u ≤ v ∧ v ≤ hi + 12 * (B : ℚ) * ((B : ℚ) + 1) * u := by
  obtain ⟨y02, y012, e012, hy02, hy012, he012, l02, l012, -, -, hclose⟩ :=
    edgesM_close fl u B hu hfl hB hBmax q0 q1 q2 h01 h12 w0 w1 w2
  rw [hx02, Option.some.injEq] at hy02
  rw [hx012, Option.some.injEq] at hy012
  subst hy02
  subst hy012
  obtain ⟨_, he', -, -, -, hcomp⟩ := compositeEdge_spec q0 q1 q2 h01 h12
  rw [he012, Option.some.injEq] at he'
  subst he'
  rcases hv with hv | hv
  · obtain ⟨k, hk, hget⟩ := List.getElem_of_mem hv
    obtain ⟨m, e, -, -, hm, he, hme, -, -, -⟩ := hclose k (by omega)
    rw [List.getElem?_eq_getElem hk, hget, Option.some.injEq] at hm
    subst hm
    have hb := Interpolate_mem_between _ _ _ _ lo hi (le_trans h01 h12) a0 a2 c0 c2 e
      (List.getElem?_mem he)
    rw [abs_le] at hme
    constructor <;> linarith [hb.1, hb.2, hme.1, hme.2]
  · obtain ⟨k, hk, hget⟩ := List.getElem_of_mem hv
    obtain ⟨-, -, m, e, -, -, -, hm, he, hme⟩ := hclose k (by omega)
    rw [List.getElem?_eq_getElem hk, hget, Option.some.injEq] at hm
    subst hm
    have hb := hcomp e (List.getElem?_mem he) lo hi a0 a1 a2 c0 c1 c2
    rw [abs_le] at hme
    constructor <;> linarith [hb.1, hb.2, hme.1, hme.2]

theorem leftRightEdgesM_spec (fl : ℚ → ℚ) (q0 q1 q2 : Point2D) (x02 x012 : List ℚ)
    (hx02 : directEdgeM fl q0 q2 = some x02) (hx012 : compositeEdgeM fl q0 q1 q2 = some x012)
    (l02 : x02.length = (q2.y - q0.y).toNat + 1)
    (l012 : x012.length = (q2.y - q0.y).toNat + 1) :
    ∃ a b : ℚ, x02[((q2.y - q0.y).toNat + 1) / 2]? = some a ∧
      x012[((q2.y - q0.y).toNat + 1) / 2]? = some b ∧
      leftRightEdgesM fl q0 q1 q2 = some (if a < b then (x02, x012) else (x012, x02)) := by
  have hm : ((q2.y - q0.y).toNat + 1) / 2 < (q2.y - q0.y).toNat + 1 := by omega
  obtain ⟨a, ha⟩ : ∃ a, x02[((q2.y - q0.y).toNat + 1) / 2]? = some a := by
    rw [List.getElem?_eq_getElem (by rw [l02]; exact hm)]
    exact ⟨_, rfl⟩
  obtain ⟨b, hb⟩ : ∃ b, x012[((q2.y - q0.y).toNat + 1) / 2]? = some b := by
    rw [List.getElem?_eq_getElem (by rw [l012]; exact hm)]
    exact ⟨_, rfl⟩
  refine ⟨a, b, ha, hb, ?_⟩
  simp only [leftRightEdgesM, hx02, hx012, Option.bind_eq_bind, Option.some_bind,
    indexAt_natCast, l02, ha, hb, Option.pure_def]

theorem within_of_perm (B : Int) (p0 p1 p2 q0 q1 q2 : Point2D)
    (hperm : [q0, q1, q2].Perm [p0, p1, p2]) (w0 : within B p0) (w1 : within B p1)
    (w2 : within B p2) : within B q0 ∧ within B q1 ∧ within B q2 := by
  have key : ∀ q ∈ [q0, q1, q2], within B q := by
    intro q hq
    have := hperm.mem_iff.mp hq
    simp only [List.mem_cons, List.mem_singleton, List.not_mem_nil, or_false] at this
    rcases this with h | h | h <;> subst h <;> assumption
  exact ⟨key q0 (by simp), key q1 (by simp), key q2 (by simp)⟩

/-- What `DrawFilledTriangle` does on the machine for bounded points, in terms of the
sorted points: it returns, and a pixel is written exactly when it lies in the span of
some row `k` between the chosen left and right edge. -/
theorem DrawFilledTriangleM_spec (fl : ℚ → ℚ) (u : ℚ) (B : Int) (hu : 0 ≤ u)
    (hfl : RoundsWithin u fl) (hB : (2 * (B : ℚ) + 2) * u ≤ 1 / 2) (hBmax : B < 2 ^ 30)
    (hE : 12 * (B : ℚ) * ((B : ℚ) + 1) * u ≤ 1) (p0 p1 p2 : Point2D) (color : Int)
    (w0 : within B p0) (w1 : within B p1) (w2 : within B p2) :
    ∃ (q0 q1 q2 : Point2D) (x02 x012 : List ℚ) (a b : ℚ) (pixels : List Pixel),
      sortPoints p0 p1 p2 = (q0, q1, q2) ∧ q0.y ≤ q1.y ∧ q1.y ≤ q2.y ∧
      [q0, q1, q2].Perm [p0, p1, p2] ∧
      directEdgeM fl q0 q2 = some x02 ∧ compositeEdgeM fl q0 q1 q2 = some x012 ∧
      x02[((q2.y - q0.y).toNat + 1) / 2]? = some a ∧
      x012[((q2.y - q0.y).toNat + 1) / 2]? = some b ∧
      leftRightEdgesM fl q0 q1 q2 = some (if a < b then (x02, x012) else (x012, x02)) ∧
      DrawFilledTriangleM fl p0 p1 p2 color = some pixels ∧
      ∀ px, px ∈ pixels ↔ ∃ (k : Nat) (xl xr : ℚ), k ≤ (q2.y - q0.y).toNat ∧
        (if a < b then x02 else x012)[k]? = some xl ∧
        (if a < b then x012 else x02)[k]? = some xr ∧
        px ∈ fillRow xl xr (q0.y + k) color := by
  obtain ⟨q0, q1, q2, hs, h01, h12, hperm⟩ := sortPoints_cases p0 p1 p2
  obtain ⟨v0, v1, v2⟩ := within_of_perm B p0 p1 p2 q0 q1 q2 hperm w0 w1 w2
  obtain ⟨x02, x012, e012, hx02, hx012, -, l02, l012, -, -, -⟩ :=
    edgesM_close fl u B hu hfl hB hBmax q0 q1 q2 h01 h12 v0 v1 v2
  obtain ⟨a, b, ha, hb, hlr⟩ := leftRightEdgesM_spec fl q0 q1 q2 x02 x012 hx02 hx012 l02 l012
  have hbound : ∀ v : ℚ, v ∈ x02 ∨ v ∈ x012 → -((B : ℚ) + 1) ≤ v ∧ v ≤ (B : ℚ) + 1 := by
    intro v hv
    have c0 := v0
    have c1 := v1
    have c2 := v2
    unfold within at c0 c1 c2
    have := edgesM_between fl u B hu hfl hB hBmax q0 q1 q2 h01 h12 v0 v1 v2 x02 x012 hx02 hx012
      (-(B : ℚ)) (B : ℚ) (by exact_mod_cast c0.1) (by exact_mod_cast c1.1)
      (by exact_mod_cast c2.1) (by exact_mod_cast c0.2.1) (by exact_mod_cast c1.2.1)
      (by exact_mod_cast c2.2.1) v hv
    constructor <;> linarith [this.1, this.2]
  have hl : ∀ v : ℚ, v ∈ x02 ∨ v ∈ x012 → isInt (truncToInt v) := by
    intro v hv
    obtain ⟨b1, b2⟩ := hbound v hv
    have t1 : -(B + 1) ≤ truncToInt v := le_truncToInt v _ (by push_cast; linarith)
    have t2 : truncToInt v ≤ B + 1 := truncToInt_le v _ (by push_cast; linarith)
    unfold isInt INT_MIN INT_MAX
    omega
  have hr : ∀ v : ℚ, v ∈ x02 ∨ v ∈ x012 → ⌊v⌋ < INT_MAX := by
    intro v hv
    obtain ⟨-, b2⟩ := hbound v hv
    have : ⌊v⌋ ≤ B + 1 := Int.cast_le.mp (le_trans (Int.floor_le v) (by push_cast; linarith))
    unfold INT_MAX
    omega
  have hn : (q2.y + 1 - q0.y).toNat = (q2.y - q0.y).toNat + 1 := by omega
  have hL : 0 + ((q2.y - q0.y).toNat + 1) ≤ (if a < b then x02 else x012).length := by
    split <;> omega
  have hR : 0 + ((q2.y - q0.y).toNat + 1) ≤ (if a < b then x012 else x02).length := by
    split <;> omega
  obtain ⟨pixels, hpix, hmem⟩ := drawRows_spec _ _ q0.y color _ 0 hL hR
  have hq2 : q2.y ≠ INT_MAX := by
    unfold within at v2
    unfold INT_MAX
    omega
  refine ⟨q0, q1, q2, x02, x012, a, b, pixels, hs, h01, h12, hperm, hx02, hx012, ha, hb, hlr,
    ?_, ?_⟩
  · have hdr : drawRowsM (if a < b then x02 else x012) (if a < b then x012 else x02) q0.y color
        ((q2.y - q0.y).toNat + 1) q0.y = some pixels := by
      rw [drawRowsM_eq]
      · simpa using hpix
      · intro v hv
        split at hv
        · exact hl v (Or.inl hv)
        · exact hl v (Or.inr hv)
      · intro v hv
        split at hv
        · exact hr v (Or.inr hv)
        · exact hr v (Or.inl hv)
    simp only [DrawFilledTriangleM, hs, hlr, Option.bind_eq_bind, Option.some_bind, hn,
      if_neg hq2]
    rw [← hdr]
    split <;> rfl
  · intro px
    rw [hmem]
    constructor
    · rintro ⟨k, xl, xr, _, h2, h3, h4, h5⟩
      exact ⟨k, xl, xr, by omega, h3, h4, h5⟩
    · rintro ⟨k, xl, xr, h2, h3, h4, h5⟩
      exact ⟨k, xl, xr, Nat.zero_le _, by omega, h3, h4, h5⟩

/-! ## The bounding box on the machine -/

/-- Every pixel that `DrawFilledTriangle` writes on the machine lies in a row of the
triangle, in a span whose two ends leave the bounding box by at most the rounding
error. -/
theorem DrawFilledTriangleM_box (fl : ℚ → ℚ) (u : ℚ) (B : Int) (hu : 0 ≤ u)
    (hfl : RoundsWithin u fl) (hB : (2 * (B : ℚ) + 2) * u ≤ 1 / 2) (hBmax : B < 2 ^ 30)
    (hE : 12 * (B : ℚ) * ((B : ℚ) + 1) * u ≤ 1) (p0 p1 p2 : Point2D) (color : Int)
    (w0 : within B p0) (w1 : within B p1) (w2 : within B p2) :
    ∃ pixels, DrawFilledTriangleM fl p0 p1 p2 color = some pixels ∧
      ∀ px ∈ pixels, minY p0 p1 p2 ≤ px.y ∧ px.y ≤ maxY p0 p1 p2 ∧
        ∃ xl xr : ℚ, ((minX p0 p1 p2 : Int) : ℚ) - 12 * (B : ℚ) * ((B : ℚ) + 1) * u ≤ xl ∧
          xr ≤ ((maxX p0 p1 p2 : Int) : ℚ) + 12 * (B : ℚ) * ((B : ℚ) + 1) * u ∧
          truncToInt xl ≤ px.x ∧ (px.x : ℚ) ≤ xr := by
  obtain ⟨q0, q1, q2, x02, x012, a, b, pixels, -, h01, h12, hperm, hx02, hx012, -, -, -, hdraw,
    hmem⟩ := DrawFilledTriangleM_spec fl u B hu hfl hB hBmax hE p0 p1 p2 color w0 w1 w2
  obtain ⟨v0, v1, v2⟩ := within_of_perm B p0 p1 p2 q0 q1 q2 hperm w0 w1 w2
  refine ⟨pixels, hdraw, ?_⟩
  intro px hpx
  obtain ⟨k, xl, xr, hk, hxl, hxr, hrow⟩ := (hmem px).mp hpx
  obtain ⟨hy, -, hx1, hx2⟩ := (mem_fillRow xl xr _ color px).mp hrow
  obtain ⟨ey0, ey2⟩ := sorted_extremes p0 p1 p2 q0 q1 q2 h01 h12 hperm
  have c0 := mem_three_bounds p0 p1 p2 q0 (hperm.mem_iff.mp (by simp))
  have c1 := mem_three_bounds p0 p1 p2 q1 (hperm.mem_iff.mp (by simp))
  have c2 := mem_three_bounds p0 p1 p2 q2 (hperm.mem_iff.mp (by simp))
  have hbetween := edgesM_between fl u B hu hfl hB hBmax q0 q1 q2 h01 h12 v0 v1 v2 x02 x012
    hx02 hx012 ((minX p0 p1 p2 : Int) : ℚ) ((maxX p0 p1 p2 : Int) : ℚ)
    (by exact_mod_cast c0.1) (by exact_mod_cast c1.1) (by exact_mod_cast c2.1)
    (by exact_mod_cast c0.2.1) (by exact_mod_cast c1.2.1) (by exact_mod_cast c2.2.1)
  have hl : xl ∈ x02 ∨ xl ∈ x012 := by
    have := List.getElem?_mem hxl
    split at this
    · exact Or.inl this
    · exact Or.inr this
  have hr : xr ∈ x02 ∨ xr ∈ x012 := by
    have := List.getElem?_mem hxr
    split at this
    · exact Or.inr this
    · exact Or.inl this
  refine ⟨by omega, by omega, xl, xr, (hbetween xl hl).1, (hbetween xr hr).2, hx1, hx2⟩

/-- C2, as the code has it.  Let every floating operation be rounded by `fl` with
relative error at most `2 ^ -53` (`double` arithmetic; exact arithmetic is the case
`fl t = t`).  For three points whose coordinates lie between `-2 ^ 24` and `2 ^ 24`,
`DrawFilledTriangle` returns, and every pixel `(x, y)` it hands to `setPixel` has
`minX - 1 ≤ x ≤ maxX` and `minY ≤ y ≤ maxY`; in exact arithmetic `minX ≤ x` as well. -/
theorem DrawFilledTriangleM_in_bounding_box (fl : ℚ → ℚ) (hfl : RoundsWithin (1 / 2 ^ 53) fl)
    (p0 p1 p2 : Point2D) (color : Int) (w0 : within (2 ^ 24) p0) (w1 : within (2 ^ 24) p1)
    (w2 : within (2 ^ 24) p2) :
    ∃ pixels, DrawFilledTriangleM fl p0 p1 p2 color = some pixels ∧
      (∀ px ∈ pixels, minX p0 p1 p2 - 1 ≤ px.x ∧ px.x ≤ maxX p0 p1 p2 ∧
        minY p0 p1 p2 ≤ px.y ∧ px.y ≤ maxY p0 p1 p2) ∧
      ((∀ t : ℚ, fl t = t) → ∀ px ∈ pixels, minX p0 p1 p2 ≤ px.x) := by
  obtain ⟨pixels, hdraw, hbox⟩ := DrawFilledTriangleM_box fl (1 / 2 ^ 53) (2 ^ 24) (by norm_num)
    hfl (by norm_num) (by norm_num) (by norm_num) p0 p1 p2 color w0 w1 w2
  refine ⟨pixels, hdraw, ?_, ?_⟩
  · intro px hpx
    obtain ⟨hy1, hy2, xl, xr, hxl, hxr, hx1, hx2⟩ := hbox px hpx
    refine ⟨?_, ?_, hy1, hy2⟩
    · have h1 : (((minX p0 p1 p2 - 1 : Int)) : ℚ) ≤ xl := by
        push_cast
        have : (12 : ℚ) * ((2 ^ 24 : Int) : ℚ) * (((2 ^ 24 : Int) : ℚ) + 1) * (1 / 2 ^ 53) ≤ 1 := by
          norm_num
        linarith
      exact le_trans (le_truncToInt xl _ h1) hx1
    · have h2 : (px.x : ℚ) < ((maxX p0 p1 p2 + 1 : Int) : ℚ) := by
        push_cast
        have : (12 : ℚ) * ((2 ^ 24 : Int) : ℚ) * (((2 ^ 24 : Int) : ℚ) + 1) * (1 / 2 ^ 53) < 1 := by
          norm_num
        linarith
      have h3 : px.x < maxX p0 p1 p2 + 1 := by exact_mod_cast h2
      omega
  · intro hexact px hpx
    have hfl0 : RoundsWithin 0 fl := by
      intro t
      rw [hexact t]
      simp
    obtain ⟨pixels', hdraw', hbox'⟩ := DrawFilledTriangleM_box fl 0 (2 ^ 24) (le_refl _)
      hfl0 (by norm_num) (by norm_num) (by norm_num) p0 p1 p2 color w0 w1 w2
    rw [hdraw, Option.some.injEq] at hdraw'
    subst hdraw'
    obtain ⟨-, -, xl, xr, hxl, -, hx1, -⟩ := hbox' px hpx
    have h1 : ((minX p0 p1 p2 : Int) : ℚ) ≤ xl := by linarith
    exact le_trans (le_truncToInt xl _ h1) hx1

/-- C2 refuted as stated.  In `double` arithmetic the triangle `(5, 1)`, `(3, 4)`,
`(4, 1)`, whose least `x` is `3`, gets the pixel `(2, 4)`: the left edge arrives in
row `4` just below `3` and the conversion to `int` cuts it down to `2`. -/
theorem DrawFilledTriangleM_leaves_bounding_box :
    DrawFilledTriangleM roundDouble ⟨5, 1⟩ ⟨3, 4⟩ ⟨4, 1⟩ 7
      = some [⟨4, 1, 7⟩, ⟨5, 1, 7⟩, ⟨3, 2, 7⟩, ⟨4, 2, 7⟩, ⟨3, 3, 7⟩, ⟨2, 4, 7⟩, ⟨3, 4, 7⟩] ∧
    minX ⟨5, 1⟩ ⟨3, 4⟩ ⟨4, 1⟩ = 3 ∧
    ¬ (minX ⟨5, 1⟩ ⟨3, 4⟩ ⟨4, 1⟩ ≤ (⟨2, 4, 7⟩ : Pixel).x) := by
  refine ⟨by decide!, by decide, by decide⟩

/-! ## The projection on the machine -/

theorem truncToInt_mono {α : Type} [LinearOrderedField α] [FloorRing α] (x y : α) (h : x ≤ y) :
    truncToInt x ≤ truncToInt y := by
  unfold truncToInt
  split_ifs with hx hy hy
  · exact Int.floor_mono h
  · exact absurd (le_trans hx h) hy
  · have h1 : ⌈x⌉ ≤ 0 := Int.ceil_le.mpr (by push_cast; exact le_of_lt (not_le.mp hx))
    have h2 : 0 ≤ ⌊y⌋ := Int.le_floor.mpr (by push_cast; exact hy)
    omega
  · exact Int.ceil_mono h

theorem truncToInt_add_one_le {α : Type} [LinearOrderedField α] [FloorRing α] (x : α) :
    truncToInt (x + 1) ≤ truncToInt x + 1 := by
  unfold truncToInt
  split_ifs with h1 h0 h0
  · rw [Int.floor_add_one]
  · rw [Int.floor_add_one]
    have := Int.floor_le_ceil x
    omega
  · exact absurd (by linarith : 0 ≤ x + 1) h1
  · rw [Int.ceil_add_one]

/-- Values at most `1` apart convert to `int` values at most `1` apart. -/
theorem truncToInt_close {α : Type} [LinearOrderedField α] [FloorRing α] (x y : α)
    (h : |x - y| ≤ 1) : |truncToInt x - truncToInt y| ≤ 1 := by
  rw [abs_le] at h
  have h1 := le_trans (truncToInt_mono x (y + 1) (by linarith)) (truncToInt_add_one_le y)
  have h2 := le_trans (truncToInt_mono y (x + 1) (by linarith)) (truncToInt_add_one_le x)
  rw [abs_le]
  constructor <;> omega

/-- The rounded quotient of the rounded operands is within `5 * u * M` of the exact
quotient, when that is at most `M` in absolute value. -/
theorem quotient_error (fl : ℚ → ℚ) (u : ℚ) (hu0 : 0 ≤ u) (hu : u ≤ 1 / 2 ^ 24)
    (hfl : RoundsWithin u fl) (X D M : ℚ) (hD : D ≠ 0) (hQ : |X / D| ≤ M) :
    fl D ≠ 0 ∧ |fl (fl X / fl D) - X / D| ≤ 5 * u * M := by
  have hDpos : 0 < |D| := abs_pos.mpr hD
  have hM : 0 ≤ M := le_trans (abs_nonneg _) hQ
  have hu' : u ≤ 1 / 16777216 := by norm_num at hu; exact hu
  have e1 := hfl X
  have e2 := hfl D
  have hX : X = X / D * D := by field_simp
  have hXabs : |X| = |X / D| * |D| := by rw [← abs_mul, ← hX]
  -- the rounded divisor keeps two thirds of its size
  have hden : 2 / 3 * |D| ≤ |fl D| := by
    have := abs_sub_abs_le_abs_sub D (fl D)
    rw [abs_sub_comm] at this
    nlinarith
  have hdenpos : 0 < |fl D| := by nlinarith
  have hden0 : fl D ≠ 0 := abs_pos.mp hdenpos
  refine ⟨hden0, ?_⟩
  have hr : |fl X / fl D - X / D| ≤ 3 * u * |X / D| := by
    have hnum : |fl X - X / D * fl D| ≤ 2 * u * |X / D| * |D| := by
      have e : fl X - X / D * fl D = (fl X - X) + X / D * (D - fl D) := by
        rw [mul_sub, ← hX]
        ring
      rw [e]
      have t1 := abs_add (fl X - X) (X / D * (D - fl D))
      have t2 : |X / D * (D - fl D)| = |X / D| * |fl D - D| := by
        rw [abs_mul, abs_sub_comm]
      have t3 : |X / D| * |fl D - D| ≤ |X / D| * (u * |D|) :=
        mul_le_mul_of_nonneg_left e2 (abs_nonneg _)
      rw [hXabs] at e1
      nlinarith
    have hmul : |fl X / fl D - X / D| * |fl D| = |fl X - X / D * fl D| := by
      rw [← abs_mul]
      congr 1
      field_simp
      ring
    have hle : |fl X / fl D - X / D| * |fl D| ≤ 3 * u * |X / D| * |fl D| := by
      rw [hmul]
      have : 2 * u * |X / D| * |D| ≤ 3 * u * |X / D| * |fl D| := by
        have hq0 : 0 ≤ u * |X / D| := mul_nonneg hu0 (abs_nonneg _)
        nlinarith
      linarith
    exact le_of_mul_le_mul_right hle hdenpos
  have e3 := hfl (fl X / fl D)
  have hrabs : |fl X / fl D| ≤ |X / D| + 3 * u * |X / D| := by
    have := abs_sub_abs_le_abs_sub (fl X / fl D) (X / D)
    linarith
  have htri : |fl (fl X / fl D) - X / D|
      ≤ |fl (fl X / fl D) - fl X / fl D| + |fl X / fl D - X / D| := by
    have := abs_sub_le (fl (fl X / fl D)) (fl X / fl D) (X / D)
    linarith
  have hq0 : 0 ≤ |X / D| := abs_nonneg _
  have h5 : u * (|X / D| + 3 * u * |X / D|) + 3 * u * |X / D| ≤ 5 * u * M := by
    have : u * |X / D| ≤ u * M := mul_le_mul_of_nonneg_left hQ hu0
    have h3 : 3 * u * (u * |X / D|) ≤ u * |X / D| := by
      have : 0 ≤ u * |X / D| := mul_nonneg hu0 hq0
      nlinarith
    nlinarith
  have : u * |fl X / fl D| ≤ u * (|X / D| + 3 * u * |X / D|) :=
    mul_le_mul_of_nonneg_left hrabs hu0
  linarith


theorem roundsWithin_zero (fl : ℚ → ℚ) (u : ℚ) (hfl : RoundsWithin u fl) : fl 0 = 0 := by
  have := hfl 0
  simp only [sub_zero, abs_zero, mul_zero] at this
  exact abs_eq_zero.mp (le_antisymm this (abs_nonneg _))

theorem ProjectTo2DM_eq (fl : ℚ → ℚ) (p : Point3D ℚ) (hz : fl (p.z + 4) ≠ 0)
    (hx : |fl (p.x * 256)| ≤ FLT_MAX) (hy : |fl (p.y * 256)| ≤ FLT_MAX)
    (ix : isInt (truncToInt (fl (160 + fl (fl (p.x * 256) / fl (p.z + 4))))))
    (iy : isInt (truncToInt (fl (120 - fl (fl (p.y * 256) / fl (p.z + 4)))))) :
    ProjectTo2DM fl p = some ⟨truncToInt (fl (160 + fl (fl (p.x * 256) / fl (p.z + 4)))),
      truncToInt (fl (120 - fl (fl (p.y * 256) / fl (p.z + 4))))⟩ := by
  have hg : ¬ (fl (p.z + 4) = 0 ∨ FLT_MAX < |fl (p.x * 256)| ∨ FLT_MAX < |fl (p.y * 256)|) := by
    rintro (h | h | h)
    · exact hz h
    · exact absurd hx (not_le.mpr h)
    · exact absurd hy (not_le.mpr h)
  have e1 : (((320 : Int) / 2 : Int) : ℚ) = 160 := by norm_num
  have e2 : (((240 : Int) / 2 : Int) : ℚ) = 120 := by norm_num
  simp only [ProjectTo2DM, FOV, SCREEN_WIDTH, SCREEN_HEIGHT, if_neg hg, e1, e2, toInt, if_pos ix,
    if_pos iy, Option.bind_eq_bind, Option.some_bind, Option.pure_def]

/-- C13, as the code has it.  Let every `float` operation be rounded by `fl` with
relative error at most `2 ^ -24`, `fl` leaving `160` and `120` unchanged (`float`
arithmetic; exact arithmetic is the case `fl t = t`).  For a point with `p.z + 4 ≠ 0`,
`|p.x|, |p.y| ≤ 2 ^ 100` and exact quotients `256 * p.x / (p.z + 4)`,
`256 * p.y / (p.z + 4)` of absolute value at most `2 ^ 16`, `ProjectTo2D` returns
`x = trunc (fl (160 + fl (fl (p.x * 256) / fl (p.z + 4))))` and
`y = trunc (fl (120 - fl (fl (p.y * 256) / fl (p.z + 4))))`, where `trunc` rounds the
whole sum toward zero; `x` and `y` differ by at most `1` from
`trunc (160 + 256 * p.x / (p.z + 4))` and `trunc (120 - 256 * p.y / (p.z + 4))`, and
equal them in exact arithmetic; a point on the view axis goes to the centre
`(160, 120)`. -/
theorem ProjectTo2DM_formula (fl : ℚ → ℚ) (hfl : RoundsWithin (1 / 2 ^ 24) fl)
    (h160 : fl 160 = 160) (h120 : fl 120 = 120) (p : Point3D ℚ) (hz : p.z + 4 ≠ 0)
    (hx : |p.x| ≤ 2 ^ 100) (hy : |p.y| ≤ 2 ^ 100)
    (hqx : |256 * p.x / (p.z + 4)| ≤ 2 ^ 16) (hqy : |256 * p.y / (p.z + 4)| ≤ 2 ^ 16) :
    ∃ x y : Int, ProjectTo2DM fl p = some ⟨x, y⟩ ∧
      x = truncToInt (fl (160 + fl (fl (p.x * 256) / fl (p.z + 4)))) ∧
      y = truncToInt (fl (120 - fl (fl (p.y * 256) / fl (p.z + 4)))) ∧
      |x - truncToInt (160 + 256 * p.x / (p.z + 4))| ≤ 1 ∧
      |y - truncToInt (120 - 256 * p.y / (p.z + 4))| ≤ 1 ∧
      (p.x = 0 → x = 160) ∧ (p.y = 0 → y = 120) ∧
      ((∀ t : ℚ, fl t = t) →
        x = truncToInt (160 + 256 * p.x / (p.z + 4)) ∧
        y = truncToInt (120 - 256 * p.y / (p.z + 4))) := by
  have hu0 : (0 : ℚ) ≤ 1 / 2 ^ 24 := by norm_num
  rw [mul_comm (256 : ℚ) p.x] at hqx
  rw [mul_comm (256 : ℚ) p.y] at hqy
  obtain ⟨hden, hex⟩ := quotient_error fl _ hu0 (le_refl _) hfl (p.x * 256) (p.z + 4) _ hz hqx
  obtain ⟨-, hey⟩ := quotient_error fl _ hu0 (le_refl _) hfl (p.y * 256) (p.z + 4) _ hz hqy
  -- the two products stay finite
  have hpx : |fl (p.x * 256)| ≤ FLT_MAX := by
    have h1 := hfl (p.x * 256)
    have h2 := abs_sub_abs_le_abs_sub (fl (p.x * 256)) (p.x * 256)
    have h3 : |p.x * 256| = |p.x| * 256 := by rw [abs_mul]; norm_num
    unfold FLT_MAX
    rw [h3] at h1 h2
    norm_num at h1 hx ⊢
    linarith
  have hpy : |fl (p.y * 256)| ≤ FLT_MAX := by
    have h1 := hfl (p.y * 256)
    have h2 := abs_sub_abs_le_abs_sub (fl (p.y * 256)) (p.y * 256)
    have h3 : |p.y * 256| = |p.y| * 256 := by rw [abs_mul]; norm_num
    unfold FLT_MAX
    rw [h3] at h1 h2
    norm_num at h1 hy ⊢
    linarith
  -- the two sums are close to the exact sums
  have hsx : |fl (160 + fl (fl (p.x * 256) / fl (p.z + 4))) - (160 + p.x * 256 / (p.z + 4))|
      ≤ 1 / 32 := by
    have h1 := hfl (160 + fl (fl (p.x * 256) / fl (p.z + 4)))
    have h2 := abs_add (160 : ℚ) (fl (fl (p.x * 256) / fl (p.z + 4)))
    have h3 := abs_sub_abs_le_abs_sub (fl (fl (p.x * 256) / fl (p.z + 4))) (p.x * 256 / (p.z + 4))
    have h4 := abs_sub_le (fl (160 + fl (fl (p.x * 256) / fl (p.z + 4))))
      (160 + fl (fl (p.x * 256) / fl (p.z + 4))) (160 + p.x * 256 / (p.z + 4))
    have h5 : 160 + fl (fl (p.x * 256) / fl (p.z + 4)) - (160 + p.x * 256 / (p.z + 4))
        = fl (fl (p.x * 256) / fl (p.z + 4)) - p.x * 256 / (p.z + 4) := by ring
    rw [h5] at h4
    have h6 : |(160 : ℚ)| = 160 := by norm_num
    rw [h6] at h2
    norm_num at h1 hex hqx ⊢
    linarith
  have hsy : |fl (120 - fl (fl (p.y * 256) / fl (p.z + 4))) - (120 - p.y * 256 / (p.z + 4))|
      ≤ 1 / 32 := by
    have h1 := hfl (120 - fl (fl (p.y * 256) / fl (p.z + 4)))
    have h2 := abs_sub (120 : ℚ) (fl (fl (p.y * 256) / fl (p.z + 4)))
    have h3 := abs_sub_abs_le_abs_sub (fl (fl (p.y * 256) / fl (p.z + 4))) (p.y * 256 / (p.z + 4))
    have h4 := abs_sub_le (fl (120 - fl (fl (p.y * 256) / fl (p.z + 4))))
      (120 - fl (fl (p.y * 256) / fl (p.z + 4))) (120 - p.y * 256 / (p.z + 4))
    have h5 : 120 - fl (fl (p.y * 256) / fl (p.z + 4)) - (120 - p.y * 256 / (p.z + 4))
        = -(fl (fl (p.y * 256) / fl (p.z + 4)) - p.y * 256 / (p.z + 4)) := by ring
    rw [h5, abs_neg] at h4
    have h6 : |(120 : ℚ)| = 120 := by norm_num
    rw [h6] at h2
    norm_num at h1 hey hqy ⊢
    linarith
  have hXabs := abs_le.mp hqx
  have hYabs := abs_le.mp hqy
  have ix : isInt (truncToInt (fl (160 + fl (fl (p.x * 256) / fl (p.z + 4))))) := by
    have h := abs_le.mp hsx
    have t1 : -(70000 : Int) ≤ truncToInt (fl (160 + fl (fl (p.x * 256) / fl (p.z + 4)))) :=
      le_truncToInt _ _ (by push_cast; norm_num at hXabs ⊢; linarith [h.1, hXabs.1])
    have t2 : truncToInt (fl (160 + fl (fl (p.x * 256) / fl (p.z + 4)))) ≤ (70000 : Int) :=
      truncToInt_le _ _ (by push_cast; norm_num at hXabs ⊢; linarith [h.2, hXabs.2])
    unfold isInt INT_MIN INT_MAX
    omega
  have iy : isInt (truncToInt (fl (120 - fl (fl (p.y * 256) / fl (p.z + 4))))) := by
    have h := abs_le.mp hsy
    have t1 : -(70000 : Int) ≤ truncToInt (fl (120 - fl (fl (p.y * 256) / fl (p.z + 4)))) :=
      le_truncToInt _ _ (by push_cast; norm_num at hYabs ⊢; linarith [h.1, hYabs.2])
    have t2 : truncToInt (fl (120 - fl (fl (p.y * 256) / fl (p.z + 4)))) ≤ (70000 : Int) :=
      truncToInt_le _ _ (by push_cast; norm_num at hYabs ⊢; linarith [h.2, hYabs.1])
    unfold isInt INT_MIN INT_MAX
    omega
  have ex : (160 : ℚ) + 256 * p.x / (p.z + 4) = 160 + p.x * 256 / (p.z + 4) := by ring
  have ey : (120 : ℚ) - 256 * p.y / (p.z + 4) = 120 - p.y * 256 / (p.z + 4) := by ring
  have hfl0 := roundsWithin_zero fl _ hfl
  refine ⟨_, _, ProjectTo2DM_eq fl p hden hpx hpy ix iy, rfl, rfl, ?_, ?_, ?_, ?_, ?_⟩
  · rw [ex]
    exact truncToInt_close _ _ (le_trans hsx (by norm_num))
  · rw [ey]
    exact truncToInt_close _ _ (le_trans hsy (by norm_num))
  · intro h0
    rw [h0, zero_mul, hfl0, zero_div, hfl0, add_zero, h160]
    exact_mod_cast @truncToInt_intCast ℚ _ _ 160
  · intro h0
    rw [h0, zero_mul, hfl0, zero_div, hfl0, sub_zero, h120]
    exact_mod_cast @truncToInt_intCast ℚ _ _ 120
  · intro hexact
    rw [ex, ey]
    simp only [hexact]
    exact ⟨trivial, trivial⟩

/-- C13 refuted as stated.  The point `(1, 0, -(2 - 2 ^ -22))` has `float` coordinates
and `p.z + 4 ≠ 0`.  The formula gives `trunc (160 + 256 / (2 + 2 ^ -22)) = 287`, but in
`float` arithmetic the quotient rounds to `128 - 2 ^ -16` and the sum
`288 - 2 ^ -16` rounds to `288`: `ProjectTo2D` returns `x = 288`. -/
theorem ProjectTo2DM_formula_fails :
    roundFloat 1 = 1 ∧ roundFloat (-(2 - 1 / 2 ^ 22)) = -(2 - 1 / 2 ^ 22) ∧
    (-(2 - 1 / 2 ^ 22) : ℚ) + 4 ≠ 0 ∧
    ProjectTo2DM roundFloat ⟨1, 0, -(2 - 1 / 2 ^ 22)⟩ = some ⟨288, 120⟩ ∧
    truncToInt ((160 : ℚ) + 256 * 1 / (-(2 - 1 / 2 ^ 22) + 4)) = 287 := by
  refine ⟨by decide!, by decide!, by norm_num, by decide!, by decide!⟩

/-! ## The distance between the two exact edges -/

theorem rowWeight_nonneg (h1 h2 k : Nat) (hk : k ≤ h1 + h2) : 0 ≤ rowWeight h1 h2 k := by
  have hkq : (k : ℚ) ≤ (h1 : ℚ) + h2 := by exact_mod_cast hk
  unfold rowWeight
  split_ifs with c1 c2
  · positivity
  · have hh2 : (0 : ℚ) < (h2 : ℚ) := by exact_mod_cast c2
    have hH : (0 : ℚ) < (h1 : ℚ) + h2 := by positivity
    exact div_nonneg (by linarith) (le_of_lt (mul_pos hh2 hH))
  · positivity

/-- In a row strictly inside the triangle (and in the bottom row of a flat-bottomed
one) the weight is at least `1 / h ^ 2`. -/
theorem rowWeight_lower (h1 h2 k : Nat)
    (hk : (0 < k ∧ k < h1) ∨ (h1 ≤ k ∧ k < h1 + h2) ∨ (h2 = 0 ∧ k = h1 ∧ 0 < h1)) :
    1 / ((h1 : ℚ) + h2) ^ 2 ≤ rowWeight h1 h2 k := by
  unfold rowWeight
  rcases hk with ⟨k0, k1⟩ | ⟨k1, k2⟩ | ⟨e2, ek, k0⟩
  · rw [if_pos k1]
    have hh1 : (0 : ℚ) < (h1 : ℚ) := by
      have : 0 < h1 := by omega
      exact_mod_cast this
    have hh2 : (0 : ℚ) ≤ (h2 : ℚ) := Nat.cast_nonneg _
    have hkq : (1 : ℚ) ≤ (k : ℚ) := by exact_mod_cast k0
    rw [div_le_div_iff₀ (by positivity) (by positivity)]
    nlinarith
  · have c1 : ¬ k < h1 := by omega
    have c2 : 0 < h2 := by omega
    rw [if_neg c1, if_pos c2]
    have hh1 : (0 : ℚ) ≤ (h1 : ℚ) := Nat.cast_nonneg _
    have hh2 : (0 : ℚ) < (h2 : ℚ) := by exact_mod_cast c2
    have hkq : (k : ℚ) + 1 ≤ (h1 : ℚ) + h2 := by exact_mod_cast k2
    rw [div_le_div_iff₀ (by positivity) (by positivity)]
    nlinarith
  · have c1 : ¬ k < h1 := by omega
    have c2 : ¬ 0 < h2 := by omega
    rw [if_neg c1, if_neg c2]
    subst e2
    have hh1 : (1 : ℚ) ≤ (h1 : ℚ) := by exact_mod_cast k0
    simp only [Nat.cast_zero, add_zero]
    rw [div_le_div_iff₀ (by positivity) (by positivity)]
    nlinarith

/-- In row `k` the composite edge minus the direct edge, both exact, is the doubled
area times the weight of the row. -/
theorem edge_difference (q0 q1 q2 : Point2D) (h01 : q0.y ≤ q1.y) (h12 : q1.y ≤ q2.y)
    (hh : q0.y < q2.y) (e012 : List ℚ) (he : compositeEdge q0 q1 q2 = some e012) (k : Nat)
    (hk : k ≤ (q2.y - q0.y).toNat) :
    ∃ e f : ℚ, (directEdge q0 q2)[k]? = some e ∧ e012[k]? = some f ∧
      f - e = (doubledArea q0 q1 q2 : ℚ)
        * rowWeight (q1.y - q0.y).toNat (q2.y - q1.y).toNat k := by
  obtain ⟨h1, e1⟩ : ∃ h1 : Nat, q1.y = q0.y + h1 := ⟨(q1.y - q0.y).toNat, by omega⟩
  obtain ⟨h2, e2⟩ : ∃ h2 : Nat, q2.y = q1.y + h2 := ⟨(q2.y - q1.y).toNat, by omega⟩
  have n1 : (q1.y - q0.y).toNat = h1 := by omega
  have n2 : (q2.y - q0.y).toNat = h1 + h2 := by omega
  have n3 : (q2.y - q1.y).toNat = h2 := by omega
  have r1 : (q1.y : ℚ) - q0.y = (h1 : ℚ) := by rw [e1]; push_cast; ring
  have r2 : (q2.y : ℚ) - q1.y = (h2 : ℚ) := by rw [e2]; push_cast; ring
  have r3 : (q2.y : ℚ) - q0.y = (h1 : ℚ) + h2 := by rw [e2, e1]; push_cast; ring
  have hHn : 0 < h1 + h2 := by omega
  have hH : (0 : ℚ) < (h1 : ℚ) + h2 := by exact_mod_cast hHn
  have hc : (doubledArea q0 q1 q2 : ℚ)
      = ((q1.x : ℚ) - q0.x) * ((h1 : ℚ) + h2) - ((q2.x : ℚ) - q0.x) * h1 := by
    unfold doubledArea
    push_cast
    rw [r3, r1]
  obtain ⟨_, he', -, hlow, hhigh, -⟩ := compositeEdge_spec q0 q1 q2 h01 h12
  rw [he, Option.some.injEq] at he'
  subst he'
  rw [n1, r1] at hlow
  rw [n1, n2, r1, r2] at hhigh
  have hdirect := directEdge_getElem? q0 q2 (le_trans h01 h12)
  rw [n2, r3] at hdirect
  rw [n2] at hk
  rw [n1, n3, hc]
  have hkq : (k : ℚ) ≤ (h1 : ℚ) + h2 := by exact_mod_cast hk
  unfold rowWeight
  by_cases cj : k < h1
  · refine ⟨_, _, hdirect k hk, hlow k cj, ?_⟩
    have hh1 : (0 : ℚ) < (h1 : ℚ) := by
      have : 0 < h1 := by omega
      exact_mod_cast this
    rw [if_pos cj]
    field_simp
    ring
  · refine ⟨_, _, hdirect k hk, hhigh k (by omega) hk, ?_⟩
    by_cases c2 : 0 < h2
    · have hh2 : (0 : ℚ) < (h2 : ℚ) := by exact_mod_cast c2
      rw [if_neg cj, if_pos c2]
      field_simp
      ring
    · have z2 : h2 = 0 := by omega
      subst z2
      have ek : k = h1 := by omega
      subst ek
      have hk0 : (0 : ℚ) < (k : ℚ) := by simpa using hH
      rw [if_neg cj, if_neg c2]
      simp only [Nat.cast_zero, add_zero, sub_self, zero_mul]
      field_simp
      ring

/-! ## Which edge is left, on the machine -/

/-- On the machine the comparison at the middle row picks the sides the way the exact
edges lie, as long as the rounding error stays below the least distance that two
distinct exact edges can have there: in every row the exact value behind `x_right`
exceeds the one behind `x_left` by the absolute doubled area times the weight of the
row.  The flat-topped triangle of height one is excluded. -/
theorem edgesM_oriented (fl : ℚ → ℚ) (u : ℚ) (B : Int) (hu : 0 ≤ u) (hfl : RoundsWithin u fl)
    (hB : (2 * (B : ℚ) + 2) * u ≤ 1 / 2) (hBmax : B < 2 ^ 30)
    (hG : 96 * (B : ℚ) ^ 3 * ((B : ℚ) + 1) * u < 1) (q0 q1 q2 : Point2D)
    (h01 : q0.y ≤ q1.y) (h12 : q1.y ≤ q2.y) (w0 : within B q0) (w1 : within B q1)
    (w2 : within B q2) (hh : q0.y < q2.y) (hshape : ¬ (q1.y = q0.y ∧ q2.y = q0.y + 1)) :
    ∃ (x02 x012 e012 : List ℚ) (a b : ℚ),
      directEdgeM fl q0 q2 = some x02 ∧ compositeEdgeM fl q0 q1 q2 = some x012 ∧
      compositeEdge q0 q1 q2 = some e012 ∧
      x02[((q2.y - q0.y).toNat + 1) / 2]? = some a ∧
      x012[((q2.y - q0.y).toNat + 1) / 2]? = some b ∧
      ∀ k : Nat, k ≤ (q2.y - q0.y).toNat → ∃ ml mr el er : ℚ,
        (if a < b then x02 else x012)[k]? = some ml ∧
        (if a < b then x012 else x02)[k]? = some mr ∧
        (if a < b then directEdge q0 q2 else e012)[k]? = some el ∧
        (if a < b then e012 else directEdge q0 q2)[k]? = some er ∧
        |ml - el| ≤ 12 * (B : ℚ) * ((B : ℚ) + 1) * u ∧
        |mr - er| ≤ 12 * (B : ℚ) * ((B : ℚ) + 1) * u ∧
        er - el = |(doubledArea q0 q1 q2 : ℚ)|
          * rowWeight (q1.y - q0.y).toNat (q2.y - q1.y).toNat k := by
  obtain ⟨x02, x012, e012, hx02, hx012, he012, l02, l012, -, -, hclose⟩ :=
    edgesM_close fl u B hu hfl hB hBmax q0 q1 q2 h01 h12 w0 w1 w2
  have hdiffk := edge_difference q0 q1 q2 h01 h12 hh e012 he012
  -- every row: machine values, exact values, closeness and the exact difference
  have hrow : ∀ k : Nat, k ≤ (q2.y - q0.y).toNat → ∃ m e m' e' : ℚ,
      x02[k]? = some m ∧ (directEdge q0 q2)[k]? = some e ∧
      |m - e| ≤ 12 * (B : ℚ) * ((B : ℚ) + 1) * u ∧
      x012[k]? = some m' ∧ e012[k]? = some e' ∧
      |m' - e'| ≤ 12 * (B : ℚ) * ((B : ℚ) + 1) * u ∧
      e' - e = (doubledArea q0 q1 q2 : ℚ)
        * rowWeight (q1.y - q0.y).toNat (q2.y - q1.y).toNat k := by
    intro k hk
    obtain ⟨m, e, m', e', a1, a2, a3, a4, a5, a6⟩ := hclose k hk
    obtain ⟨e2, f2, b1, b2, b3⟩ := hdiffk k hk
    rw [a2, Option.some.injEq] at b1
    rw [a5, Option.some.injEq] at b2
    subst b1
    subst b2
    exact ⟨m, e, m', e', a1, a2, a3, a4, a5, a6, b3⟩
  have hmk : ((q2.y - q0.y).toNat + 1) / 2 ≤ (q2.y - q0.y).toNat := by omega
  obtain ⟨a, ea, b, eb, ha, hea, hca, hb, heb, hcb, hdm⟩ := hrow _ hmk
  refine ⟨x02, x012, e012, a, b, hx02, hx012, he012, ha, hb, ?_⟩
  -- the weight of the middle row exceeds twice the rounding error
  have v0 := w0
  have v2 := w2
  unfold within at v0 v2
  have hsum : (q1.y - q0.y).toNat + (q2.y - q1.y).toNat = (q2.y - q0.y).toNat := by omega
  have hHn : 1 ≤ (q2.y - q0.y).toNat := by omega
  have hH : (1 : ℚ) ≤ ((q1.y - q0.y).toNat : ℚ) + ((q2.y - q1.y).toNat : ℚ) := by
    have : 1 ≤ (q1.y - q0.y).toNat + (q2.y - q1.y).toNat := by omega
    exact_mod_cast this
  have hH2 : ((q1.y - q0.y).toNat : ℚ) + ((q2.y - q1.y).toNat : ℚ) ≤ 2 * (B : ℚ) := by
    have : (((q1.y - q0.y).toNat + (q2.y - q1.y).toNat : Nat) : Int) ≤ 2 * B := by omega
    exact_mod_cast this
  have hBpos : (0 : ℚ) < (B : ℚ) := by linarith
  have hE0 : 0 ≤ 12 * (B : ℚ) * ((B : ℚ) + 1) * u := by positivity
  have hWm : 1 / (((q1.y - q0.y).toNat : ℚ) + ((q2.y - q1.y).toNat : ℚ)) ^ 2
      ≤ rowWeight (q1.y - q0.y).toNat (q2.y - q1.y).toNat (((q2.y - q0.y).toNat + 1) / 2) := by
    apply rowWeight_lower
    by_cases c1 : ((q2.y - q0.y).toNat + 1) / 2 < (q1.y - q0.y).toNat
    · exact Or.inl ⟨by omega, c1⟩
    · by_cases c2 : ((q2.y - q0.y).toNat + 1) / 2 < (q2.y - q0.y).toNat
      · exact Or.inr (Or.inl ⟨by omega, by omega⟩)
      · exact Or.inr (Or.inr ⟨by omega, by omega, by omega⟩)
  have hgap : 2 * (12 * (B : ℚ) * ((B : ℚ) + 1) * u)
      < 1 / (((q1.y - q0.y).toNat : ℚ) + ((q2.y - q1.y).toNat : ℚ)) ^ 2 := by
    rw [lt_div_iff₀ (by positivity)]
    have h4 : (((q1.y - q0.y).toNat : ℚ) + ((q2.y - q1.y).toNat : ℚ)) ^ 2 ≤ (2 * (B : ℚ)) ^ 2 :=
      pow_le_pow_left₀ (by linarith) hH2 2
    have h5 : 2 * (12 * (B : ℚ) * ((B : ℚ) + 1) * u)
        * (((q1.y - q0.y).toNat : ℚ) + ((q2.y - q1.y).toNat : ℚ)) ^ 2
        ≤ 2 * (12 * (B : ℚ) * ((B : ℚ) + 1) * u) * (2 * (B : ℚ)) ^ 2 :=
      mul_le_mul_of_nonneg_left h4 (by linarith)
    have h6 : 2 * (12 * (B : ℚ) * ((B : ℚ) + 1) * u) * (2 * (B : ℚ)) ^ 2
        = 96 * (B : ℚ) ^ 3 * ((B : ℚ) + 1) * u := by ring
    linarith
  have hW : 2 * (12 * (B : ℚ) * ((B : ℚ) + 1) * u)
      < rowWeight (q1.y - q0.y).toNat (q2.y - q1.y).toNat (((q2.y - q0.y).toNat + 1) / 2) :=
    lt_of_lt_of_le hgap hWm
  rw [abs_le] at hca hcb
  by_cases hab : a < b
  · -- the direct edge was taken as left: the doubled area is not negative
    have hc : (0 : ℚ) ≤ (doubledArea q0 q1 q2 : ℚ) := by
      by_contra hneg
      have hi : doubledArea q0 q1 q2 ≤ -1 := by
        have : doubledArea q0 q1 q2 < 0 := by exact_mod_cast (not_le.mp hneg)
        omega
      have hq : (doubledArea q0 q1 q2 : ℚ) ≤ -1 := by exact_mod_cast hi
      have : (doubledArea q0 q1 q2 : ℚ)
          * rowWeight (q1.y - q0.y).toNat (q2.y - q1.y).toNat (((q2.y - q0.y).toNat + 1) / 2)
          ≤ -rowWeight (q1.y - q0.y).toNat (q2.y - q1.y).toNat
            (((q2.y - q0.y).toNat + 1) / 2) := by
        nlinarith
      linarith [hca.1, hca.2, hcb.1, hcb.2]
    intro k hk
    obtain ⟨m, e, m', e', a1, a2, a3, a4, a5, a6, a7⟩ := hrow k hk
    refine ⟨m, m', e, e', ?_, ?_, ?_, ?_, a3, a6, ?_⟩
    · rw [if_pos hab]; exact a1
    · rw [if_pos hab]; exact a4
    · rw [if_pos hab]; exact a2
    · rw [if_pos hab]; exact a5
    · rw [abs_of_nonneg hc]; exact a7
  · -- the composite edge was taken as left: the doubled area is not positive
    have hc : (doubledArea q0 q1 q2 : ℚ) ≤ 0 := by
      by_contra hpos
      have hi : 1 ≤ doubledArea q0 q1 q2 := by
        have : 0 < doubledArea q0 q1 q2 := by exact_mod_cast (not_le.mp hpos)
        omega
      have hq : (1 : ℚ) ≤ (doubledArea q0 q1 q2 : ℚ) := by exact_mod_cast hi
      have : rowWeight (q1.y - q0.y).toNat (q2.y - q1.y).toNat (((q2.y - q0.y).toNat + 1) / 2)
          ≤ (doubledArea q0 q1 q2 : ℚ)
            * rowWeight (q1.y - q0.y).toNat (q2.y - q1.y).toNat
              (((q2.y - q0.y).toNat + 1) / 2) := by
        nlinarith
      have hba : b ≤ a := not_lt.mp hab
      linarith [hca.1, hca.2, hcb.1, hcb.2]
    intro k hk
    obtain ⟨m, e, m', e', a1, a2, a3, a4, a5, a6, a7⟩ := hrow k hk
    refine ⟨m', m, e', e, ?_, ?_, ?_, ?_, a6, a3, ?_⟩
    · rw [if_neg hab]; exact a4
    · rw [if_neg hab]; exact a1
    · rw [if_neg hab]; exact a5
    · rw [if_neg hab]; exact a2
    · rw [abs_of_nonpos hc]; linarith

/-- The three compare-and-swap steps change the doubled area at most in its sign. -/
theorem doubledArea_sortPoints (p0 p1 p2 : Point2D) :
    doubledArea (sortPoints p0 p1 p2).1 (sortPoints p0 p1 p2).2.1 (sortPoints p0 p1 p2).2.2
        = doubledArea p0 p1 p2 ∨
      doubledArea (sortPoints p0 p1 p2).1 (sortPoints p0 p1 p2).2.1 (sortPoints p0 p1 p2).2.2
        = -doubledArea p0 p1 p2 := by
  unfold sortPoints
  dsimp only
  split_ifs <;> unfold doubledArea <;> dsimp only <;> first
    | (left; ring1)
    | (right; ring1)

theorem gap_exceeds_error (u : ℚ) (B : Int) (hu : 0 ≤ u)
    (hG : 96 * (B : ℚ) ^ 3 * ((B : ℚ) + 1) * u < 1) (h1 h2 : Nat) (hH : 1 ≤ h1 + h2)
    (hH2 : ((h1 + h2 : Nat) : Int) ≤ 2 * B) :
    2 * (12 * (B : ℚ) * ((B : ℚ) + 1) * u) < 1 / ((h1 : ℚ) + h2) ^ 2 := by
  have hHq : (1 : ℚ) ≤ (h1 : ℚ) + h2 := by exact_mod_cast hH
  have hH2q : (h1 : ℚ) + h2 ≤ 2 * (B : ℚ) := by exact_mod_cast hH2
  have hBpos : (0 : ℚ) < (B : ℚ) := by linarith
  have hE0 : 0 ≤ 12 * (B : ℚ) * ((B : ℚ) + 1) * u := by positivity
  rw [lt_div_iff₀ (by positivity)]
  have h4 : ((h1 : ℚ) + h2) ^ 2 ≤ (2 * (B : ℚ)) ^ 2 := pow_le_pow_left₀ (by linarith) hH2q 2
  have h5 : 2 * (12 * (B : ℚ) * ((B : ℚ) + 1) * u) * ((h1 : ℚ) + h2) ^ 2
      ≤ 2 * (12 * (B : ℚ) * ((B : ℚ) + 1) * u) * (2 * (B : ℚ)) ^ 2 :=
    mul_le_mul_of_nonneg_left h4 (by linarith)
  have h6 : 2 * (12 * (B : ℚ) * ((B : ℚ) + 1) * u) * (2 * (B : ℚ)) ^ 2
      = 96 * (B : ℚ) ^ 3 * ((B : ℚ) + 1) * u := by ring
  linarith

theorem sorted_rows_strict (p0 p1 p2 q0 q1 q2 : Point2D) (h01 : q0.y ≤ q1.y)
    (h12 : q1.y ≤ q2.y) (hperm : [q0, q1, q2].Perm [p0, p1, p2])
    (d01 : p0.y ≠ p1.y) (d02 : p0.y ≠ p2.y) (d12 : p1.y ≠ p2.y) : q0.y < q1.y ∧ q1.y < q2.y := by
  have hnd : ([p0, p1, p2].map Point2D.y).Nodup := by
    simp only [List.map_cons, List.map_nil, List.nodup_cons, List.mem_cons, List.mem_singleton,
      List.not_mem_nil, or_false, not_false_eq_true, List.nodup_nil, and_true, not_or]
    exact ⟨⟨d01, d02⟩, d12⟩
  have hnd2 := ((hperm.map Point2D.y).nodup_iff).mpr hnd
  simp only [List.map_cons, List.map_nil, List.nodup_cons, List.mem_cons, List.mem_singleton,
    List.not_mem_nil, or_false, not_false_eq_true, List.nodup_nil, and_true, not_or] at hnd2
  obtain ⟨⟨a, -⟩, b⟩ := hnd2
  constructor <;> omega

/-- C16, as the code has it.  Let every floating operation be rounded by `fl` with
relative error at most `2 ^ -53` (`double` arithmetic; exact arithmetic is the case
`fl t = t`).  For three points with pairwise distinct rows and coordinates between
`-2048` and `2048`, the comparison at the middle row yields `x_left` and `x_right` with
`x_left[k] ≤ x_right[k]` in the top row and in the compared row; in every row but the
bottom one when the points are not collinear; and in every row
`0 ≤ k ≤ p2.y - p0.y` (sorted points) in exact arithmetic. -/
theorem leftRightEdgesM_ordered (fl : ℚ → ℚ) (hfl : RoundsWithin (1 / 2 ^ 53) fl)
    (p0 p1 p2 : Point2D) (w0 : within 2048 p0) (w1 : within 2048 p1) (w2 : within 2048 p2)
    (d01 : p0.y ≠ p1.y) (d02 : p0.y ≠ p2.y) (d12 : p1.y ≠ p2.y) :
    ∃ x_left x_right : List ℚ,
      leftRightEdgesM fl (sortPoints p0 p1 p2).1 (sortPoints p0 p1 p2).2.1
        (sortPoints p0 p1 p2).2.2 = some (x_left, x_right) ∧
      ∀ k : Nat, (k : Int) ≤ (sortPoints p0 p1 p2).2.2.y - (sortPoints p0 p1 p2).1.y →
        ∃ xl xr : ℚ, x_left[k]? = some xl ∧ x_right[k]? = some xr ∧
          (k = 0 ∨ k = (((sortPoints p0 p1 p2).2.2.y - (sortPoints p0 p1 p2).1.y).toNat + 1) / 2 →
            xl ≤ xr) ∧
          (doubledArea p0 p1 p2 ≠ 0 →
            (k : Int) < (sortPoints p0 p1 p2).2.2.y - (sortPoints p0 p1 p2).1.y → xl ≤ xr) ∧
          ((∀ t : ℚ, fl t = t) → xl ≤ xr) := by
  have harea := doubledArea_sortPoints p0 p1 p2
  obtain ⟨q0, q1, q2, hs, h01, h12, hperm⟩ := sortPoints_cases p0 p1 p2
  rw [hs] at harea ⊢
  dsimp only at harea ⊢
  obtain ⟨B, hBdef⟩ : ∃ B : Int, B = 2048 := ⟨_, rfl⟩
  rw [← hBdef] at w0 w1 w2
  obtain ⟨v0, v1, v2⟩ := within_of_perm B p0 p1 p2 q0 q1 q2 hperm w0 w1 w2
  obtain ⟨s01, s12⟩ := sorted_rows_strict p0 p1 p2 q0 q1 q2 h01 h12 hperm d01 d02 d12
  have hu : (0 : ℚ) ≤ 1 / 2 ^ 53 := by norm_num
  have hB : (2 * (B : ℚ) + 2) * (1 / 2 ^ 53) ≤ 1 / 2 := by rw [hBdef]; norm_num
  have hBmax : B < 2 ^ 30 := by rw [hBdef]; norm_num
  have hG : 96 * (B : ℚ) ^ 3 * ((B : ℚ) + 1) * (1 / 2 ^ 53) < 1 := by rw [hBdef]; norm_num
  have hB0 : (2 * (B : ℚ) + 2) * 0 ≤ 1 / 2 := by norm_num
  have hG0 : 96 * (B : ℚ) ^ 3 * ((B : ℚ) + 1) * 0 < 1 := by norm_num
  have hshape : ¬ (q1.y = q0.y ∧ q2.y = q0.y + 1) := fun hc => by omega
  obtain ⟨x02, x012, e012, a, b, hx02, hx012, he012, ha, hb, hrows⟩ :=
    edgesM_oriented fl _ B hu hfl hB hBmax hG q0 q1 q2 h01 h12 v0 v1 v2 (by omega) hshape
  obtain ⟨y02, y012, -, hy02, hy012, -, l02, l012, st02, st012, -⟩ :=
    edgesM_close fl _ B hu hfl hB hBmax q0 q1 q2 h01 h12 v0 v1 v2
  rw [hx02, Option.some.injEq] at hy02
  rw [hx012, Option.some.injEq] at hy012
  subst hy02
  subst hy012
  obtain ⟨a', b', ha', hb', hlr⟩ := leftRightEdgesM_spec fl q0 q1 q2 x02 x012 hx02 hx012 l02 l012
  rw [ha, Option.some.injEq] at ha'
  rw [hb, Option.some.injEq] at hb'
  subst ha'
  subst hb'
  refine ⟨(if a < b then (x02, x012) else (x012, x02)).1,
    (if a < b then (x02, x012) else (x012, x02)).2, hlr, ?_⟩
  have hL : (if a < b then (x02, x012) else (x012, x02)).1 = if a < b then x02 else x012 := by
    split <;> rfl
  have hR : (if a < b then (x02, x012) else (x012, x02)).2 = if a < b then x012 else x02 := by
    split <;> rfl
  rw [hL, hR]
  intro k hk
  have hk' : k ≤ (q2.y - q0.y).toNat := by omega
  obtain ⟨ml, mr, el, er, hml, hmr, hel, her, cl, cr, hd⟩ := hrows k hk'
  have hsum : (q1.y - q0.y).toNat + (q2.y - q1.y).toNat = (q2.y - q0.y).toNat := by omega
  have hW0 := rowWeight_nonneg (q1.y - q0.y).toNat (q2.y - q1.y).toNat k (by omega)
  refine ⟨ml, mr, hml, hmr, ?_, ?_, ?_⟩
  · rintro (h0 | hm)
    · -- the top row: both edges start at the `x` of the top point
      subst h0
      rw [if_neg (by omega : ¬ q0.y = q1.y)] at st012
      have e1 : ml = (q0.x : ℚ) := by
        split at hml
        · rw [st02, Option.some.injEq] at hml; exact hml.symm
        · rw [st012, Option.some.injEq] at hml; exact hml.symm
      have e2 : mr = (q0.x : ℚ) := by
        split at hmr
        · rw [st012, Option.some.injEq] at hmr; exact hmr.symm
        · rw [st02, Option.some.injEq] at hmr; exact hmr.symm
      rw [e1, e2]
    · -- the compared row
      subst hm
      by_cases hab : a < b
      · rw [if_pos hab, ha, Option.some.injEq] at hml
        rw [if_pos hab, hb, Option.some.injEq] at hmr
        rw [← hml, ← hmr]
        exact le_of_lt hab
      · rw [if_neg hab, hb, Option.some.injEq] at hml
        rw [if_neg hab, ha, Option.some.injEq] at hmr
        rw [← hml, ← hmr]
        exact not_lt.mp hab
  · intro hc hlt
    by_cases h0 : k = 0
    · subst h0
      rw [if_neg (by omega : ¬ q0.y = q1.y)] at st012
      have e1 : ml = (q0.x : ℚ) := by
        split at hml
        · rw [st02, Option.some.injEq] at hml; exact hml.symm
        · rw [st012, Option.some.injEq] at hml; exact hml.symm
      have e2 : mr = (q0.x : ℚ) := by
        split at hmr
        · rw [st012, Option.some.injEq] at hmr; exact hmr.symm
        · rw [st02, Option.some.injEq] at hmr; exact hmr.symm
      rw [e1, e2]
    · have hcq : doubledArea q0 q1 q2 ≠ 0 := by
        rcases harea with h | h <;> rw [h] <;> omega
      have habs : (1 : ℚ) ≤ |(doubledArea q0 q1 q2 : ℚ)| := by
        have : 1 ≤ |doubledArea q0 q1 q2| := Int.one_le_abs hcq
        exact_mod_cast this
      have hW := rowWeight_lower (q1.y - q0.y).toNat (q2.y - q1.y).toNat k (by omega)
      have hgap := gap_exceeds_error (1 / 2 ^ 53) B hu hG (q1.y - q0.y).toNat
        (q2.y - q1.y).toNat (by omega) (by unfold within at v0 v2; omega)
      rw [abs_le] at cl cr
      nlinarith
  · intro hexact
    have hfl0 : RoundsWithin 0 fl := by
      intro t
      rw [hexact t]
      simp
    obtain ⟨y02, y012, f012, a', b', hy02, hy012, -, ha', hb', hrows'⟩ :=
      edgesM_oriented fl 0 B (le_refl _) hfl0 hB0 hBmax hG0 q0 q1 q2 h01 h12 v0 v1 v2 (by omega)
        hshape
    rw [hx02, Option.some.injEq] at hy02
    rw [hx012, Option.some.injEq] at hy012
    subst hy02
    subst hy012
    rw [ha, Option.some.injEq] at ha'
    rw [hb, Option.some.injEq] at hb'
    subst ha'
    subst hb'
    obtain ⟨ml', mr', el', er', hml', hmr', -, -, cl', cr', hd'⟩ := hrows' k hk'
    rw [hml, Option.some.injEq] at hml'
    rw [hmr, Option.some.injEq] at hmr'
    subst hml'
    subst hmr'
    simp only [mul_zero] at cl' cr'
    have z1 : ml - el' = 0 := abs_eq_zero.mp (le_antisymm cl' (abs_nonneg _))
    have z2 : mr - er' = 0 := abs_eq_zero.mp (le_antisymm cr' (abs_nonneg _))
    have : 0 ≤ |(doubledArea q0 q1 q2 : ℚ)|
        * rowWeight (q1.y - q0.y).toNat (q2.y - q1.y).toNat k :=
      mul_nonneg (abs_nonneg _) hW0
    linarith

/-- C16 refuted as stated.  The points `(0, 3)`, `(1, 2)`, `(5, 0)` have pairwise
distinct rows.  In `double` arithmetic the two edges end, in the bottom row `k = 3`,
at `x_left[3] = 0` and `x_right[3] = -2 ^ -51`: the left value exceeds the right
one. -/
theorem leftRightEdgesM_bottom_row_swapped :
    sortPoints ⟨0, 3⟩ ⟨1, 2⟩ ⟨5, 0⟩ = (⟨5, 0⟩, ⟨1, 2⟩, ⟨0, 3⟩) ∧
    (leftRightEdgesM roundDouble ⟨5, 0⟩ ⟨1, 2⟩ ⟨0, 3⟩).bind (fun (e : List ℚ × List ℚ) => e.1[3]?) = some (0 : ℚ) ∧
    (leftRightEdgesM roundDouble ⟨5, 0⟩ ⟨1, 2⟩ ⟨0, 3⟩).bind (fun (e : List ℚ × List ℚ) => e.2[3]?)
      = some (-(1 / 2 ^ 51) : ℚ) ∧
    ¬ ((0 : ℚ) ≤ -(1 / 2 ^ 51)) := by
  refine ⟨by decide, by decide!, by decide!, by norm_num⟩

/-! ## Integers are not rounded -/

theorem roundHalfEven_intCast (m : Int) : roundHalfEven (m : ℚ) = m := by
  unfold roundHalfEven
  simp

/-- An integer of fewer than `prec` bits is a value of the format: rounding leaves it
unchanged. -/
theorem roundToBits_intCast (prec : Nat) (n : Int) (hn : |n| < 2 ^ prec) :
    roundToBits prec (n : ℚ) = n := by
  unfold roundToBits
  split_ifs with h0
  · exact h0.symm
  · dsimp only
    have hbe := binaryExponent_le (n : ℚ) h0
    have habs : |(n : ℚ)| < (2 : ℚ) ^ (prec : Int) := by
      rw [zpow_natCast]
      exact_mod_cast hn
    have hlt : binaryExponent (n : ℚ) < (prec : Int) := by
      by_contra hge
      have : (2 : ℚ) ^ (prec : Int) ≤ (2 : ℚ) ^ binaryExponent (n : ℚ) :=
        zpow_le_zpow_right₀ (by norm_num) (not_lt.mp hge)
      linarith
    obtain ⟨j, hj⟩ : ∃ j : Nat, binaryExponent (n : ℚ) - ((prec : Int) - 1) = -(j : Int) :=
      ⟨(-(binaryExponent (n : ℚ) - ((prec : Int) - 1))).toNat, by omega⟩
    rw [hj, zpow_neg, zpow_natCast]
    have hpos : (0 : ℚ) < (2 : ℚ) ^ j := by positivity
    have e1 : (n : ℚ) / ((2 : ℚ) ^ j)⁻¹ = ((n * 2 ^ j : Int) : ℚ) := by
      push_cast
      field_simp
    rw [e1, roundHalfEven_intCast]
    push_cast
    field_simp

theorem roundDouble_intCast (n : Int) (hn : |n| < 2 ^ 53) : roundDouble (n : ℚ) = n :=
  roundToBits_intCast 53 n hn

/-! ## Rows that receive a pixel -/

/-- A row whose right end is not negative and not left of its left end receives the
pixel at the converted left end. -/
theorem row_nonempty (ml mr : ℚ) (h : ml ≤ mr) (h0 : 0 ≤ mr) :
    ((truncToInt ml : Int) : ℚ) ≤ mr := by
  by_cases hm : 0 ≤ ml
  · exact le_trans (truncToInt_le_self_of_nonneg ml hm) h
  · have : truncToInt ml ≤ 0 := truncToInt_le ml 0 (by push_cast; linarith)
    have : ((truncToInt ml : Int) : ℚ) ≤ 0 := by exact_mod_cast this
    linarith

/-- Over one row an edge between integer points ends exactly, provided the rounding
leaves integers unchanged. -/
theorem accumulated_one_exact (fl : ℚ → ℚ) (hfi : ∀ n : Int, |n| < 2 ^ 53 → fl (n : ℚ) = n)
    (x y : Int) (B : Int) (hB : B < 2 ^ 30) (hx : -B ≤ x ∧ x ≤ B) (hy : -B ≤ y ∧ y ≤ B)
    (n : ℚ) (hn : n = 1) :
    accumulated fl (fl (fl ((y : ℚ) - x) / n)) x 1 = y := by
  have e1 : fl ((y : ℚ) - x) = ((y - x : Int) : ℚ) := by
    have := hfi (y - x) (by rw [abs_lt]; constructor <;> omega)
    push_cast at this ⊢
    exact this
  have e2 : fl (((y - x : Int) : ℚ)) = ((y - x : Int) : ℚ) :=
    hfi (y - x) (by rw [abs_lt]; constructor <;> omega)
  have e3 : fl (y : ℚ) = y := hfi y (by rw [abs_lt]; constructor <;> omega)
  show fl ((x : ℚ) + fl (fl ((y : ℚ) - x) / n)) = y
  rw [hn, div_one, e1, e2]
  have : (x : ℚ) + ((y - x : Int) : ℚ) = y := by push_cast; ring
  rw [this, e3]

theorem sorted_rows_of_area (q0 q1 q2 : Point2D) (h01 : q0.y ≤ q1.y) (h12 : q1.y ≤ q2.y)
    (harea : doubledArea q0 q1 q2 ≠ 0) : q0.y < q2.y := by
  by_contra hcon
  have e1 : q1.y = q0.y := by omega
  have e2 : q2.y = q0.y := by omega
  apply harea
  unfold doubledArea
  rw [e1, e2]
  ring

/-- On the machine, for sorted points that are not collinear and have no negative `x`,
every row but the bottom one has a left end whose conversion to `int` is not right of
the right end, so the row receives a pixel; with `u = 0` so does the bottom row.  The
flat-topped triangle of height one is admitted when its top points are in the order
right, left. -/
theorem rowsM_nonempty (fl : ℚ → ℚ) (u : ℚ) (B : Int) (hu : 0 ≤ u) (hfl : RoundsWithin u fl)
    (hB : (2 * (B : ℚ) + 2) * u ≤ 1 / 2) (hBmax : B < 2 ^ 30)
    (hG : 96 * (B : ℚ) ^ 3 * ((B : ℚ) + 1) * u < 1)
    (hfi : ∀ n : Int, |n| < 2 ^ 53 → fl (n : ℚ) = n) (q0 q1 q2 : Point2D)
    (h01 : q0.y ≤ q1.y) (h12 : q1.y ≤ q2.y) (w0 : within B q0) (w1 : within B q1)
    (w2 : within B q2) (g0 : 0 ≤ q0.x) (g1 : 0 ≤ q1.x) (g2 : 0 ≤ q2.x)
    (harea : doubledArea q0 q1 q2 ≠ 0)
    (hshape : ¬ (q1.y = q0.y ∧ q2.y = q0.y + 1 ∧ q0.x < q1.x))
    (x02 x012 : List ℚ) (hx02 : directEdgeM fl q0 q2 = some x02)
    (hx012 : compositeEdgeM fl q0 q1 q2 = some x012) (a b : ℚ)
    (ha : x02[((q2.y - q0.y).toNat + 1) / 2]? = some a)
    (hb : x012[((q2.y - q0.y).toNat + 1) / 2]? = some b) (k : Nat)
    (hk : k ≤ (q2.y - q0.y).toNat) (hlast : k < (q2.y - q0.y).toNat ∨ u = 0) :
    ∃ ml mr : ℚ, (if a < b then x02 else x012)[k]? = some ml ∧
      (if a < b then x012 else x02)[k]? = some mr ∧ ((truncToInt ml : Int) : ℚ) ≤ mr := by
  have hh := sorted_rows_of_area q0 q1 q2 h01 h12 harea
  have v0 := w0
  have v1 := w1
  have v2 := w2
  unfold within at v0 v1 v2
  have hmax : q2.y < INT_MAX := by unfold INT_MAX; omega
  have hdiff : isInt (q2.y - q0.y) := by unfold isInt INT_MIN INT_MAX; omega
  have q0x : (0 : ℚ) ≤ (q0.x : ℚ) := by exact_mod_cast g0
  have q1x : (0 : ℚ) ≤ (q1.x : ℚ) := by exact_mod_cast g1
  have q2x : (0 : ℚ) ≤ (q2.x : ℚ) := by exact_mod_cast g2
  by_cases hft : q1.y = q0.y ∧ q2.y = q0.y + 1
  · -- the flat-topped triangle of height one: every value is an integer
    obtain ⟨f1, f2⟩ := hft
    have hx10 : q1.x ≤ q0.x := by
      by_contra hc
      exact hshape ⟨f1, f2, by omega⟩
    have hn1 : (q2.y - q0.y).toNat = 1 := by omega
    have hn0 : (q1.y - q0.y).toNat = 0 := by omega
    have r02 : (q2.y : ℚ) - q0.y = 1 := by rw [f2]; push_cast; ring
    have r12 : (q2.y : ℚ) - q1.y = 1 := by rw [f2, f1]; push_cast; ring
    obtain ⟨y02, hy02, -, v02⟩ := directEdgeM_spec fl q0 q2 (le_trans h01 h12) hmax hdiff
    obtain ⟨-, -, y012, -, -, -, hy012, -, -, -, vhigh⟩ :=
      compositeEdgeM_spec fl q0 q1 q2 h01 h12 hmax hdiff
    rw [hx02, Option.some.injEq] at hy02
    rw [hx012, Option.some.injEq] at hy012
    subst hy02
    subst hy012
    rw [hn1] at v02 vhigh ha hb hk
    rw [hn0] at vhigh
    have a0 : x02[0]? = some (q0.x : ℚ) := v02 0 (by omega)
    have a1 : x02[1]? = some (q2.x : ℚ) := by
      rw [v02 1 (le_refl _), accumulated_one_exact fl hfi q0.x q2.x B hBmax ⟨v0.1, v0.2.1⟩
        ⟨v2.1, v2.2.1⟩ _ r02]
    have b0 : x012[0]? = some (q1.x : ℚ) := vhigh 0 (by omega) (by omega)
    have b1 : x012[1]? = some (q2.x : ℚ) := by
      rw [vhigh 1 (by omega) (le_refl _), accumulated_one_exact fl hfi q1.x q2.x B hBmax
        ⟨v1.1, v1.2.1⟩ ⟨v2.1, v2.2.1⟩ _ r12]
    have hm : (1 + 1) / 2 = 1 := rfl
    rw [hm, a1, Option.some.injEq] at ha
    rw [hm, b1, Option.some.injEq] at hb
    have hab : ¬ a < b := by rw [← ha, ← hb]; exact lt_irrefl _
    simp only [if_neg hab]
    have hk01 : k = 0 ∨ k = 1 := by omega
    rcases hk01 with rfl | rfl
    · refine ⟨_, _, b0, a0, ?_⟩
      rw [truncToInt_intCast]
      exact_mod_cast hx10
    · refine ⟨_, _, b1, a1, ?_⟩
      rw [truncToInt_intCast]
  · -- every other shape: the sides are picked the way the exact edges lie
    obtain ⟨y02, y012, e012, a', b', hy02, hy012, he012, ha', hb', hrows⟩ :=
      edgesM_oriented fl u B hu hfl hB hBmax hG q0 q1 q2 h01 h12 w0 w1 w2 hh hft
    obtain ⟨z02, z012, -, hz02, hz012, -, -, -, st02, st012, -⟩ :=
      edgesM_close fl u B hu hfl hB hBmax q0 q1 q2 h01 h12 w0 w1 w2
    rw [hx02, Option.some.injEq] at hy02 hz02
    rw [hx012, Option.some.injEq] at hy012 hz012
    subst hy02
    subst hy012
    subst hz02
    subst hz012
    rw [ha, Option.some.injEq] at ha'
    rw [hb, Option.some.injEq] at hb'
    subst ha'
    subst hb'
    obtain ⟨ml, mr, el, er, hml, hmr, hel, her, cl, cr, hd⟩ := hrows k hk
    refine ⟨ml, mr, hml, hmr, ?_⟩
    have hsum : (q1.y - q0.y).toNat + (q2.y - q1.y).toNat = (q2.y - q0.y).toNat := by omega
    have hW0 := rowWeight_nonneg (q1.y - q0.y).toNat (q2.y - q1.y).toNat k (by omega)
    have hcw : 0 ≤ |(doubledArea q0 q1 q2 : ℚ)|
        * rowWeight (q1.y - q0.y).toNat (q2.y - q1.y).toNat k :=
      mul_nonneg (abs_nonneg _) hW0
    -- the exact values are not negative
    obtain ⟨_, he', -, -, -, hcomp⟩ := compositeEdge_spec q0 q1 q2 h01 h12
    rw [he012, Option.some.injEq] at he'
    subst he'
    have hdir0 : ∀ w ∈ directEdge q0 q2, (0 : ℚ) ≤ w := fun w hw =>
      (Interpolate_mem_between _ _ _ _ 0 (max (q0.x : ℚ) q2.x) (le_trans h01 h12) q0x q2x
        (le_max_left _ _) (le_max_right _ _) w hw).1
    have hcmp0 : ∀ w ∈ e012, (0 : ℚ) ≤ w := fun w hw =>
      (hcomp w hw 0 (max (q0.x : ℚ) (max (q1.x : ℚ) q2.x)) q0x q1x q2x (le_max_left _ _)
        (le_trans (le_max_left _ _) (le_max_right _ _))
        (le_trans (le_max_right _ _) (le_max_right _ _))).1
    have hel0 : 0 ≤ el := by
      have := List.getElem?_mem hel
      split at this
      · exact hdir0 el this
      · exact hcmp0 el this
    rw [abs_le] at cl cr
    rcases hlast with hlt | hu0
    · by_cases htop : k = 0 ∧ 0 < (q1.y - q0.y).toNat
      · -- the top row below a single top point: both edges start there
        obtain ⟨k0, hpos⟩ := htop
        subst k0
        rw [if_neg (by omega : ¬ q0.y = q1.y)] at st012
        have e1 : ml = (q0.x : ℚ) := by
          split at hml
          · rw [st02, Option.some.injEq] at hml; exact hml.symm
          · rw [st012, Option.some.injEq] at hml; exact hml.symm
        have e2 : mr = (q0.x : ℚ) := by
          split at hmr
          · rw [st012, Option.some.injEq] at hmr; exact hmr.symm
          · rw [st02, Option.some.injEq] at hmr; exact hmr.symm
        rw [e1, e2, truncToInt_intCast]
      · have hW := rowWeight_lower (q1.y - q0.y).toNat (q2.y - q1.y).toNat k (by omega)
        have hgap := gap_exceeds_error u B hu hG (q1.y - q0.y).toNat (q2.y - q1.y).toNat
          (by omega) (by omega)
        have habs : (1 : ℚ) ≤ |(doubledArea q0 q1 q2 : ℚ)| := by
          have : 1 ≤ |doubledArea q0 q1 q2| := Int.one_le_abs harea
          exact_mod_cast this
        have hE0 : 0 ≤ 12 * (B : ℚ) * ((B : ℚ) + 1) * u := by
          have : (0 : ℚ) ≤ (B : ℚ) := by
            have : (0 : Int) ≤ B := by omega
            exact_mod_cast this
          positivity
        have hdw : rowWeight (q1.y - q0.y).toNat (q2.y - q1.y).toNat k ≤ er - el := by
          rw [hd]
          nlinarith
        exact row_nonempty ml mr (by linarith) (by linarith)
    · subst hu0
      simp only [mul_zero] at cl cr
      exact row_nonempty ml mr (by linarith) (by linarith)

/-! ## The rows that `DrawFilledTriangle` fills, on the machine -/

theorem nonneg_of_perm (p0 p1 p2 q0 q1 q2 : Point2D)
    (hperm : [q0, q1, q2].Perm [p0, p1, p2]) (hx : 0 ≤ p0.x ∧ 0 ≤ p1.x ∧ 0 ≤ p2.x) :
    0 ≤ q0.x ∧ 0 ≤ q1.x ∧ 0 ≤ q2.x := by
  have key : ∀ q ∈ [q0, q1, q2], 0 ≤ q.x := by
    intro q hq
    have := hperm.mem_iff.mp hq
    simp only [List.mem_cons, List.mem_singleton, List.not_mem_nil, or_false] at this
    rcases this with h | h | h <;> subst h <;> omega
  exact ⟨key q0 (by simp), key q1 (by simp), key q2 (by simp)⟩

/-- C11, as the code has it.  Take three points, degenerate triangles included, whose
bottom row is below `INT_MAX` and whose height `maxY - minY` fits `int`.  Whatever the
rounding `fl`, `DrawFilledTriangle` stays inside its vectors and never divides by zero:
the three calls of `Interpolate` return; `pop_back` meets a non-empty `x01`; `x012` and
`x02` both have `p2.y - p0.y + 1` elements (sorted points); the index
`m = x02.size() / 2` is valid in both; every index `y - p0.y` of the drawing loop is
valid in `x_left` and in `x_right`; and the divisor of `Interpolate` is never zero.
When moreover the rounding has relative error at most `2 ^ -53` (`double` or exact
arithmetic) and the coordinates lie between `-2 ^ 24` and `2 ^ 24`, every value read
from `x_left` converts to an `int`, no row ends at `INT_MAX`, and the call returns. -/
theorem DrawFilledTriangleM_safe (fl : ℚ → ℚ) (p0 p1 p2 : Point2D) (color : Int)
    (hrow : maxY p0 p1 p2 < INT_MAX) (hheight : isInt (maxY p0 p1 p2 - minY p0 p1 p2)) :
    ∃ (q0 q1 q2 : Point2D) (x01 x12 x02 x012 x_left x_right : List ℚ),
      sortPoints p0 p1 p2 = (q0, q1, q2) ∧
      InterpolateM fl q0.y (q0.x : ℚ) q1.y (q1.x : ℚ) = some x01 ∧
      InterpolateM fl q1.y (q1.x : ℚ) q2.y (q2.x : ℚ) = some x12 ∧
      InterpolateM fl q0.y (q0.x : ℚ) q2.y (q2.x : ℚ) = some x02 ∧
      x01 ≠ [] ∧
      compositeEdgeM fl q0 q1 q2 = some x012 ∧ x012 = x01.dropLast ++ x12 ∧
      (x012.length : Int) = q2.y - q0.y + 1 ∧
      (x02.length : Int) = q2.y - q0.y + 1 ∧
      (∃ a b : ℚ, indexAt x02 ((x02.length / 2 : Nat) : Int) = some a ∧
        indexAt x012 ((x02.length / 2 : Nat) : Int) = some b) ∧
      leftRightEdgesM fl q0 q1 q2 = some (x_left, x_right) ∧
      (∀ y : Int, q0.y ≤ y → y ≤ q2.y →
        ∃ xl xr : ℚ, indexAt x_left (y - q0.y) = some xl ∧
          indexAt x_right (y - q0.y) = some xr) ∧
      (∀ i0 i1 : Int, interpolateDivisor i0 i1 ≠ 0) ∧
      (∀ (i0 i1 : Int) (d0 d1 : ℚ), i0 < i1 → i1 < INT_MAX → isInt (i1 - i0) →
        InterpolateM fl i0 d0 i1 d1
          = some (interpolateLoopM fl (fl (fl (d1 - d0) / (interpolateDivisor i0 i1 : ℚ)))
              (i1 + 1 - i0).toNat d0)) ∧
      (RoundsWithin (1 / 2 ^ 53) fl → within (2 ^ 24) p0 → within (2 ^ 24) p1 →
        within (2 ^ 24) p2 →
        (∀ y : Int, q0.y ≤ y → y ≤ q2.y →
          ∃ xl xr : ℚ, indexAt x_left (y - q0.y) = some xl ∧
            indexAt x_right (y - q0.y) = some xr ∧ toInt xl = some (truncToInt xl) ∧
            ⌊xr⌋ < INT_MAX) ∧
        ∃ pixels : List Pixel, DrawFilledTriangleM fl p0 p1 p2 color = some pixels) := by
  obtain ⟨q0, q1, q2, hs, h01, h12, hperm⟩ := sortPoints_cases p0 p1 p2
  obtain ⟨ey0, ey2⟩ := sorted_extremes p0 p1 p2 q0 q1 q2 h01 h12 hperm
  have hmax : q2.y < INT_MAX := by rw [ey2]; exact hrow
  have hdiff : isInt (q2.y - q0.y) := by rw [ey2, ey0]; exact hheight
  obtain ⟨x01, x12, x012, e01, e12, hne, hx012, hcat, l012, -, -⟩ :=
    compositeEdgeM_spec fl q0 q1 q2 h01 h12 hmax hdiff
  obtain ⟨x02, hx02, l02, -⟩ := directEdgeM_spec fl q0 q2 (le_trans h01 h12) hmax hdiff
  obtain ⟨a, b, ha, hb, hlr⟩ := leftRightEdgesM_spec fl q0 q1 q2 x02 x012 hx02 hx012 l02 l012
  have hll : ((if a < b then (x02, x012) else (x012, x02)).1).length
      = (q2.y - q0.y).toNat + 1 := by split <;> assumption
  have hlr' : ((if a < b then (x02, x012) else (x012, x02)).2).length
      = (q2.y - q0.y).toNat + 1 := by split <;> assumption
  -- every index of the drawing loop finds a value in both vectors
  have hidx : ∀ y : Int, q0.y ≤ y → y ≤ q2.y → ∃ xl xr : ℚ,
      ((if a < b then (x02, x012) else (x012, x02)).1)[(y - q0.y).toNat]? = some xl ∧
      ((if a < b then (x02, x012) else (x012, x02)).2)[(y - q0.y).toNat]? = some xr ∧
      indexAt (if a < b then (x02, x012) else (x012, x02)).1 (y - q0.y) = some xl ∧
      indexAt (if a < b then (x02, x012) else (x012, x02)).2 (y - q0.y) = some xr := by
    intro y hy0 hy2
    have e : y - q0.y = (((y - q0.y).toNat : Nat) : Int) := by omega
    have hk : (y - q0.y).toNat < (q2.y - q0.y).toNat + 1 := by omega
    obtain ⟨xl, hxl⟩ : ∃ xl,
        ((if a < b then (x02, x012) else (x012, x02)).1)[(y - q0.y).toNat]? = some xl := by
      rw [List.getElem?_eq_getElem (by omega)]
      exact ⟨_, rfl⟩
    obtain ⟨xr, hxr⟩ : ∃ xr,
        ((if a < b then (x02, x012) else (x012, x02)).2)[(y - q0.y).toNat]? = some xr := by
      rw [List.getElem?_eq_getElem (by omega)]
      exact ⟨_, rfl⟩
    refine ⟨xl, xr, hxl, hxr, ?_, ?_⟩
    · rw [e, indexAt_natCast]; exact hxl
    · rw [e, indexAt_natCast]; exact hxr
  refine ⟨q0, q1, q2, x01, x12, x02, x012, (if a < b then (x02, x012) else (x012, x02)).1,
    (if a < b then (x02, x012) else (x012, x02)).2, hs, e01, e12, hx02, hne, hx012,
    hcat, ?_, ?_, ⟨a, b, ?_, ?_⟩, hlr, ?_, ?_, ?_, ?_⟩
  · rw [l012]; push_cast; omega
  · rw [l02]; push_cast; omega
  · rw [indexAt_natCast, l02]; exact ha
  · rw [indexAt_natCast, l02]; exact hb
  · intro y hy0 hy2
    obtain ⟨xl, xr, -, -, h1, h2⟩ := hidx y hy0 hy2
    exact ⟨xl, xr, h1, h2⟩
  · intro i0 i1
    unfold interpolateDivisor
    dsimp only
    split <;> omega
  · intro i0 i1 d0 d1 hlt hmx hd
    rw [InterpolateM_of_lt fl i0 i1 d0 d1 hlt hmx hd]
    have : interpolateDivisor i0 i1 = i1 - i0 := by
      unfold interpolateDivisor
      dsimp only
      rw [if_neg (by omega)]
    rw [this]
    push_cast
    rfl
  · intro hfl w0 w1 w2
    obtain ⟨B, hBdef⟩ : ∃ B : Int, B = 2 ^ 24 := ⟨_, rfl⟩
    rw [← hBdef] at w0 w1 w2
    have hu : (0 : ℚ) ≤ 1 / 2 ^ 53 := by norm_num
    have hB : (2 * (B : ℚ) + 2) * (1 / 2 ^ 53) ≤ 1 / 2 := by rw [hBdef]; norm_num
    have hBmax : B < 2 ^ 30 := by rw [hBdef]; norm_num
    have hE : 12 * (B : ℚ) * ((B : ℚ) + 1) * (1 / 2 ^ 53) ≤ 1 := by rw [hBdef]; norm_num
    obtain ⟨r0, r1, r2, y02, y012, a', b', pixels, hs', -, -, -, -, -, -, -, -, hdraw, -⟩ :=
      DrawFilledTriangleM_spec fl (1 / 2 ^ 53) B hu hfl hB hBmax hE p0 p1 p2 color w0 w1 w2
    obtain ⟨v0, v1, v2⟩ := within_of_perm B p0 p1 p2 q0 q1 q2 hperm w0 w1 w2
    have hbound : ∀ v : ℚ, v ∈ x02 ∨ v ∈ x012 → -((B : ℚ) + 1) ≤ v ∧ v ≤ (B : ℚ) + 1 := by
      intro v hv
      have c0 := v0
      have c1 := v1
      have c2 := v2
      unfold within at c0 c1 c2
      have := edgesM_between fl (1 / 2 ^ 53) B hu hfl hB hBmax q0 q1 q2 h01 h12 v0 v1 v2
        x02 x012 hx02 hx012 (-(B : ℚ)) (B : ℚ)
        (by exact_mod_cast c0.1) (by exact_mod_cast c1.1)
        (by exact_mod_cast c2.1) (by exact_mod_cast c0.2.1) (by exact_mod_cast c1.2.1)
        (by exact_mod_cast c2.2.1) v hv
      constructor <;> linarith [this.1, this.2]
    refine ⟨?_, pixels, hdraw⟩
    intro y hy0 hy2
    obtain ⟨xl, xr, hxl, hxr, h1, h2⟩ := hidx y hy0 hy2
    have ml : xl ∈ x02 ∨ xl ∈ x012 := by
      have := List.getElem?_mem hxl
      split at this
      · exact Or.inl this
      · exact Or.inr this
    have mr : xr ∈ x02 ∨ xr ∈ x012 := by
      have := List.getElem?_mem hxr
      split at this
      · exact Or.inr this
      · exact Or.inl this
    refine ⟨xl, xr, h1, h2, ?_, ?_⟩
    · obtain ⟨b1, b2⟩ := hbound xl ml
      have t1 : -(B + 1) ≤ truncToInt xl := le_truncToInt xl _ (by push_cast; linarith)
      have t2 : truncToInt xl ≤ B + 1 := truncToInt_le xl _ (by push_cast; linarith)
      have : isInt (truncToInt xl) := by
        unfold isInt INT_MIN INT_MAX
        omega
      simp only [toInt, if_pos this]
    · obtain ⟨-, b2⟩ := hbound xr mr
      have : ⌊xr⌋ ≤ B + 1 :=
        Int.cast_le.mp (le_trans (Int.floor_le xr) (by push_cast; linarith))
      unfold INT_MAX
      omega

/-- C11 refuted as stated.  The three `int` points `(0, 2147483646)`, `(0, 2147483647)`,
`(1, 2147483647)` have a row at `INT_MAX`: the loop `for (int i = i0; i <= i1; i++)` of
`Interpolate` cannot leave its last round without overflowing the counter, so the call
has no defined result. -/
theorem DrawFilledTriangleM_overflows :
    isInt 0 ∧ isInt 1 ∧ isInt 2147483646 ∧ isInt 2147483647 ∧
    InterpolateM roundDouble 2147483646 0 2147483647 0 = none ∧
    DrawFilledTriangleM roundDouble ⟨0, 2147483646⟩ ⟨0, 2147483647⟩ ⟨1, 2147483647⟩ 7 = none := by
  refine ⟨by decide, by decide, by decide, by decide, by decide!, by decide!⟩

/-! ## The two readings agree in exact arithmetic -/

theorem compositeEdgeM_id (q0 q1 q2 : Point2D) (h01 : q0.y ≤ q1.y) (h12 : q1.y ≤ q2.y)
    (hmax : q2.y < INT_MAX) (hdiff : isInt (q2.y - q0.y)) :
    compositeEdgeM id q0 q1 q2 = compositeEdge q0 q1 q2 := by
  have hd01 : isInt (q1.y - q0.y) := by
    unfold isInt INT_MIN INT_MAX at *
    omega
  have hd12 : isInt (q2.y - q1.y) := by
    unfold isInt INT_MIN INT_MAX at *
    omega
  have hne := Interpolate_ne_nil q0.y q1.y (q0.x : ℚ) (q1.x : ℚ) h01
  rw [compositeEdge_eq q0 q1 q2 h01]
  simp [compositeEdgeM, InterpolateM_id _ _ _ _ h01 (by omega) hd01,
    InterpolateM_id _ _ _ _ h12 hmax hd12, hne]

theorem leftRightEdgesM_id (q0 q1 q2 : Point2D) (h01 : q0.y ≤ q1.y) (h12 : q1.y ≤ q2.y)
    (hmax : q2.y < INT_MAX) (hdiff : isInt (q2.y - q0.y)) :
    leftRightEdgesM id q0 q1 q2 = leftRightEdges q0 q1 q2 := by
  have h1 : directEdgeM id q0 q2 = some (directEdge q0 q2) :=
    InterpolateM_id _ _ _ _ (le_trans h01 h12) hmax hdiff
  have h2 := compositeEdgeM_id q0 q1 q2 h01 h12 hmax hdiff
  obtain ⟨x012, a, b, hx, ha, hb, hlr⟩ := leftRightEdges_spec q0 q1 q2 h01 h12
  obtain ⟨_, hx', l012, -, -, -⟩ := compositeEdge_spec q0 q1 q2 h01 h12
  rw [hx, Option.some.injEq] at hx'
  subst hx'
  rw [hx] at h2
  obtain ⟨a', b', ha', hb', hlrM⟩ := leftRightEdgesM_spec id q0 q1 q2 _ _ h1 h2
    (directEdge_length q0 q2 (le_trans h01 h12)) l012
  rw [ha, Option.some.injEq] at ha'
  rw [hb, Option.some.injEq] at hb'
  subst ha'
  subst hb'
  rw [hlr, hlrM]

/-- With an exact `fl` and coordinates between `-2 ^ 24` and `2 ^ 24` the machine
reading of `DrawFilledTriangle` is its exact reading. -/
theorem DrawFilledTriangleM_exact (fl : ℚ → ℚ) (hexact : ∀ t : ℚ, fl t = t)
    (p0 p1 p2 : Point2D) (color : Int) (w0 : within (2 ^ 24) p0) (w1 : within (2 ^ 24) p1)
    (w2 : within (2 ^ 24) p2) :
    DrawFilledTriangleM fl p0 p1 p2 color = DrawFilledTriangle p0 p1 p2 color := by
  have hid : fl = id := funext hexact
  subst hid
  obtain ⟨B, hBdef⟩ : ∃ B : Int, B = 2 ^ 24 := ⟨_, rfl⟩
  rw [← hBdef] at w0 w1 w2
  have hBmax : B < 2 ^ 30 := by rw [hBdef]; norm_num
  have hfl0 : RoundsWithin 0 id := id_roundsWithin 0 (le_refl _)
  obtain ⟨q0, q1, q2, hs, h01, h12, hperm⟩ := sortPoints_cases p0 p1 p2
  obtain ⟨v0, v1, v2⟩ := within_of_perm B p0 p1 p2 q0 q1 q2 hperm w0 w1 w2
  have c0 := v0
  have c1 := v1
  have c2 := v2
  unfold within at c0 c1 c2
  have hmax : q2.y < INT_MAX := by unfold INT_MAX; omega
  have hdiff : isInt (q2.y - q0.y) := by unfold isInt INT_MIN INT_MAX; omega
  have hq2 : q2.y ≠ INT_MAX := ne_of_lt hmax
  have hlr := leftRightEdgesM_id q0 q1 q2 h01 h12 hmax hdiff
  obtain ⟨x012, a, b, hx, ha, hb, hlre⟩ := leftRightEdges_spec q0 q1 q2 h01 h12
  have h1 : directEdgeM id q0 q2 = some (directEdge q0 q2) :=
    InterpolateM_id _ _ _ _ (le_trans h01 h12) hmax hdiff
  have h2 : compositeEdgeM id q0 q1 q2 = some x012 := by
    rw [compositeEdgeM_id q0 q1 q2 h01 h12 hmax hdiff, hx]
  have hbound : ∀ v : ℚ, v ∈ directEdge q0 q2 ∨ v ∈ x012 → -(B : ℚ) ≤ v ∧ v ≤ (B : ℚ) := by
    intro v hv
    have := edgesM_between id 0 B (le_refl _) hfl0 (by norm_num) hBmax q0 q1 q2 h01 h12 v0 v1 v2
      _ _ h1 h2 (-(B : ℚ)) (B : ℚ)
      (by exact_mod_cast c0.1) (by exact_mod_cast c1.1)
      (by exact_mod_cast c2.1) (by exact_mod_cast c0.2.1) (by exact_mod_cast c1.2.1)
      (by exact_mod_cast c2.2.1) v hv
    constructor <;> linarith [this.1, this.2]
  have hl : ∀ v : ℚ, v ∈ directEdge q0 q2 ∨ v ∈ x012 → isInt (truncToInt v) := by
    intro v hv
    obtain ⟨b1, b2⟩ := hbound v hv
    have t1 : -B ≤ truncToInt v := le_truncToInt v _ (by push_cast; linarith)
    have t2 : truncToInt v ≤ B := truncToInt_le v _ b2
    unfold isInt INT_MIN INT_MAX
    omega
  have hr : ∀ v : ℚ, v ∈ directEdge q0 q2 ∨ v ∈ x012 → ⌊v⌋ < INT_MAX := by
    intro v hv
    obtain ⟨-, b2⟩ := hbound v hv
    have : ⌊v⌋ ≤ B := Int.cast_le.mp (le_trans (Int.floor_le v) b2)
    unfold INT_MAX
    omega
  simp only [DrawFilledTriangleM, DrawFilledTriangle, hs, hlr, hlre, Option.bind_eq_bind,
    Option.some_bind, if_neg hq2]
  apply drawRowsM_eq
  · intro v hv
    split at hv
    · exact hl v (Or.inl hv)
    · exact hl v (Or.inr hv)
  · intro v hv
    split at hv
    · exact hr v (Or.inr hv)
    · exact hr v (Or.inl hv)

/-- With an exact `fl`, on points whose projection stays in range, the machine reading
of `ProjectTo2D` is its exact reading. -/
theorem ProjectTo2DM_exact (fl : ℚ → ℚ) (hexact : ∀ t : ℚ, fl t = t) (p : Point3D ℚ)
    (hz : p.z + 4 ≠ 0) (hx : |p.x| ≤ 2 ^ 100) (hy : |p.y| ≤ 2 ^ 100)
    (hqx : |256 * p.x / (p.z + 4)| ≤ 2 ^ 16) (hqy : |256 * p.y / (p.z + 4)| ≤ 2 ^ 16) :
    ProjectTo2DM fl p = ProjectTo2D p := by
  have hid : fl = id := funext hexact
  subst hid
  have ex : p.x * 256 / (p.z + 4) = 256 * p.x / (p.z + 4) := by ring
  have ey : p.y * 256 / (p.z + 4) = 256 * p.y / (p.z + 4) := by ring
  have hXabs := abs_le.mp hqx
  have hYabs := abs_le.mp hqy
  have hpx : |id (p.x * 256)| ≤ FLT_MAX := by
    have h3 : |p.x * 256| = |p.x| * 256 := by rw [abs_mul]; norm_num
    unfold FLT_MAX
    rw [id, h3]
    norm_num at hx ⊢
    linarith
  have hpy : |id (p.y * 256)| ≤ FLT_MAX := by
    have h3 : |p.y * 256| = |p.y| * 256 := by rw [abs_mul]; norm_num
    unfold FLT_MAX
    rw [id, h3]
    norm_num at hy ⊢
    linarith
  have ix : isInt (truncToInt (id (160 + id (id (p.x * 256) / id (p.z + 4))))) := by
    simp only [id, ex]
    have t1 : -(70000 : Int) ≤ truncToInt (160 + 256 * p.x / (p.z + 4)) :=
      le_truncToInt _ _ (by push_cast; norm_num at hXabs ⊢; linarith [hXabs.1])
    have t2 : truncToInt (160 + 256 * p.x / (p.z + 4)) ≤ (70000 : Int) :=
      truncToInt_le _ _ (by push_cast; norm_num at hXabs ⊢; linarith [hXabs.2])
    unfold isInt INT_MIN INT_MAX
    omega
  have iy : isInt (truncToInt (id (120 - id (id (p.y * 256) / id (p.z + 4))))) := by
    simp only [id, ey]
    have t1 : -(70000 : Int) ≤ truncToInt (120 - 256 * p.y / (p.z + 4)) :=
      le_truncToInt _ _ (by push_cast; norm_num at hYabs ⊢; linarith [hYabs.2])
    have t2 : truncToInt (120 - 256 * p.y / (p.z + 4)) ≤ (70000 : Int) :=
      truncToInt_le _ _ (by push_cast; norm_num at hYabs ⊢; linarith [hYabs.1])
    unfold isInt INT_MIN INT_MAX
    omega
  rw [ProjectTo2DM_eq id p hz hpx hpy ix iy, ProjectTo2D_of_ne p hz]
  simp only [id, ex, ey]

/-! ## The amended properties on concrete inputs -/

/-- C3 (as the code has it) on `Interpolate(0, 0.0, 10, 1.0)`: in `double` arithmetic,
and in exact arithmetic, where the eleven values are `k / 10` and the last one is
`1`. -/
theorem InterpolateM_spec_witness :
    (∃ (vs : List ℚ) (a : ℚ), InterpolateM roundDouble 0 0 10 1 = some vs ∧
      (vs.length : Int) = 10 - 0 + 1 ∧
      vs[0]? = some 0 ∧
      |a - (1 - 0) / (((10 : Int) : ℚ) - (0 : Int))|
        ≤ ((1 + 1 / 2 ^ 53) ^ 2 - 1) * |(1 - 0) / (((10 : Int) : ℚ) - (0 : Int))| ∧
      (∀ k : Nat, (k : Int) < 10 - 0 →
        ∃ v : ℚ, vs[k]? = some v ∧ vs[k + 1]? = some (roundDouble (v + a))) ∧
      (∀ k : Nat, (k : Int) ≤ 10 - 0 → ∃ v : ℚ, vs[k]? = some v ∧
        |v - (0 + (k : ℚ) * ((1 - 0) / (((10 : Int) : ℚ) - (0 : Int))))|
          ≤ ((1 + 1 / 2 ^ 53) ^ (k + 2) - 1)
            * (|0| + (k : ℚ) * |(1 - 0) / (((10 : Int) : ℚ) - (0 : Int))|))) ∧
    (∃ vs : List ℚ, InterpolateM id 0 0 10 1 = some vs ∧
      (vs.length : Int) = 10 - 0 + 1 ∧
      (∀ k : Nat, (k : Int) ≤ 10 - 0 →
        vs[k]? = some (0 + (k : ℚ) * ((1 - 0) / (((10 : Int) : ℚ) - (0 : Int))))) ∧
      vs.getLast? = some 1) := by
  constructor
  · obtain ⟨vs, a, h1, h2, h3, h4, h5, h6, -⟩ :=
      InterpolateM_spec roundDouble (1 / 2 ^ 53) (by norm_num) roundDouble_roundsWithin 0 10 0 1
        (by decide) (by decide) (by decide)
    exact ⟨vs, a, h1, h2, h3, h4, h5, h6⟩
  · obtain ⟨vs, a, h1, h2, -, -, -, -, h7⟩ :=
      InterpolateM_spec id 0 (le_refl _) (id_roundsWithin 0 (le_refl _)) 0 10 0 1
        (by decide) (by decide) (by decide)
    exact ⟨vs, h1, h2, (h7 rfl).1, (h7 rfl).2.1⟩

/-- C2 (as the code has it) on the triangle `(5, 1)`, `(3, 4)`, `(4, 1)`: in `double`
arithmetic every pixel has `minX - 1 ≤ x ≤ maxX`, in exact arithmetic `minX ≤ x`. -/
theorem DrawFilledTriangleM_in_bounding_box_witness :
    (∃ pixels, DrawFilledTriangleM roundDouble ⟨5, 1⟩ ⟨3, 4⟩ ⟨4, 1⟩ 7 = some pixels ∧
      ∀ px ∈ pixels, minX ⟨5, 1⟩ ⟨3, 4⟩ ⟨4, 1⟩ - 1 ≤ px.x ∧ px.x ≤ maxX ⟨5, 1⟩ ⟨3, 4⟩ ⟨4, 1⟩ ∧
        minY ⟨5, 1⟩ ⟨3, 4⟩ ⟨4, 1⟩ ≤ px.y ∧ px.y ≤ maxY ⟨5, 1⟩ ⟨3, 4⟩ ⟨4, 1⟩) ∧
    (∃ pixels, DrawFilledTriangleM id ⟨5, 1⟩ ⟨3, 4⟩ ⟨4, 1⟩ 7 = some pixels ∧
      ∀ px ∈ pixels, minX ⟨5, 1⟩ ⟨3, 4⟩ ⟨4, 1⟩ ≤ px.x ∧ px.x ≤ maxX ⟨5, 1⟩ ⟨3, 4⟩ ⟨4, 1⟩ ∧
        minY ⟨5, 1⟩ ⟨3, 4⟩ ⟨4, 1⟩ ≤ px.y ∧ px.y ≤ maxY ⟨5, 1⟩ ⟨3, 4⟩ ⟨4, 1⟩) := by
  constructor
  · obtain ⟨pixels, h1, h2, -⟩ := DrawFilledTriangleM_in_bounding_box roundDouble
      roundDouble_roundsWithin ⟨5, 1⟩ ⟨3, 4⟩ ⟨4, 1⟩ 7 (by decide) (by decide) (by decide)
    exact ⟨pixels, h1, h2⟩
  · obtain ⟨pixels, h1, h2, h3⟩ := DrawFilledTriangleM_in_bounding_box id
      (id_roundsWithin _ (by norm_num)) ⟨5, 1⟩ ⟨3, 4⟩ ⟨4, 1⟩ 7 (by decide) (by decide) (by decide)
    exact ⟨pixels, h1, fun px hpx =>
      ⟨h3 (fun _ => rfl) px hpx, (h2 px hpx).2.1, (h2 px hpx).2.2.1, (h2 px hpx).2.2.2⟩⟩

/-- C13 (as the code has it) on the cube vertex `(-1, -1, -1)`: in `float` arithmetic
the result is within one pixel of the formula, in exact arithmetic it is the formula's
value. -/
theorem ProjectTo2DM_formula_witness :
    (∃ x y : Int, ProjectTo2DM roundFloat ⟨-1, -1, -1⟩ = some ⟨x, y⟩ ∧
      x = truncToInt (roundFloat (160 + roundFloat (roundFloat ((-1 : ℚ) * 256)
        / roundFloat ((-1 : ℚ) + 4)))) ∧
      y = truncToInt (roundFloat (120 - roundFloat (roundFloat ((-1 : ℚ) * 256)
        / roundFloat ((-1 : ℚ) + 4)))) ∧
      |x - truncToInt ((160 : ℚ) + 256 * (-1) / ((-1) + 4))| ≤ 1 ∧
      |y - truncToInt ((120 : ℚ) - 256 * (-1) / ((-1) + 4))| ≤ 1) ∧
    (∃ x y : Int, ProjectTo2DM id ⟨-1, -1, -1⟩ = some ⟨x, y⟩ ∧
      x = truncToInt ((160 : ℚ) + 256 * (-1) / ((-1) + 4)) ∧
      y = truncToInt ((120 : ℚ) - 256 * (-1) / ((-1) + 4))) ∧
    (∃ x y : Int, ProjectTo2DM roundFloat ⟨0, 0, 1⟩ = some ⟨x, y⟩ ∧ x = 160 ∧ y = 120) := by
  refine ⟨?_, ?_, ?_⟩
  · obtain ⟨x, y, h1, h2, h3, h4, h5, -⟩ := ProjectTo2DM_formula roundFloat
      roundFloat_roundsWithin (by decide!) (by decide!) ⟨-1, -1, -1⟩
      (by norm_num) (by norm_num) (by norm_num) (by norm_num [abs_of_nonneg])
      (by norm_num [abs_of_nonneg])
    exact ⟨x, y, h1, h2, h3, h4, h5⟩
  · obtain ⟨x, y, h1, -, -, -, -, -, -, h8⟩ := ProjectTo2DM_formula id
      (id_roundsWithin _ (by norm_num)) rfl rfl ⟨-1, -1, -1⟩
      (by norm_num) (by norm_num) (by norm_num) (by norm_num [abs_of_nonneg])
      (by norm_num [abs_of_nonneg])
    exact ⟨x, y, h1, (h8 (fun _ => rfl)).1, (h8 (fun _ => rfl)).2⟩
  · obtain ⟨x, y, h1, -, -, -, -, h6, h7, -⟩ := ProjectTo2DM_formula roundFloat
      roundFloat_roundsWithin (by decide!) (by decide!) ⟨0, 0, 1⟩
      (by norm_num) (by norm_num) (by norm_num) (by norm_num) (by norm_num)
    exact ⟨x, y, h1, h6 rfl, h7 rfl⟩

/-- C16 (as the code has it) on the triangle `(0, 3)`, `(1, 2)`, `(5, 0)`: in `double`
arithmetic the rows `0`, `1` and `2` are in order, in exact arithmetic all four. -/
theorem leftRightEdgesM_ordered_witness :
    (∃ x_left x_right : List ℚ,
      leftRightEdgesM roundDouble (sortPoints ⟨0, 3⟩ ⟨1, 2⟩ ⟨5, 0⟩).1
        (sortPoints ⟨0, 3⟩ ⟨1, 2⟩ ⟨5, 0⟩).2.1
        (sortPoints ⟨0, 3⟩ ⟨1, 2⟩ ⟨5, 0⟩).2.2 = some (x_left, x_right) ∧
      ∀ k : Nat, (k : Int) < (sortPoints ⟨0, 3⟩ ⟨1, 2⟩ ⟨5, 0⟩).2.2.y
            - (sortPoints ⟨0, 3⟩ ⟨1, 2⟩ ⟨5, 0⟩).1.y →
        ∃ xl xr : ℚ, x_left[k]? = some xl ∧ x_right[k]? = some xr ∧ xl ≤ xr) ∧
    (∃ x_left x_right : List ℚ,
      leftRightEdgesM id (sortPoints ⟨0, 3⟩ ⟨1, 2⟩ ⟨5, 0⟩).1
        (sortPoints ⟨0, 3⟩ ⟨1, 2⟩ ⟨5, 0⟩).2.1
        (sortPoints ⟨0, 3⟩ ⟨1, 2⟩ ⟨5, 0⟩).2.2 = some (x_left, x_right) ∧
      ∀ k : Nat, (k : Int) ≤ (sortPoints ⟨0, 3⟩ ⟨1, 2⟩ ⟨5, 0⟩).2.2.y
            - (sortPoints ⟨0, 3⟩ ⟨1, 2⟩ ⟨5, 0⟩).1.y →
        ∃ xl xr : ℚ, x_left[k]? = some xl ∧ x_right[k]? = some xr ∧ xl ≤ xr) := by
  constructor
  · obtain ⟨xl, xr, h1, h2⟩ := leftRightEdgesM_ordered roundDouble roundDouble_roundsWithin
      ⟨0, 3⟩ ⟨1, 2⟩ ⟨5, 0⟩ (by decide) (by decide) (by decide) (by decide) (by decide)
      (by decide)
    refine ⟨xl, xr, h1, fun k hk => ?_⟩
    obtain ⟨u, v, a1, a2, -, a4, -⟩ := h2 k (le_of_lt hk)
    exact ⟨u, v, a1, a2, a4 (by decide) hk⟩
  · obtain ⟨xl, xr, h1, h2⟩ := leftRightEdgesM_ordered id (id_roundsWithin _ (by norm_num))
      ⟨0, 3⟩ ⟨1, 2⟩ ⟨5, 0⟩ (by decide) (by decide) (by decide) (by decide) (by decide)
      (by decide)
    refine ⟨xl, xr, h1, fun k hk => ?_⟩
    obtain ⟨u, v, a1, a2, -, -, a5⟩ := h2 k hk
    exact ⟨u, v, a1, a2, a5 (fun _ => rfl)⟩

/-- C11 (as the code has it) in `double` arithmetic on the degenerate triangle
`(3, 3)`, `(3, 3)`, `(7, 3)`: every access is in range and the call returns. -/
theorem DrawFilledTriangleM_safe_witness :
    ∃ (q0 q1 q2 : Point2D) (x01 x12 x02 x012 x_left x_right : List ℚ),
      sortPoints ⟨3, 3⟩ ⟨3, 3⟩ ⟨7, 3⟩ = (q0, q1, q2) ∧
      InterpolateM roundDouble q0.y (q0.x : ℚ) q1.y (q1.x : ℚ) = some x01 ∧
      InterpolateM roundDouble q1.y (q1.x : ℚ) q2.y (q2.x : ℚ) = some x12 ∧
      InterpolateM roundDouble q0.y (q0.x : ℚ) q2.y (q2.x : ℚ) = some x02 ∧
      x01 ≠ [] ∧
      compositeEdgeM roundDouble q0 q1 q2 = some x012 ∧ x012 = x01.dropLast ++ x12 ∧
      (x012.length : Int) = q2.y - q0.y + 1 ∧
      (x02.length : Int) = q2.y - q0.y + 1 ∧
      (∃ a b : ℚ, indexAt x02 ((x02.length / 2 : Nat) : Int) = some a ∧
        indexAt x012 ((x02.length / 2 : Nat) : Int) = some b) ∧
      leftRightEdgesM roundDouble q0 q1 q2 = some (x_left, x_right) ∧
      (∀ y : Int, q0.y ≤ y → y ≤ q2.y →
        ∃ xl xr : ℚ, indexAt x_left (y - q0.y) = some xl ∧
          indexAt x_right (y - q0.y) = some xr ∧ toInt xl = some (truncToInt xl) ∧
          ⌊xr⌋ < INT_MAX) ∧
      ∃ pixels : List Pixel,
        DrawFilledTriangleM roundDouble ⟨3, 3⟩ ⟨3, 3⟩ ⟨7, 3⟩ 7 = some pixels := by
  obtain ⟨q0, q1, q2, x01, x12, x02, x012, xl, xr, h1, h2, h3, h4, h5, h6, h7, h8, h9, h10, h11,
    -, -, -, h15⟩ := DrawFilledTriangleM_safe roundDouble ⟨3, 3⟩ ⟨3, 3⟩ ⟨7, 3⟩ 7 (by decide)
      (by decide)
  obtain ⟨h16, h17⟩ := h15 roundDouble_roundsWithin (by decide) (by decide) (by decide)
  exact ⟨q0, q1, q2, x01, x12, x02, x012, xl, xr, h1, h2, h3, h4, h5, h6, h7, h8, h9, h10, h11,
    h16, h17⟩

/-! ## Two screen-sized triangles in `double` arithmetic -/

/-- Rounding on a triangle of the size that the cube has on the screen: the triangle
`(74, 205)`, `(246, 203)`, `(241, 31)`, whose least `x` is `74`, gets the pixel
`(73, 205)`. -/
theorem DrawFilledTriangleM_screen_sized_left :
    (DrawFilledTriangleM roundDouble ⟨74, 205⟩ ⟨246, 203⟩ ⟨241, 31⟩ 6).map
      (fun pixels => decide ((⟨73, 205, 6⟩ : Pixel) ∈ pixels)) = some true := by
  decide!

/-- Rounding on a triangle of the size that the cube has on the screen: the triangle
`(74, 205)`, `(241, 31)`, `(72, 35)` gets no pixel in its bottom row `205`. -/
theorem DrawFilledTriangleM_screen_sized_bottom :
    (DrawFilledTriangleM roundDouble ⟨74, 205⟩ ⟨241, 31⟩ ⟨72, 35⟩ 6).map
      (fun pixels => pixels.any (fun px => decide (px.y = 205))) = some false := by
  decide!

end CubeDemo
